import Mathlib

/- Verification of the PsychSim dependency-graph core (graph.py) and the
prediction entry point of the teamofrivals example.  The Python classes are
shallowly embedded: dictionaries become association lists, sets become
duplicate-free lists or Finsets, in-place mutation becomes state passing, and
exceptions (assert / KeyError) become Except values.  Helpers that live in the
world / pwl / action modules, which are not part of the given sources, are
modelled from the spec and marked as such. -/

set_option maxHeartbeats 1000000

namespace Psy

/-- State variable identifier: owning entity, feature name and temporal tag;
post = true is the value after the current step. -/
structure SKey where
  entity : String
  feature : String
  post : Bool
deriving DecidableEq

/-- Modelled from the spec: world.makeFuture converts a key to its post-tagged
form without touching entity or feature (world module missing from src). -/
def makeFuture (k : SKey) : SKey := { k with post := true }

/-- Modelled from the spec: world.makePresent converts a key back to its
pre-tagged form (world module missing from src). -/
def makePresent (k : SKey) : SKey := { k with post := false }

/-- Modelled from the spec: world.stateKey builds the identifier of an entity
feature pair; the third argument selects the post tag (world module missing
from src). -/
def stateKey (entity feature : String) (future : Bool) : SKey :=
  ⟨entity, feature, future⟩

/-- Modelled from the spec: turn keys form a reserved feature namespace used
for turn order; world.isTurnKey recognises them (world module missing from
src). -/
def turnFeature : String := "__TURN__"

def isTurnKey (k : SKey) : Bool := k.feature == turnFeature

/-- Modelled from the spec: an atomic action with its canonical part (subject,
verb, object) and extra parameters; Action.root drops the extra parameters,
yielding the canonical atomic root form (action module missing from src). -/
structure Atom where
  subject : String
  verb : String
  obj : Option String
  params : List (String × Int)
deriving DecidableEq

def Atom.root (a : Atom) : Atom := { a with params := [] }

/-- Modelled from the spec: an ActionSet is a set of atomic actions forming one
joint action (action module missing from src). -/
abbrev ActS := Finset Atom

/-- Reduction of a joint action to canonical root forms, as in
ActionSet of the roots of its atoms. -/
def reduceAS (a : ActS) : ActS := a.image Atom.root

/-- Modelled from the spec: a key appearing in a symbolic tree is either the
constant pseudo key (pwl.CONSTANT) or a real state key (pwl module missing
from src). -/
inductive PKey
  | const
  | state (k : SKey)
deriving DecidableEq

/-- Modelled from the spec: of a symbolic decision tree, graph construction
only uses the set of keys it references (getKeysIn), so the embedding keeps
exactly that set (pwl module missing from src). -/
structure STree where
  keysIn : List PKey
deriving DecidableEq

/-- Keys referenced by a tree minus the constant pseudo key, as in
tree.getKeysIn() minus the singleton of pwl.CONSTANT. -/
def STree.stateKeys (t : STree) : List SKey :=
  t.keysIn.filterMap (fun p => match p with | .const => none | .state k => some k)

/-- Graph node identifier: the DependencyGraph dictionary is keyed by state
keys, by action sets and by agent names (utility nodes); the spec's design
notes call for a tagged union of these. -/
inductive GKey
  | st (k : SKey)
  | act (a : ActS)
  | util (name : String)
deriving DecidableEq

inductive NType
  | statePre
  | statePost
  | actionNode
  | utility
deriving DecidableEq

/-- Content of one node record of the DependencyGraph dictionary. -/
structure GNode where
  agent : String
  ntype : NType
  parents : List GKey
  children : List GKey
deriving DecidableEq

/-- The DependencyGraph dictionary contents, as an association list in
insertion order. -/
abbrev Graph := List (GKey × GNode)

def gget : Graph → GKey → Option GNode
  | [], _ => none
  | (k, n) :: rest, q => if k = q then some n else gget rest q

def keysOf (G : Graph) : List GKey := G.map Prod.fst

/-- Python dictionary assignment: replace the entry when the key is present,
keeping its position, else append. -/
def dinsert : Graph → GKey → GNode → Graph
  | [], k, v => [(k, v)]
  | (k0, n0) :: rest, k, v =>
      if k0 = k then (k0, v) :: rest else (k0, n0) :: dinsert rest k v

/-- Python set.add on a set represented as a duplicate-free list. -/
def addOnce (x : GKey) (l : List GKey) : List GKey := if x ∈ l then l else l ++ [x]

def setNode (G : Graph) (k : GKey) (f : GNode → GNode) : Graph :=
  G.map (fun kn => if kn.1 = k then (kn.1, f kn.2) else kn)

/-- Raw dictionary access adding a parent to a node: raises KeyError when the
child node is missing. -/
def addPar (G : Graph) (child parent : GKey) : Except String Graph :=
  match gget G child with
  | none => .error "KeyError"
  | some _ => .ok (setNode G child (fun m => { m with parents := addOnce parent m.parents }))

/-- Raw dictionary access adding a child to a node: raises KeyError when the
parent node is missing. -/
def addChild (G : Graph) (parent child : GKey) : Except String Graph :=
  match gget G parent with
  | none => .error "KeyError"
  | some _ => .ok (setNode G parent (fun m => { m with children := addOnce child m.children }))

/-- One edge of the dependency graph, in the order the source writes it: first
the parent is added to the child's parent set, then the child to the parent's
child set. -/
def link (G : Graph) (child parent : GKey) : Except String Graph := do
  let G1 ← addPar G child parent
  addChild G1 parent child

/-- Per-agent declarative data consumed by computeGraph: the action sets, the
reward trees of the True model (None when the model has no R entry at all;
some [] when the R entry is an empty table, which getAttribute treats as
falsy), and the legality table. -/
structure AgentD where
  actions : List ActS
  reward : Option (List STree)
  legal : List (ActS × STree)

/-- One entry of a binary relation table; only the subject is read. -/
structure RelEntry where
  subject : String

/-- A dynamics table entry is either a boolean sentinel or a mapping from
actions to trees, where the action slot none stands for the Python literal
True (the generic entry skipped by the action link). -/
inductive DynEntry
  | sentinel (b : Bool)
  | table (entries : List (Option ActS × STree))

/-- The declarative world description read by computeGraph. -/
structure World where
  locals : List (String × List String)
  relations : List (String × List (SKey × RelEntry))
  agents : List (String × AgentD)
  dynamics : List (SKey × DynEntry)

/-- Node creation for the per-entity state features of one agent: a pre and a
post node per feature. -/
def addLocalFeatures (G : Graph) (agent : String) : List String → Graph
  | [] => G
  | f :: fs =>
      addLocalFeatures
        (dinsert (dinsert G (.st (stateKey agent f false)) ⟨agent, .statePre, [], []⟩)
          (.st (stateKey agent f true)) ⟨agent, .statePost, [], []⟩)
        agent fs

def localNodes (G : Graph) : List (String × List String) → Graph
  | [] => G
  | (agent, feats) :: rest => localNodes (addLocalFeatures G agent feats) rest

/-- Node creation for one binary relation table: a pre and a post node per
relation key. -/
def addRelEntries (G : Graph) : List (SKey × RelEntry) → Graph
  | [] => G
  | (k, e) :: rest =>
      addRelEntries
        (dinsert (dinsert G (.st k) ⟨e.subject, .statePre, [], []⟩)
          (.st (makeFuture k)) ⟨e.subject, .statePost, [], []⟩)
        rest

def relNodes (G : Graph) : List (String × List (SKey × RelEntry)) → Graph
  | [] => G
  | (_, table) :: rest => relNodes (addRelEntries G table) rest

/-- Truthiness of agent.getAttribute of R on the True model: present and a
non-empty table. -/
def rewardTruthy (a : AgentD) : Bool :=
  match a.reward with
  | some l => !l.isEmpty
  | none => false

/-- Action node creation: each action set is reduced to its root form and a
node is created only when that key is not yet present. -/
def addActionNodes (G : Graph) (name : String) : List ActS → Graph
  | [] => G
  | a :: rest =>
      let r : GKey := .act (reduceAS a)
      addActionNodes (if r ∈ keysOf G then G else G ++ [(r, ⟨name, .actionNode, [], []⟩)])
        name rest

def agentNodes (G : Graph) : List (String × AgentD) → Graph
  | [] => G
  | (name, ag) :: rest =>
      agentNodes
        (addActionNodes
          (if rewardTruthy ag then dinsert G (.util name) ⟨name, .utility, [], []⟩ else G)
          name ag.actions)
        rest

/-- The node creation phase of computeGraph, lines 44 to 80 of graph.py. -/
def nodesOf (w : World) : Graph :=
  agentNodes (relNodes (localNodes [] w.locals) w.relations) w.agents

/-- Edges from the keys a dynamics tree references to the post node of the key
it is dynamics for. -/
def treeLinks (G : Graph) (c : GKey) : List SKey → Except String Graph
  | [] => .ok G
  | p :: ps => do
      let G1 ← link G c (.st p)
      treeLinks G1 c ps

/-- Processing of one dynamics table: the assert on the action precedes the
action edge; the tree edges are added for every entry, the True slot included. -/
def dynTable (G : Graph) (k : SKey) : List (Option ActS × STree) → Except String Graph
  | [] => .ok G
  | (actOpt, t) :: rest => do
      let G1 ←
        match actOpt with
        | none => Except.ok G
        | some a =>
            if GKey.act a ∈ keysOf G then link G (.st (makeFuture k)) (.act a)
            else Except.error "Graph has not accounted for action"
      let G2 ← treeLinks G1 (.st (makeFuture k)) t.stateKeys
      dynTable G2 k rest

/-- The dynamics link phase of computeGraph, lines 82 to 97 of graph.py: turn
keys are skipped before the key assert, boolean sentinels after it. -/
def dynLinks (G : Graph) : List (SKey × DynEntry) → Except String Graph
  | [] => .ok G
  | (k, e) :: rest =>
      if isTurnKey k then dynLinks G rest
      else if GKey.st k ∈ keysOf G then
        match e with
        | .sentinel _ => dynLinks G rest
        | .table entries => do
            let G1 ← dynTable G k entries
            dynLinks G1 rest
      else .error "Graph has not accounted for key"

/-- Edges from the future form of every key a reward tree references to the
agent utility node. -/
def rewardTreeLinks (G : Graph) (name : String) : List SKey → Except String Graph
  | [] => .ok G
  | p :: ps => do
      let G1 ← link G (.util name) (.st (makeFuture p))
      rewardTreeLinks G1 name ps

def rewardLinks (G : Graph) (name : String) : List STree → Except String Graph
  | [] => .ok G
  | t :: ts => do
      let G1 ← rewardTreeLinks G name t.stateKeys
      rewardLinks G1 name ts

/-- Edges from the keys a legality tree references to its action node; the
assert on the action sits inside the per-key loop, so a tree referencing no
keys performs no check at all. -/
def legalTreeLinks (G : Graph) (a : ActS) : List SKey → Except String Graph
  | [] => .ok G
  | p :: ps =>
      if GKey.act a ∈ keysOf G then do
        let G1 ← link G (.act a) (.st p)
        legalTreeLinks G1 a ps
      else .error "Graph has not accounted for action"

def legalLinks (G : Graph) : List (ActS × STree) → Except String Graph
  | [] => .ok G
  | (a, t) :: rest => do
      let G1 ← legalTreeLinks G (reduceAS a) t.stateKeys
      legalLinks G1 rest

/-- The reward and legality link phase of computeGraph, lines 98 to 113 of
graph.py. -/
def agentLinks (G : Graph) : List (String × AgentD) → Except String Graph
  | [] => .ok G
  | (name, ag) :: rest => do
      let G1 ←
        match ag.reward with
        | none => Except.ok G
        | some ts => rewardLinks G name ts
      let G2 ← legalLinks G1 ag.legal
      agentLinks G2 rest

/-- DependencyGraph.computeGraph: node creation, then dynamics links, then
reward and legality links. -/
def computeGraph (w : World) : Except String Graph := do
  let G1 ← dynLinks (nodesOf w) w.dynamics
  agentLinks G1 w.agents

/-- Mutable state of computeLineage: the level assignments stored in the node
records and the ancestor sets stored in the node records. -/
structure LState where
  level : GKey → Option Nat
  anc : GKey → List GKey

def parentsOf (G : Graph) (k : GKey) : List GKey :=
  match gget G k with
  | some n => n.parents
  | none => []

def childrenOf (G : Graph) (k : GKey) : List GKey :=
  match gget G k with
  | some n => n.children
  | none => []

/-- In-place set union: the left set receives the new members of the right
set. -/
def unionL (dst src : List GKey) : List GKey := src.foldl (fun acc x => addOnce x acc) dst

/-- Eligibility of a child for the layer being built: every parent already has
a level at most the current level counter. -/
def eligible (G : Graph) (s : LState) (L : Nat) (c : GKey) : Bool :=
  (parentsOf G c).all (fun p =>
    match s.level p with
    | some lp => decide (lp ≤ L)
    | none => false)

/-- Processing of one child reached from one key of the current layer: the
ancestor union always happens first; then, unless the child is already in the
layer being built, the eligibility check may add it with level L + 1. -/
def ancUpd (s : LState) (key c : GKey) : GKey → List GKey :=
  fun x => if x = c then unionL (s.anc c) (s.anc key) else s.anc x

def procChild (G : Graph) (L : Nat) (key : GKey) (st : LState × List GKey) (c : GKey) :
    LState × List GKey :=
  if c ∈ st.2 then ({ st.1 with anc := ancUpd st.1 key c }, st.2)
  else if eligible G st.1 L c then
    ({ level := fun x => if x = c then some (L + 1) else st.1.level x,
       anc := ancUpd st.1 key c }, st.2 ++ [c])
  else ({ st.1 with anc := ancUpd st.1 key c }, st.2)

/-- One iteration of the computeLineage while loop: process every key of the
current layer, visiting its children in order. -/
def buildLayer (G : Graph) (L : Nat) (s : LState) (ks : List GKey) : LState × List GKey :=
  ks.foldl (fun st key => (childrenOf G key).foldl (procChild G L key) st) (s, [])

def sumLens (ls : List (List GKey)) : Nat := (ls.map List.length).sum

/-- The computeLineage while loop; the Python loop has no fuel and runs until
the layers account for all nodes, which on acyclic well-formed graphs happens
within numKeys iterations (proved below), so running it with that much fuel
reproduces it exactly there. -/
def linLoop (G : Graph) : Nat → Nat → List (List GKey) → LState → List (List GKey) × LState
  | 0, _, layers, s => (layers, s)
  | fuel + 1, L, layers, s =>
      if sumLens layers < G.length then
        let r := buildLayer G L s (layers.getD L [])
        linLoop G fuel (L + 1) (layers ++ [r.2]) r.1
      else (layers, s)

/-- Result of computeLineage: the root set, the layers, and the per-node level
and ancestor assignments. -/
structure LinOut where
  root : List GKey
  layers : List (List GKey)
  level : GKey → Option Nat
  anc : GKey → List GKey

/-- DependencyGraph.computeLineage over an already built graph: ancestors start
as a copy of the parent sets, parentless nodes form level 0 and the root set,
and the while loop grows the layer list. -/
def computeLineage (G : Graph) : LinOut :=
  let roots := (keysOf G).filter (fun k => (parentsOf G k).isEmpty)
  let s0 : LState :=
    { level := fun k => if k ∈ roots then some 0 else none
      anc := fun k => parentsOf G k }
  let r := linLoop G G.length 0 [roots] s0
  ⟨roots, r.1, r.2.level, r.2.anc⟩

/-- Python set.add on a set of state keys represented as a duplicate-free
list. -/
def addOnceS (x : SKey) (l : List SKey) : List SKey := if x ∈ l then l else l ++ [x]

/-- The while loop padding the evaluation list with empty buckets up to the
given length. -/
def padTo (ev : List (List SKey)) (n : Nat) : List (List SKey) :=
  ev ++ List.replicate (n - ev.length) []

/-- Processing of one post key by computeEvaluation: a missing level is a
KeyError, otherwise the present form of the key joins the bucket at the
level's index. -/
def evalStep (lin : LinOut) (ev : List (List SKey)) (k : SKey) :
    Except String (List (List SKey)) :=
  match lin.level (.st k) with
  | none => .error "KeyError"
  | some L =>
      let ev1 := padTo ev (L + 1)
      .ok (ev1.set L (addOnceS (makePresent k) (ev1.getD L [])))

def evalFeatures (lin : LinOut) (agent : String) (ev : List (List SKey)) :
    List String → Except String (List (List SKey))
  | [] => .ok ev
  | f :: fs => do
      let ev1 ← evalStep lin ev (stateKey agent f true)
      evalFeatures lin agent ev1 fs

def evalLocals (lin : LinOut) (ev : List (List SKey)) :
    List (String × List String) → Except String (List (List SKey))
  | [] => .ok ev
  | (agent, fs) :: rest => do
      let ev1 ← evalFeatures lin agent ev fs
      evalLocals lin ev1 rest

/-- DependencyGraph.computeEvaluation: every declared per-entity feature's post
key is bucketed, in present form, at the index given by its level. -/
def computeEvaluation (w : World) (lin : LinOut) : Except String (List (List SKey)) :=
  evalLocals lin [] w.locals

/-- The DependencyGraph object: the underlying dictionary plus the three lazy
caches; root and layers are always filled together by computeLineage, so they
are cached as one LinOut. -/
structure DepGraph where
  w : World
  dict : Graph
  linC : Option LinOut
  evalC : Option (List (List SKey))

/-- A freshly cleared DependencyGraph over a world. -/
def freshDG (w : World) : DepGraph := ⟨w, [], none, none⟩

/-- The construction-on-first-use guard shared by the overridden accessors:
when the dictionary is empty, computeGraph fills it. -/
def ensureGraph (d : DepGraph) : Except String Graph :=
  if d.dict.isEmpty then computeGraph d.w else .ok d.dict

/-- DependencyGraph.items. -/
def dgItems (d : DepGraph) : Except String (Graph × DepGraph) := do
  let G ← ensureGraph d
  .ok (G, { d with dict := G })

/-- DependencyGraph.keys. -/
def dgKeys (d : DepGraph) : Except String (List GKey × DepGraph) := do
  let G ← ensureGraph d
  .ok (keysOf G, { d with dict := G })

/-- DependencyGraph.values. -/
def dgValues (d : DepGraph) : Except String (List GNode × DepGraph) := do
  let G ← ensureGraph d
  .ok (G.map Prod.snd, { d with dict := G })

/-- DependencyGraph.__getitem__: builds when empty, then a plain dictionary
lookup. -/
def dgGetItem (d : DepGraph) (k : GKey) : Except String (GNode × DepGraph) := do
  let G ← ensureGraph d
  match gget G k with
  | some n => .ok (n, { d with dict := G })
  | none => .error "KeyError"

/-- Iteration over the DependencyGraph: the class overrides no __iter__, so a
for loop over the object iterates the raw dictionary contents with no
construction-on-first-use guard. -/
def dgIter (d : DepGraph) : List GKey := keysOf d.dict

/-- DependencyGraph.getLayers: computeLineage runs when the cache is empty; it
reads the dictionary through items, which builds it when empty. -/
def dgGetLayers (d : DepGraph) : Except String (List (List GKey) × DepGraph) :=
  match d.linC with
  | some lin => .ok (lin.layers, d)
  | none => do
      let G ← ensureGraph d
      let lin := computeLineage G
      .ok (lin.layers, { d with dict := G, linC := some lin })

/-- DependencyGraph.getRoot. -/
def dgGetRoot (d : DepGraph) : Except String (List GKey × DepGraph) :=
  match d.linC with
  | some lin => .ok (lin.root, d)
  | none => do
      let G ← ensureGraph d
      let lin := computeLineage G
      .ok (lin.root, { d with dict := G, linC := some lin })

/-- DependencyGraph.getEvaluation: computeEvaluation runs when the cache is
empty; it first obtains the layering (building graph and lineage as needed). -/
def dgGetEvaluation (d : DepGraph) : Except String (List (List SKey) × DepGraph) :=
  match d.evalC with
  | some ev => .ok (ev, d)
  | none =>
      match d.linC with
      | some lin => do
          let ev ← computeEvaluation d.w lin
          .ok (ev, { d with evalC := some ev })
      | none => do
          let G ← ensureGraph d
          let lin := computeLineage G
          let ev ← computeEvaluation d.w lin
          .ok (ev, { d with dict := G, linC := some lin, evalC := some ev })

/-- Modelled from the spec: a distribution over symbolic values. -/
abbrev Dist := List (String × Rat)

/-- Modelled from the spec: one outcome record of a step call; only its new
state is read, as a marginal distribution per state key. -/
structure Outcome where
  newState : SKey → Dist

/-- Modelled from the spec: World.getState reads the marginal distribution of
an entity's feature from a state (world module missing from src). -/
def getStateM (σ : SKey → Dist) (entity feature : String) : Dist :=
  σ (stateKey entity feature false)

/-- Prediction record returned by predictResult for one object. -/
structure PredRec where
  acts : ActS
  leader : Dist
  winner : Dist

/-- The ResourceWorld of the teamofrivals example; its stepping engine lives in
the missing world module and is modelled from the spec as an opaque function
from a joint action, the real flag and the key subset to outcome records. -/
structure RWorld where
  winnerState : String
  step : ActS → Bool → Finset SKey → List Outcome

/-- Python set.add on a set of atoms represented as a duplicate-free list. -/
def addAtomL (x : Atom) (l : List Atom) : List Atom := if x ∈ l then l else l ++ [x]

/-- Insertion of one atom into the per-object grouping table, preserving first
occurrence order as a Python dictionary does. -/
def addTarget : List (String × List Atom) → String → Atom → List (String × List Atom)
  | [], o, a => [(o, [a])]
  | (o0, l) :: rest, o, a =>
      if o0 = o then (o0, addAtomL a l) :: rest else (o0, l) :: addTarget rest o a

/-- Grouping the atoms of one agent's action by their object slot; an atom
without an object is a KeyError. -/
def collectAtoms : List (String × List Atom) → List Atom →
    Except String (List (String × List Atom))
  | groups, [] => .ok groups
  | groups, a :: rest =>
      match a.obj with
      | none => .error "KeyError"
      | some o => collectAtoms (addTarget groups o a) rest

/-- The target collection loop of predictResult over all agents' actions. -/
def collectTargets : List (String × List Atom) → List (String × List Atom) →
    Except String (List (String × List Atom))
  | groups, [] => .ok groups
  | groups, (_, atoms) :: rest => do
      let g1 ← collectAtoms groups atoms
      collectTargets g1 rest

/-- The per-object prediction loop of predictResult: step is invoked with the
object's actions, real set to False and the keys restricted to the object's
invader and owner keys; exactly one outcome is asserted, and the leader and
winner distributions are read off its new state. -/
def predictObjs (w : RWorld) : List (String × List Atom) →
    Except String (List (String × PredRec))
  | [] => .ok []
  | (o, atoms) :: rest =>
      match w.step atoms.toFinset false
          {stateKey o "invader" false, stateKey o "owner" false} with
      | [out] => do
          let others ← predictObjs w rest
          .ok ((o, ⟨atoms.toFinset, getStateM out.newState o w.winnerState,
            getStateM out.newState o "owner"⟩) :: others)
      | _ => .error "AssertionError"

/-- ResourceWorld.predictResult of the teamofrivals example. -/
def predictResult (w : RWorld) (actions : List (String × List Atom)) :
    Except String (List (String × PredRec)) := do
  let groups ← collectTargets [] actions
  predictObjs w groups

/- ------------------------------------------------------------------ -/
/- Structural lemmas about computeGraph.                              -/
/- ------------------------------------------------------------------ -/

/-- The pure effect of a successful link call. -/
def linkG (G : Graph) (c p : GKey) : Graph :=
  setNode (setNode G c (fun m => { m with parents := addOnce p m.parents })) p
    (fun m => { m with children := addOnce c m.children })

/-- Monotone evolution of the graph during the edge phases: the key list is
unchanged and parent and child sets only grow. -/
def MonoTo (G G2 : Graph) : Prop :=
  keysOf G2 = keysOf G ∧
    ∀ q, parentsOf G q ⊆ parentsOf G2 q ∧ childrenOf G q ⊆ childrenOf G2 q

/-- Well-formedness direction one: every child reference lands on an existing
node whose parent set records the edge back. -/
def DualPC (G : Graph) : Prop :=
  ∀ k, k ∈ keysOf G → ∀ c, c ∈ childrenOf G k → c ∈ keysOf G ∧ k ∈ parentsOf G c

/-- Well-formedness direction two: every parent reference lands on an existing
node whose child set records the edge back. -/
def DualCP (G : Graph) : Prop :=
  ∀ c, c ∈ keysOf G → ∀ p, p ∈ parentsOf G c → p ∈ keysOf G ∧ c ∈ childrenOf G p

/-- All nodes created by the node phase carry empty parent and child sets. -/
def EmptyNodes (G : Graph) : Prop :=
  ∀ k n, gget G k = some n → n.parents = [] ∧ n.children = []

/-- Closure of the state keys of a graph under the future tag. -/
def StClosed (G : Graph) : Prop :=
  ∀ sk, GKey.st sk ∈ keysOf G → GKey.st (makeFuture sk) ∈ keysOf G

/- ------------------------------------------------------------------ -/
/- The edge phases: monotonicity and duality preservation.            -/
/- ------------------------------------------------------------------ -/

/-- Bundle of graph invariants preserved by every successful link. -/
def LinkInv (G : Graph) : Prop := DualPC G ∧ DualCP G

/-- Well-formedness of a successfully built dependency graph. -/
structure GWF (G : Graph) : Prop where
  nodup : (keysOf G).Nodup
  dualPC : DualPC G
  dualCP : DualCP G

/- ------------------------------------------------------------------ -/
/- Invariants of the computeLineage while loop.                       -/
/- ------------------------------------------------------------------ -/

/-- Acyclicity of the parent relation, witnessed by a rank function that
strictly decreases from every node to each of its parents. -/
def Acyclic (G : Graph) : Prop :=
  ∃ rank : GKey → Nat, ∀ k ∈ keysOf G, ∀ p ∈ parentsOf G k, rank p < rank k

/-- Every ancestor recorded so far has strictly smaller rank than its node. -/
def AncRank (rank : GKey → Nat) (s : LState) : Prop :=
  ∀ k a, a ∈ s.anc k → rank a < rank k

/-- State invariant at the top of the while loop, with level counter L and the
layer list built so far. -/
structure Inv (G : Graph) (L : Nat) (layers : List (List GKey)) (s : LState) : Prop where
  len : layers.length = L + 1
  layNodup : ∀ lay ∈ layers, lay.Nodup
  mem_iff : ∀ j, j < layers.length → ∀ k, (k ∈ layers.getD j [] ↔ s.level k = some j)
  lvl_keys : ∀ k j, s.level k = some j → k ∈ keysOf G
  lvl_le : ∀ k j, s.level k = some j → j ≤ L
  strict : ∀ k j, s.level k = some j → ∀ p, p ∈ parentsOf G k →
      ∃ jp, s.level p = some jp ∧ jp < j
  zero_iff : ∀ k, k ∈ keysOf G → (s.level k = some 0 ↔ parentsOf G k = [])
  complete : ∀ k, k ∈ keysOf G →
      (∀ p, p ∈ parentsOf G k → ∃ jp, s.level p = some jp ∧ jp < L) → (s.level k).isSome
  anc_par : ∀ k, parentsOf G k ⊆ s.anc k
  anc_acc : ∀ c, c ∈ keysOf G → ∀ p, p ∈ parentsOf G c → ∀ jp, s.level p = some jp →
      jp < L → s.anc p ⊆ s.anc c

/-- State invariant inside one iteration of the while loop, relating the entry
state to the current state and the layer being built. -/
structure Mid (G : Graph) (rank : GKey → Nat) (L : Nat) (s0 s : LState)
    (lay : List GKey) : Prop where
  lvl_eq : ∀ k, s.level k = if k ∈ lay then some (L + 1) else s0.level k
  lay_nodup : lay.Nodup
  lay_new : ∀ k, k ∈ lay → k ∈ keysOf G ∧ s0.level k = none ∧
      ∀ p, p ∈ parentsOf G k → ∃ jp, s0.level p = some jp ∧ jp ≤ L
  anc_mono : ∀ k, s0.anc k ⊆ s.anc k
  anc_stable : ∀ k j, s0.level k = some j → s.anc k = s0.anc k
  anc_rank : AncRank rank s

/-- Rank-indexed completeness: a node whose normalised rank is below the level
counter has already been placed, at a level bounded by that rank. -/
def RInv (G : Graph) (rankB : GKey → Nat) (L : Nat) (s : LState) : Prop :=
  ∀ k, k ∈ keysOf G → rankB k < L → ∃ j, s.level k = some j ∧ j ≤ rankB k

/-- Union of the layer sets. -/
def layerFinset : List (List GKey) → Finset GKey
  | [] => ∅
  | l :: ls => l.toFinset ∪ layerFinset ls
def GoodDynEntry (ns : List GKey) (d : SKey × DynEntry) : Prop :=
  isTurnKey d.1 = true ∨ (GKey.st d.1 ∈ ns ∧
    match d.2 with
    | .sentinel _ => True
    | .table es => ∀ ao t, (ao, t) ∈ es →
        (∀ a, ao = some a → GKey.act a ∈ ns) ∧ ∀ p, p ∈ t.stateKeys → GKey.st p ∈ ns)

/-- The conditions under which one agent's reward and legality tables pass
graph construction: every reward-referenced key must have a future node, every
legality-referenced key a node, and a legality action needs a node only when
its tree references at least one state key. -/
def GoodAgent (ns : List GKey) (na : String × AgentD) : Prop :=
  (∀ ts, na.2.reward = some ts → ∀ t, t ∈ ts → ∀ p, p ∈ t.stateKeys →
    GKey.st (makeFuture p) ∈ ns) ∧
  ∀ aS t, (aS, t) ∈ na.2.legal →
    (t.stateKeys ≠ [] → GKey.act (reduceAS aS) ∈ ns) ∧
    ∀ p, p ∈ t.stateKeys → GKey.st p ∈ ns

/-- Exact success condition of computeGraph. -/
def Good (w : World) : Prop :=
  (∀ d, d ∈ w.dynamics → GoodDynEntry (keysOf (nodesOf w)) d) ∧
  (∀ na, na ∈ w.agents → GoodAgent (keysOf (nodesOf w)) na)

/- ------------------------------------------------------------------ -/
/- predictResult grouping.                                            -/
/- ------------------------------------------------------------------ -/

/-- Lookup of one object's atom group, mirroring the dictionary read of the
grouping table. -/
def groupsGet : List (String × List Atom) → String → List Atom
  | [], _ => []
  | (o0, l) :: rest, o => if o0 = o then l else groupsGet rest o

/-- Keys of the grouping table are unique and each group is non-empty. -/
def GroupsWF (groups : List (String × List Atom)) : Prop :=
  (groups.map Prod.fst).Nodup ∧ ∀ o l, (o, l) ∈ groups → l ≠ []


/- ------------------------------------------------------------------ -/
/- A concrete world used by the witnesses: one agent with two local    -/
/- features, two joint actions sharing a root, a reward tree and a     -/
/- legality entry, and one tree-valued dynamics entry.                 -/
/- ------------------------------------------------------------------ -/

/-- The shared canonical root of the example's two joint actions. -/
def atomRoot : Atom := ⟨"ag", "go", some "obj1", []⟩

/-- An example action atom with a parameter, reducing to atomRoot. -/
def atomA : Atom := ⟨"ag", "go", some "obj1", [("amount", 1)]⟩

/-- A second action atom with a different parameter, also reducing to
atomRoot. -/
def atomA2 : Atom := ⟨"ag", "go", some "obj1", [("amount", 2)]⟩

/-- The root-reduced action set shared by the two example actions. -/
def actR : ActS := {atomRoot}

/-- The dynamics tree of the example: reads feature a and the constant. -/
def treeA : STree := ⟨[.state (stateKey "ag" "a" false), .const]⟩

/-- The reward tree of the example: reads feature b. -/
def treeB : STree := ⟨[.state (stateKey "ag" "b" false)]⟩

/-- The legality tree of the example: reads feature a. -/
def treeL : STree := ⟨[.state (stateKey "ag" "a" false)]⟩

/-- The example world. -/
def exW : World :=
  { locals := [("ag", ["a", "b"])]
    relations := []
    agents := [("ag", { actions := [{atomA}, {atomA2}], reward := some [treeB],
                        legal := [({atomA}, treeL)] })]
    dynamics := [(stateKey "ag" "b" false, .table [(some actR, treeA)])] }

/-- The graph computeGraph builds for exW, written out literally. -/
def exG : Graph :=
  [(.st ⟨"ag", "a", false⟩, ⟨"ag", .statePre, [], [.st ⟨"ag", "b", true⟩, .act actR]⟩),
   (.st ⟨"ag", "a", true⟩, ⟨"ag", .statePost, [], []⟩),
   (.st ⟨"ag", "b", false⟩, ⟨"ag", .statePre, [], []⟩),
   (.st ⟨"ag", "b", true⟩, ⟨"ag", .statePost, [.act actR, .st ⟨"ag", "a", false⟩], [.util "ag"]⟩),
   (.util "ag", ⟨"ag", .utility, [.st ⟨"ag", "b", true⟩], []⟩),
   (.act actR, ⟨"ag", .actionNode, [.st ⟨"ag", "a", false⟩], [.st ⟨"ag", "b", true⟩]⟩)]

/-- A rank function witnessing acyclicity of exG: pre nodes below action
nodes below post nodes below utility nodes. -/
def exRank : GKey → Nat := fun k =>
  match k with
  | .st s => if s.post then 2 else 0
  | .act _ => 1
  | .util _ => 3

/-- The agent of the counterexample world for claim C4: no actions, and a
legality entry whose tree reads no state key. -/
def agBad : AgentD := ⟨[], none, [({atomA}, ⟨[PKey.const]⟩)]⟩

/-- A world whose only legality entry names an action with no node; since the
legality tree reads no state key, the per-key assert loop never runs. -/
def wBad : World :=
  { locals := [("ag", ["a"])]
    relations := []
    agents := [("ag", agBad)]
    dynamics := [] }

/-- A fixed outcome record for the example ResourceWorld. -/
def exOut : Outcome := ⟨fun _ => [("x", 1)]⟩

/-- An example ResourceWorld whose stepping engine returns exOut. -/
def exRW : RWorld := ⟨"invader", fun _ _ _ => [exOut]⟩

/-- An example joint action list for predictResult: one agent, one atom. -/
def exActs : List (String × List Atom) := [("ag", [atomA])]

/-- The prediction record list predictResult returns on exRW and exActs. -/
def exRes : List (String × PredRec) :=
  [("obj1", ⟨[atomA].toFinset, [("x", 1)], [("x", 1)]⟩)]

/- ------------------------------------------------------------------ -/
/- The claims.                                                         -/
/- ------------------------------------------------------------------ -/

/-- C1: for every world whose graph is built and acyclic, computeLineage
terminates — the while loop's guard goes false once the layer lengths sum to
the number of nodes, which they do — with every node assigned a level, every
node's level strictly greater than each of its parents' levels, and level 0
held by exactly the parentless nodes. -/

/- ------------------------------------------------------------------ -/
/- Basic lemmas about the dictionary and set operations.              -/
/- ------------------------------------------------------------------ -/

theorem bindE_ok {α β : Type} {x : Except String α} {f : α → Except String β} {b : β} :
    x >>= f = Except.ok b ↔ ∃ a, x = Except.ok a ∧ f a = Except.ok b := by
  cases x with
  | ok a => simp [Bind.bind, Except.bind]
  | error e =>
      simp only [Bind.bind, Except.bind]
      constructor
      · intro h; cases h
      · rintro ⟨a, ha, _⟩; cases ha

theorem gget_cons (k0 : GKey) (n0 : GNode) (rest : Graph) (q : GKey) :
    gget ((k0, n0) :: rest) q = if k0 = q then some n0 else gget rest q := rfl

theorem keysOf_nil : keysOf [] = [] := rfl

theorem keysOf_cons (k0 : GKey) (n0 : GNode) (rest : Graph) :
    keysOf ((k0, n0) :: rest) = k0 :: keysOf rest := rfl

theorem gget_isSome_iff {G : Graph} {k : GKey} : (gget G k).isSome ↔ k ∈ keysOf G := by
  induction G with
  | nil => simp [gget, keysOf]
  | cons kn rest ih =>
      obtain ⟨k0, n0⟩ := kn
      rw [gget_cons, keysOf_cons, List.mem_cons]
      by_cases h : k0 = k
      · simp [h]
      · rw [if_neg h, ih]
        constructor
        · exact fun hm => Or.inr hm
        · rintro (rfl | hm)
          · exact absurd rfl h
          · exact hm

theorem gget_eq_none_iff {G : Graph} {k : GKey} : gget G k = none ↔ k ∉ keysOf G := by
  rw [← gget_isSome_iff]
  cases gget G k <;> simp

theorem mem_keysOf_of_gget {G : Graph} {k : GKey} {n : GNode} (h : gget G k = some n) :
    k ∈ keysOf G := by
  rw [← gget_isSome_iff, h]; rfl

theorem exists_gget_of_mem {G : Graph} {k : GKey} (h : k ∈ keysOf G) :
    ∃ n, gget G k = some n := by
  rw [← gget_isSome_iff] at h
  cases hg : gget G k with
  | none => rw [hg] at h; cases h
  | some n => exact ⟨n, rfl⟩

theorem dinsert_cons (k0 : GKey) (n0 : GNode) (rest : Graph) (k : GKey) (v : GNode) :
    dinsert ((k0, n0) :: rest) k v =
      if k0 = k then (k0, v) :: rest else (k0, n0) :: dinsert rest k v := rfl

theorem keysOf_dinsert (G : Graph) (k : GKey) (v : GNode) :
    keysOf (dinsert G k v) = if k ∈ keysOf G then keysOf G else keysOf G ++ [k] := by
  induction G with
  | nil => simp [dinsert, keysOf]
  | cons kn rest ih =>
      obtain ⟨k0, n0⟩ := kn
      rw [dinsert_cons]
      by_cases h : k0 = k
      · subst h; simp [keysOf_cons]
      · rw [if_neg h, keysOf_cons, keysOf_cons, ih]
        by_cases hm : k ∈ keysOf rest
        · rw [if_pos hm, if_pos (List.mem_cons_of_mem _ hm)]
        · rw [if_neg hm, if_neg (by
            rw [List.mem_cons]
            rintro (rfl | hc)
            · exact h rfl
            · exact hm hc)]
          exact (List.cons_append k0 (keysOf rest) [k]).symm

theorem gget_dinsert (G : Graph) (k : GKey) (v : GNode) (q : GKey) :
    gget (dinsert G k v) q = if q = k then some v else gget G q := by
  induction G with
  | nil =>
      show (if k = q then some v else none) = if q = k then some v else none
      by_cases h : k = q
      · rw [if_pos h, if_pos h.symm]
      · rw [if_neg h, if_neg (fun hc => h hc.symm)]
  | cons kn rest ih =>
      obtain ⟨k0, n0⟩ := kn
      rw [dinsert_cons]
      by_cases h : k0 = k
      · rw [if_pos h]
        subst h
        rw [gget_cons, gget_cons]
        by_cases h2 : k0 = q
        · rw [if_pos h2, if_pos h2.symm]
        · rw [if_neg h2, if_neg (fun hc : q = k0 => h2 hc.symm), if_neg h2]
      · rw [if_neg h, gget_cons, gget_cons]
        by_cases h2 : k0 = q
        · rw [if_pos h2, if_pos h2,
            if_neg (fun hc : q = k => h (h2.trans hc))]
        · rw [if_neg h2, if_neg h2, ih]

theorem nodup_dinsert {G : Graph} (k : GKey) (v : GNode) (h : (keysOf G).Nodup) :
    (keysOf (dinsert G k v)).Nodup := by
  rw [keysOf_dinsert]
  by_cases hm : k ∈ keysOf G
  · simpa [hm] using h
  · rw [if_neg hm, List.nodup_append]
    exact ⟨h, List.nodup_singleton k, by simpa using hm⟩

theorem setNode_cons (k0 : GKey) (n0 : GNode) (rest : Graph) (k : GKey) (f : GNode → GNode) :
    setNode ((k0, n0) :: rest) k f =
      (if k0 = k then (k0, f n0) else (k0, n0)) :: setNode rest k f := rfl

theorem keysOf_setNode (G : Graph) (k : GKey) (f : GNode → GNode) :
    keysOf (setNode G k f) = keysOf G := by
  induction G with
  | nil => rfl
  | cons kn rest ih =>
      obtain ⟨k0, n0⟩ := kn
      rw [setNode_cons]
      by_cases h : k0 = k
      · rw [if_pos h, keysOf_cons, keysOf_cons, ih]
      · rw [if_neg h, keysOf_cons, keysOf_cons, ih]

theorem gget_setNode_same (G : Graph) (k : GKey) (f : GNode → GNode) :
    gget (setNode G k f) k = (gget G k).map f := by
  induction G with
  | nil => rfl
  | cons kn rest ih =>
      obtain ⟨k0, n0⟩ := kn
      rw [setNode_cons]
      by_cases h : k0 = k
      · rw [if_pos h, gget_cons, if_pos h, gget_cons, if_pos h]; rfl
      · rw [if_neg h, gget_cons, if_neg h, gget_cons, if_neg h, ih]

theorem gget_setNode_other (G : Graph) (k : GKey) (f : GNode → GNode) (q : GKey)
    (h : q ≠ k) : gget (setNode G k f) q = gget G q := by
  induction G with
  | nil => rfl
  | cons kn rest ih =>
      obtain ⟨k0, n0⟩ := kn
      rw [setNode_cons]
      by_cases h0 : k0 = k
      · have hq : ¬ k0 = q := fun hc => h (hc ▸ h0 ▸ rfl)
        rw [if_pos h0, gget_cons, if_neg hq, gget_cons, if_neg hq, ih]
      · rw [if_neg h0, gget_cons, gget_cons]
        by_cases h1 : k0 = q
        · rw [if_pos h1, if_pos h1]
        · rw [if_neg h1, if_neg h1, ih]

theorem mem_addOnce {x y : GKey} {l : List GKey} :
    y ∈ addOnce x l ↔ y = x ∨ y ∈ l := by
  unfold addOnce
  by_cases h : x ∈ l
  · rw [if_pos h]
    constructor
    · exact fun hy => Or.inr hy
    · rintro (rfl | hy)
      · exact h
      · exact hy
  · rw [if_neg h]
    simp [or_comm]

theorem subset_addOnce (x : GKey) (l : List GKey) : l ⊆ addOnce x l := by
  intro y hy; rw [mem_addOnce]; exact Or.inr hy

theorem mem_addOnce_self (x : GKey) (l : List GKey) : x ∈ addOnce x l := by
  rw [mem_addOnce]; exact Or.inl rfl

theorem mem_unionL {d s : List GKey} {y : GKey} :
    y ∈ unionL d s ↔ y ∈ d ∨ y ∈ s := by
  induction s generalizing d with
  | nil => simp [unionL]
  | cons a rest ih =>
      simp only [unionL, List.foldl_cons] at ih ⊢
      rw [ih, mem_addOnce]
      simp only [List.mem_cons]
      tauto

theorem subset_unionL_left (d s : List GKey) : d ⊆ unionL d s := by
  intro y hy; rw [mem_unionL]; exact Or.inl hy

theorem subset_unionL_right (d s : List GKey) : s ⊆ unionL d s := by
  intro y hy; rw [mem_unionL]; exact Or.inr hy

theorem link_ok_iff {G : Graph} {c p : GKey} {G2 : Graph} :
    link G c p = .ok G2 ↔ c ∈ keysOf G ∧ p ∈ keysOf G ∧ G2 = linkG G c p := by
  unfold link addPar
  cases hc : gget G c with
  | none =>
      have : c ∉ keysOf G := gget_eq_none_iff.mp hc
      simp only [Bind.bind, Except.bind]
      constructor
      · intro h; cases h
      · rintro ⟨h1, _, _⟩; exact absurd h1 this
  | some nc =>
      have hck : c ∈ keysOf G := mem_keysOf_of_gget hc
      simp only [Bind.bind, Except.bind]
      unfold addChild
      cases hp : gget (setNode G c fun m => { m with parents := addOnce p m.parents }) p with
      | none =>
          have : p ∉ keysOf G := by
            have := gget_eq_none_iff.mp hp
            rwa [keysOf_setNode] at this
          constructor
          · intro h; cases h
          · rintro ⟨_, h2, _⟩; exact absurd h2 this
      | some np =>
          have hpk : p ∈ keysOf G := by
            have := mem_keysOf_of_gget hp
            rwa [keysOf_setNode] at this
          constructor
          · intro h
            refine ⟨hck, hpk, ?_⟩
            have := Except.ok.inj h
            exact this.symm
          · rintro ⟨_, _, rfl⟩
            rfl

theorem keysOf_linkG (G : Graph) (c p : GKey) : keysOf (linkG G c p) = keysOf G := by
  unfold linkG; rw [keysOf_setNode, keysOf_setNode]

theorem parentsOf_linkG_self (G : Graph) (c p : GKey) (hc : c ∈ keysOf G) :
    parentsOf (linkG G c p) c = addOnce p (parentsOf G c) := by
  obtain ⟨nc, hnc⟩ := exists_gget_of_mem hc
  unfold linkG parentsOf
  by_cases hcp : c = p
  · subst hcp
    rw [gget_setNode_same, gget_setNode_same, hnc]
    rfl
  · rw [gget_setNode_other _ _ _ _ hcp, gget_setNode_same, hnc]
    rfl

theorem parentsOf_linkG_other (G : Graph) (c p q : GKey) (h : q ≠ c) :
    parentsOf (linkG G c p) q = parentsOf G q := by
  unfold linkG parentsOf
  by_cases hqp : q = p
  · subst hqp
    rw [gget_setNode_same, gget_setNode_other _ _ _ _ h]
    cases gget G q <;> rfl
  · rw [gget_setNode_other _ _ _ _ hqp, gget_setNode_other _ _ _ _ h]

theorem childrenOf_linkG_self (G : Graph) (c p : GKey) (hp : p ∈ keysOf G) :
    childrenOf (linkG G c p) p = addOnce c (childrenOf G p) := by
  obtain ⟨np, hnp⟩ := exists_gget_of_mem hp
  unfold linkG childrenOf
  rw [gget_setNode_same]
  by_cases hpc : p = c
  · subst hpc
    rw [gget_setNode_same, hnp]
    rfl
  · rw [gget_setNode_other _ _ _ _ hpc, hnp]
    rfl

theorem childrenOf_linkG_other (G : Graph) (c p q : GKey) (h : q ≠ p) :
    childrenOf (linkG G c p) q = childrenOf G q := by
  unfold linkG childrenOf
  rw [gget_setNode_other _ _ _ _ h]
  by_cases hqc : q = c
  · subst hqc
    rw [gget_setNode_same]
    cases gget G q <;> rfl
  · rw [gget_setNode_other _ _ _ _ hqc]

theorem parentsOf_linkG_sub (G : Graph) (c p q : GKey) :
    parentsOf G q ⊆ parentsOf (linkG G c p) q := by
  by_cases h : q = c
  · subst h
    by_cases hk : q ∈ keysOf G
    · rw [parentsOf_linkG_self G q p hk]
      exact subset_addOnce p _
    · unfold parentsOf
      rw [gget_eq_none_iff.mpr hk]
      intro x hx; cases hx
  · rw [parentsOf_linkG_other G c p q h]
    exact fun x hx => hx

theorem childrenOf_linkG_sub (G : Graph) (c p q : GKey) :
    childrenOf G q ⊆ childrenOf (linkG G c p) q := by
  by_cases h : q = p
  · subst h
    by_cases hk : q ∈ keysOf G
    · rw [childrenOf_linkG_self G c q hk]
      exact subset_addOnce c _
    · unfold childrenOf
      rw [gget_eq_none_iff.mpr hk]
      intro x hx; cases hx
  · rw [childrenOf_linkG_other G c p q h]
    exact fun x hx => hx

theorem monoTo_refl (G : Graph) : MonoTo G G := ⟨rfl, fun _ => ⟨fun _ h => h, fun _ h => h⟩⟩

theorem monoTo_trans {G1 G2 G3 : Graph} (h1 : MonoTo G1 G2) (h2 : MonoTo G2 G3) :
    MonoTo G1 G3 :=
  ⟨h2.1.trans h1.1, fun q =>
    ⟨fun x hx => (h2.2 q).1 ((h1.2 q).1 hx), fun x hx => (h2.2 q).2 ((h1.2 q).2 hx)⟩⟩

theorem monoTo_linkG (G : Graph) (c p : GKey) : MonoTo G (linkG G c p) :=
  ⟨keysOf_linkG G c p, fun q => ⟨parentsOf_linkG_sub G c p q, childrenOf_linkG_sub G c p q⟩⟩

theorem dualPC_linkG {G : Graph} {c p : GKey} (h : DualPC G)
    (hc : c ∈ keysOf G) (hp : p ∈ keysOf G) : DualPC (linkG G c p) := by
  intro k hk c2 hc2
  rw [keysOf_linkG] at hk ⊢
  by_cases hkp : k = p
  · subst hkp
    rw [childrenOf_linkG_self G c k hp] at hc2
    rcases mem_addOnce.mp hc2 with rfl | hold
    · refine ⟨hc, ?_⟩
      rw [parentsOf_linkG_self G c2 k hc]
      exact mem_addOnce_self k _
    · obtain ⟨hc2k, hback⟩ := h k hk c2 hold
      exact ⟨hc2k, parentsOf_linkG_sub G c k c2 hback⟩
  · rw [childrenOf_linkG_other G c p k hkp] at hc2
    obtain ⟨hc2k, hback⟩ := h k hk c2 hc2
    exact ⟨hc2k, parentsOf_linkG_sub G c p c2 hback⟩

theorem dualCP_linkG {G : Graph} {c p : GKey} (h : DualCP G)
    (hc : c ∈ keysOf G) (hp : p ∈ keysOf G) : DualCP (linkG G c p) := by
  intro c2 hc2 p2 hp2
  rw [keysOf_linkG] at hc2 ⊢
  by_cases hcc : c2 = c
  · subst hcc
    rw [parentsOf_linkG_self G c2 p hc] at hp2
    rcases mem_addOnce.mp hp2 with rfl | hold
    · refine ⟨hp, ?_⟩
      rw [childrenOf_linkG_self G c2 p2 hp]
      exact mem_addOnce_self c2 _
    · obtain ⟨hp2k, hback⟩ := h c2 hc2 p2 hold
      exact ⟨hp2k, childrenOf_linkG_sub G c2 p p2 hback⟩
  · rw [parentsOf_linkG_other G c p c2 hcc] at hp2
    obtain ⟨hp2k, hback⟩ := h c2 hc2 p2 hp2
    exact ⟨hp2k, childrenOf_linkG_sub G c p p2 hback⟩

theorem keysOf_append (G1 G2 : Graph) : keysOf (G1 ++ G2) = keysOf G1 ++ keysOf G2 := by
  simp [keysOf]

theorem gget_append (G1 G2 : Graph) (q : GKey) :
    gget (G1 ++ G2) q = match gget G1 q with | some n => some n | none => gget G2 q := by
  induction G1 with
  | nil => simp [gget]
  | cons kn rest ih =>
      obtain ⟨k0, n0⟩ := kn
      by_cases h : k0 = q
      · simp [gget_cons, h]
      · simpa [gget_cons, h] using ih

theorem mem_keysOf_dinsert {G : Graph} {k q : GKey} {v : GNode} :
    q ∈ keysOf (dinsert G k v) ↔ q = k ∨ q ∈ keysOf G := by
  rw [keysOf_dinsert]
  by_cases h : k ∈ keysOf G
  · rw [if_pos h]
    constructor
    · exact fun hq => Or.inr hq
    · rintro (rfl | hq)
      · exact h
      · exact hq
  · rw [if_neg h]
    simp [or_comm]

theorem sub_dinsert (G : Graph) (k : GKey) (v : GNode) :
    keysOf G ⊆ keysOf (dinsert G k v) := fun q hq => mem_keysOf_dinsert.mpr (Or.inr hq)

theorem emptyNodes_nil : EmptyNodes [] := by
  intro k n h; cases h

theorem emptyNodes_dinsert {G : Graph} {k : GKey} {v : GNode} (h : EmptyNodes G)
    (hv : v.parents = [] ∧ v.children = []) : EmptyNodes (dinsert G k v) := by
  intro q n hq
  rw [gget_dinsert] at hq
  by_cases hqk : q = k
  · rw [if_pos hqk] at hq
    cases hq; exact hv
  · rw [if_neg hqk] at hq
    exact h q n hq

theorem emptyNodes_append1 {G : Graph} {k : GKey} {v : GNode} (h : EmptyNodes G)
    (hv : v.parents = [] ∧ v.children = []) : EmptyNodes (G ++ [(k, v)]) := by
  intro q n hq
  rw [gget_append] at hq
  cases hg : gget G q with
  | some n2 => rw [hg] at hq; cases hq; exact h q _ hg
  | none =>
      rw [hg] at hq
      by_cases hkq : k = q
      · simp only [gget_cons, if_pos hkq] at hq
        cases hq; exact hv
      · simp only [gget_cons, if_neg hkq] at hq
        cases hq

theorem emptyNodes_addLocalFeatures (a : String) :
    ∀ (fs : List String) (G : Graph), EmptyNodes G → EmptyNodes (addLocalFeatures G a fs) := by
  intro fs
  induction fs with
  | nil => intro G h; exact h
  | cons f rest ih =>
      intro G h
      exact ih _ (emptyNodes_dinsert (emptyNodes_dinsert h ⟨rfl, rfl⟩) ⟨rfl, rfl⟩)

theorem emptyNodes_localNodes :
    ∀ (ls : List (String × List String)) (G : Graph), EmptyNodes G →
      EmptyNodes (localNodes G ls) := by
  intro ls
  induction ls with
  | nil => intro G h; exact h
  | cons p rest ih =>
      obtain ⟨a, fs⟩ := p
      intro G h
      exact ih _ (emptyNodes_addLocalFeatures a fs G h)

theorem emptyNodes_addRelEntries :
    ∀ (tb : List (SKey × RelEntry)) (G : Graph), EmptyNodes G →
      EmptyNodes (addRelEntries G tb) := by
  intro tb
  induction tb with
  | nil => intro G h; exact h
  | cons p rest ih =>
      obtain ⟨k, e⟩ := p
      intro G h
      exact ih _ (emptyNodes_dinsert (emptyNodes_dinsert h ⟨rfl, rfl⟩) ⟨rfl, rfl⟩)

theorem emptyNodes_relNodes :
    ∀ (rs : List (String × List (SKey × RelEntry))) (G : Graph), EmptyNodes G →
      EmptyNodes (relNodes G rs) := by
  intro rs
  induction rs with
  | nil => intro G h; exact h
  | cons p rest ih =>
      obtain ⟨_, tb⟩ := p
      intro G h
      exact ih _ (emptyNodes_addRelEntries tb G h)

theorem emptyNodes_addActionNodes (name : String) :
    ∀ (acts : List ActS) (G : Graph), EmptyNodes G →
      EmptyNodes (addActionNodes G name acts) := by
  intro acts
  induction acts with
  | nil => intro G h; exact h
  | cons a rest ih =>
      intro G h
      show EmptyNodes (addActionNodes _ name rest)
      by_cases hm : GKey.act (reduceAS a) ∈ keysOf G
      · simpa [hm] using ih _ (by simpa [hm] using h)
      · exact ih _ (by
          rw [if_neg hm]
          exact emptyNodes_append1 h ⟨rfl, rfl⟩)

theorem emptyNodes_agentNodes :
    ∀ (ags : List (String × AgentD)) (G : Graph), EmptyNodes G →
      EmptyNodes (agentNodes G ags) := by
  intro ags
  induction ags with
  | nil => intro G h; exact h
  | cons p rest ih =>
      obtain ⟨name, ag⟩ := p
      intro G h
      refine ih _ (emptyNodes_addActionNodes name ag.actions _ ?_)
      by_cases hr : rewardTruthy ag
      · simpa [hr] using emptyNodes_dinsert h ⟨rfl, rfl⟩
      · simpa [hr] using h

theorem emptyNodes_nodesOf (w : World) : EmptyNodes (nodesOf w) :=
  emptyNodes_agentNodes w.agents _
    (emptyNodes_relNodes w.relations _ (emptyNodes_localNodes w.locals [] emptyNodes_nil))

theorem nodup_append1 {G : Graph} {k : GKey} (h : (keysOf G).Nodup) (hm : k ∉ keysOf G)
    (v : GNode) : (keysOf (G ++ [(k, v)])).Nodup := by
  rw [keysOf_append, List.nodup_append]
  refine ⟨h, List.nodup_singleton k, fun x hx hx2 => ?_⟩
  simp only [keysOf, List.map_cons, List.map_nil, List.mem_singleton] at hx2
  subst hx2
  exact hm hx

theorem nodup_addLocalFeatures (a : String) :
    ∀ (fs : List String) (G : Graph), (keysOf G).Nodup →
      (keysOf (addLocalFeatures G a fs)).Nodup := by
  intro fs
  induction fs with
  | nil => intro G h; exact h
  | cons f rest ih => intro G h; exact ih _ (nodup_dinsert _ _ (nodup_dinsert _ _ h))

theorem nodup_localNodes :
    ∀ (ls : List (String × List String)) (G : Graph), (keysOf G).Nodup →
      (keysOf (localNodes G ls)).Nodup := by
  intro ls
  induction ls with
  | nil => intro G h; exact h
  | cons p rest ih =>
      obtain ⟨a, fs⟩ := p
      intro G h
      exact ih _ (nodup_addLocalFeatures a fs G h)

theorem nodup_addRelEntries :
    ∀ (tb : List (SKey × RelEntry)) (G : Graph), (keysOf G).Nodup →
      (keysOf (addRelEntries G tb)).Nodup := by
  intro tb
  induction tb with
  | nil => intro G h; exact h
  | cons p rest ih =>
      obtain ⟨k, e⟩ := p
      intro G h
      exact ih _ (nodup_dinsert _ _ (nodup_dinsert _ _ h))

theorem nodup_relNodes :
    ∀ (rs : List (String × List (SKey × RelEntry))) (G : Graph), (keysOf G).Nodup →
      (keysOf (relNodes G rs)).Nodup := by
  intro rs
  induction rs with
  | nil => intro G h; exact h
  | cons p rest ih =>
      obtain ⟨_, tb⟩ := p
      intro G h
      exact ih _ (nodup_addRelEntries tb G h)

theorem nodup_addActionNodes (name : String) :
    ∀ (acts : List ActS) (G : Graph), (keysOf G).Nodup →
      (keysOf (addActionNodes G name acts)).Nodup := by
  intro acts
  induction acts with
  | nil => intro G h; exact h
  | cons a rest ih =>
      intro G h
      show (keysOf (addActionNodes _ name rest)).Nodup
      by_cases hm : GKey.act (reduceAS a) ∈ keysOf G
      · rw [if_pos hm]; exact ih _ h
      · rw [if_neg hm]; exact ih _ (nodup_append1 h hm _)

theorem nodup_agentNodes :
    ∀ (ags : List (String × AgentD)) (G : Graph), (keysOf G).Nodup →
      (keysOf (agentNodes G ags)).Nodup := by
  intro ags
  induction ags with
  | nil => intro G h; exact h
  | cons p rest ih =>
      obtain ⟨name, ag⟩ := p
      intro G h
      refine ih _ (nodup_addActionNodes name ag.actions _ ?_)
      by_cases hr : rewardTruthy ag
      · rw [if_pos hr]; exact nodup_dinsert _ _ h
      · rw [if_neg hr]; exact h

theorem nodup_nodesOf (w : World) : (keysOf (nodesOf w)).Nodup :=
  nodup_agentNodes w.agents _
    (nodup_relNodes w.relations _ (nodup_localNodes w.locals [] List.nodup_nil))

theorem sub_addLocalFeatures (a : String) :
    ∀ (fs : List String) (G : Graph), keysOf G ⊆ keysOf (addLocalFeatures G a fs) := by
  intro fs
  induction fs with
  | nil => intro G q hq; exact hq
  | cons f rest ih =>
      intro G q hq
      exact ih _ (sub_dinsert _ _ _ (sub_dinsert _ _ _ hq))

theorem sub_localNodes :
    ∀ (ls : List (String × List String)) (G : Graph), keysOf G ⊆ keysOf (localNodes G ls) := by
  intro ls
  induction ls with
  | nil => intro G q hq; exact hq
  | cons p rest ih =>
      obtain ⟨a, fs⟩ := p
      intro G q hq
      exact ih _ (sub_addLocalFeatures a fs G hq)

theorem sub_addRelEntries :
    ∀ (tb : List (SKey × RelEntry)) (G : Graph), keysOf G ⊆ keysOf (addRelEntries G tb) := by
  intro tb
  induction tb with
  | nil => intro G q hq; exact hq
  | cons p rest ih =>
      obtain ⟨k, e⟩ := p
      intro G q hq
      exact ih _ (sub_dinsert _ _ _ (sub_dinsert _ _ _ hq))

theorem sub_relNodes :
    ∀ (rs : List (String × List (SKey × RelEntry))) (G : Graph),
      keysOf G ⊆ keysOf (relNodes G rs) := by
  intro rs
  induction rs with
  | nil => intro G q hq; exact hq
  | cons p rest ih =>
      obtain ⟨_, tb⟩ := p
      intro G q hq
      exact ih _ (sub_addRelEntries tb G hq)

theorem sub_addActionNodes (name : String) :
    ∀ (acts : List ActS) (G : Graph), keysOf G ⊆ keysOf (addActionNodes G name acts) := by
  intro acts
  induction acts with
  | nil => intro G q hq; exact hq
  | cons a rest ih =>
      intro G q hq
      show q ∈ keysOf (addActionNodes _ name rest)
      by_cases hm : GKey.act (reduceAS a) ∈ keysOf G
      · rw [if_pos hm]; exact ih _ hq
      · rw [if_neg hm]
        refine ih _ ?_
        rw [keysOf_append]
        exact List.mem_append_left _ hq

theorem sub_agentNodes :
    ∀ (ags : List (String × AgentD)) (G : Graph), keysOf G ⊆ keysOf (agentNodes G ags) := by
  intro ags
  induction ags with
  | nil => intro G q hq; exact hq
  | cons p rest ih =>
      obtain ⟨name, ag⟩ := p
      intro G q hq
      refine ih _ (sub_addActionNodes name ag.actions _ ?_)
      by_cases hr : rewardTruthy ag
      · rw [if_pos hr]; exact sub_dinsert _ _ _ hq
      · rw [if_neg hr]; exact hq

theorem mem_addActionNodes (name : String) :
    ∀ (acts : List ActS) (G : Graph) (a : ActS), a ∈ acts →
      GKey.act (reduceAS a) ∈ keysOf (addActionNodes G name acts) := by
  intro acts
  induction acts with
  | nil => intro G a ha; cases ha
  | cons a0 rest ih =>
      intro G a ha
      rcases List.mem_cons.mp ha with rfl | ha2
      · show GKey.act (reduceAS a) ∈ keysOf (addActionNodes _ name rest)
        by_cases hm : GKey.act (reduceAS a) ∈ keysOf G
        · rw [if_pos hm]; exact sub_addActionNodes name rest G hm
        · rw [if_neg hm]
          refine sub_addActionNodes name rest _ ?_
          rw [keysOf_append]
          exact List.mem_append_right _ (by simp [keysOf])
      · exact ih _ a ha2

theorem mem_agentNodes :
    ∀ (ags : List (String × AgentD)) (G : Graph) (name : String) (ag : AgentD) (a : ActS),
      (name, ag) ∈ ags → a ∈ ag.actions →
      GKey.act (reduceAS a) ∈ keysOf (agentNodes G ags) := by
  intro ags
  induction ags with
  | nil => intro G name ag a h; cases h
  | cons p rest ih =>
      intro G name ag a hmem ha
      rcases List.mem_cons.mp hmem with rfl | h2
      · exact sub_agentNodes rest _ (mem_addActionNodes name ag.actions _ a ha)
      · exact ih _ name ag a h2 ha

/-- Every declared joint action has its reduced node in the built node set. -/
theorem mem_nodesOf_action (w : World) (name : String) (ag : AgentD) (a : ActS)
    (hmem : (name, ag) ∈ w.agents) (ha : a ∈ ag.actions) :
    GKey.act (reduceAS a) ∈ keysOf (nodesOf w) :=
  mem_agentNodes w.agents _ name ag a hmem ha

theorem makeFuture_makeFuture (k : SKey) : makeFuture (makeFuture k) = makeFuture k := rfl

theorem addActionNodes_cons (G : Graph) (name : String) (a : ActS) (rest : List ActS) :
    addActionNodes G name (a :: rest) =
      addActionNodes
        (if GKey.act (reduceAS a) ∈ keysOf G then G
         else G ++ [(GKey.act (reduceAS a), ⟨name, .actionNode, [], []⟩)]) name rest := rfl

theorem newKeys_addActionNodes (name : String) :
    ∀ (acts : List ActS) (G : Graph) (q : GKey), q ∈ keysOf (addActionNodes G name acts) →
      q ∈ keysOf G ∨ ∃ a ∈ acts, q = .act (reduceAS a) := by
  intro acts
  induction acts with
  | nil => intro G q hq; exact Or.inl hq
  | cons a0 rest ih =>
      intro G q hq
      rw [addActionNodes_cons] at hq
      by_cases hm : GKey.act (reduceAS a0) ∈ keysOf G
      · rw [if_pos hm] at hq
        rcases ih G q hq with h | ⟨a, ha, rfl⟩
        · exact Or.inl h
        · exact Or.inr ⟨a, List.mem_cons_of_mem _ ha, rfl⟩
      · rw [if_neg hm] at hq
        rcases ih _ q hq with h | ⟨a, ha, rfl⟩
        · rw [keysOf_append] at h
          rcases List.mem_append.mp h with h | h
          · exact Or.inl h
          · simp only [keysOf, List.map_cons, List.map_nil, List.mem_singleton] at h
            exact Or.inr ⟨a0, List.mem_cons_self a0 rest, h⟩
        · exact Or.inr ⟨a, List.mem_cons_of_mem _ ha, rfl⟩

theorem newKeys_agentNodes :
    ∀ (ags : List (String × AgentD)) (G : Graph) (q : GKey), q ∈ keysOf (agentNodes G ags) →
      q ∈ keysOf G ∨ (∃ p ∈ ags, q = .util p.1 ∨ ∃ a ∈ p.2.actions, q = .act (reduceAS a)) := by
  intro ags
  induction ags with
  | nil => intro G q hq; exact Or.inl hq
  | cons p rest ih =>
      obtain ⟨name, ag⟩ := p
      intro G q hq
      rcases ih _ q hq with h | ⟨p2, hp2, hform⟩
      · rcases newKeys_addActionNodes name ag.actions _ q h with h2 | ⟨a, ha, rfl⟩
        · by_cases hr : rewardTruthy ag
          · rw [if_pos hr] at h2
            rcases mem_keysOf_dinsert.mp h2 with rfl | h3
            · exact Or.inr ⟨(name, ag), List.mem_cons_self _ _, Or.inl rfl⟩
            · exact Or.inl h3
          · rw [if_neg hr] at h2
            exact Or.inl h2
        · exact Or.inr ⟨(name, ag), List.mem_cons_self _ _, Or.inr ⟨a, ha, rfl⟩⟩
      · exact Or.inr ⟨p2, List.mem_cons_of_mem _ hp2, hform⟩

theorem stClosed_addLocalFeatures (a : String) :
    ∀ (fs : List String) (G : Graph), StClosed G → StClosed (addLocalFeatures G a fs) := by
  intro fs
  induction fs with
  | nil => intro G h; exact h
  | cons f rest ih =>
      intro G h
      refine ih _ ?_
      intro sk hsk
      rcases mem_keysOf_dinsert.mp hsk with hpost | hsk2
      · have : sk = stateKey a f true := by
          cases hpost; rfl
        subst this
        exact mem_keysOf_dinsert.mpr (Or.inl rfl)
      · rcases mem_keysOf_dinsert.mp hsk2 with hpre | hold
        · have : sk = stateKey a f false := by
            cases hpre; rfl
          subst this
          exact mem_keysOf_dinsert.mpr (Or.inl rfl)
        · exact sub_dinsert _ _ _ (sub_dinsert _ _ _ (h sk hold))

theorem stClosed_localNodes :
    ∀ (ls : List (String × List String)) (G : Graph), StClosed G →
      StClosed (localNodes G ls) := by
  intro ls
  induction ls with
  | nil => intro G h; exact h
  | cons p rest ih =>
      obtain ⟨a, fs⟩ := p
      intro G h
      exact ih _ (stClosed_addLocalFeatures a fs G h)

theorem stClosed_addRelEntries :
    ∀ (tb : List (SKey × RelEntry)) (G : Graph), StClosed G →
      StClosed (addRelEntries G tb) := by
  intro tb
  induction tb with
  | nil => intro G h; exact h
  | cons p rest ih =>
      obtain ⟨k, e⟩ := p
      intro G h
      refine ih _ ?_
      intro sk hsk
      rcases mem_keysOf_dinsert.mp hsk with hpost | hsk2
      · have : sk = makeFuture k := by cases hpost; rfl
        subst this
        rw [makeFuture_makeFuture]
        exact mem_keysOf_dinsert.mpr (Or.inl rfl)
      · rcases mem_keysOf_dinsert.mp hsk2 with hpre | hold
        · have : sk = k := by cases hpre; rfl
          subst this
          exact mem_keysOf_dinsert.mpr (Or.inl rfl)
        · exact sub_dinsert _ _ _ (sub_dinsert _ _ _ (h sk hold))

theorem stClosed_relNodes :
    ∀ (rs : List (String × List (SKey × RelEntry))) (G : Graph), StClosed G →
      StClosed (relNodes G rs) := by
  intro rs
  induction rs with
  | nil => intro G h; exact h
  | cons p rest ih =>
      obtain ⟨_, tb⟩ := p
      intro G h
      exact ih _ (stClosed_addRelEntries tb G h)

theorem stClosed_agentNodes (ags : List (String × AgentD)) (G : Graph) (h : StClosed G) :
    StClosed (agentNodes G ags) := by
  intro sk hsk
  rcases newKeys_agentNodes ags G _ hsk with hold | ⟨p2, _, hform⟩
  · exact sub_agentNodes ags G (h sk hold)
  · rcases hform with h2 | ⟨a, _, h2⟩ <;> cases h2

theorem stClosed_nodesOf (w : World) : StClosed (nodesOf w) :=
  stClosed_agentNodes w.agents _
    (stClosed_relNodes w.relations _
      (stClosed_localNodes w.locals [] (fun sk hsk => by cases hsk)))

theorem monoTo_of_link {G G2 : Graph} {c p : GKey} (h : link G c p = .ok G2) :
    MonoTo G G2 := by
  obtain ⟨hc, hp, rfl⟩ := link_ok_iff.mp h
  exact monoTo_linkG G c p

theorem linkInv_of_link {G G2 : Graph} {c p : GKey} (h : link G c p = .ok G2)
    (hi : LinkInv G) : LinkInv G2 := by
  obtain ⟨hc, hp, rfl⟩ := link_ok_iff.mp h
  exact ⟨dualPC_linkG hi.1 hc hp, dualCP_linkG hi.2 hc hp⟩

theorem treeLinks_mono :
    ∀ (ps : List SKey) (G : Graph) (c : GKey) (G2 : Graph),
      treeLinks G c ps = .ok G2 → MonoTo G G2 ∧ (LinkInv G → LinkInv G2) := by
  intro ps
  induction ps with
  | nil =>
      intro G c G2 h
      simp only [treeLinks] at h
      cases h
      exact ⟨monoTo_refl _, id⟩
  | cons p rest ih =>
      intro G c G2 h
      simp only [treeLinks] at h
      obtain ⟨G1, h1, h2⟩ := bindE_ok.mp h
      obtain ⟨m2, i2⟩ := ih _ _ _ h2
      exact ⟨monoTo_trans (monoTo_of_link h1) m2,
        fun hi => i2 (linkInv_of_link h1 hi)⟩

theorem dynTable_mono :
    ∀ (es : List (Option ActS × STree)) (G : Graph) (k : SKey) (G2 : Graph),
      dynTable G k es = .ok G2 → MonoTo G G2 ∧ (LinkInv G → LinkInv G2) := by
  intro es
  induction es with
  | nil =>
      intro G k G2 h
      simp only [dynTable] at h
      cases h
      exact ⟨monoTo_refl _, id⟩
  | cons e rest ih =>
      obtain ⟨actOpt, t⟩ := e
      intro G k G2 h
      simp only [dynTable] at h
      cases actOpt with
      | none =>
          dsimp only at h
          obtain ⟨G1, h1, h2⟩ := bindE_ok.mp h
          cases h1
          obtain ⟨Gm, hm1, hm2⟩ := bindE_ok.mp h2
          obtain ⟨mt, it⟩ := treeLinks_mono _ _ _ _ hm1
          obtain ⟨mr, ir⟩ := ih _ _ _ hm2
          exact ⟨monoTo_trans mt mr, fun hi => ir (it hi)⟩
      | some a =>
          dsimp only at h
          by_cases hma : GKey.act a ∈ keysOf G
          · rw [if_pos hma] at h
            obtain ⟨G1, h1, h2⟩ := bindE_ok.mp h
            obtain ⟨Gm, hm1, hm2⟩ := bindE_ok.mp h2
            obtain ⟨mt, it⟩ := treeLinks_mono _ _ _ _ hm1
            obtain ⟨mr, ir⟩ := ih _ _ _ hm2
            exact ⟨monoTo_trans (monoTo_of_link h1) (monoTo_trans mt mr),
              fun hi => ir (it (linkInv_of_link h1 hi))⟩
          · rw [if_neg hma] at h
            simp only [Bind.bind, Except.bind] at h
            cases h

theorem dynLinks_mono :
    ∀ (ds : List (SKey × DynEntry)) (G : Graph) (G2 : Graph),
      dynLinks G ds = .ok G2 → MonoTo G G2 ∧ (LinkInv G → LinkInv G2) := by
  intro ds
  induction ds with
  | nil =>
      intro G G2 h
      simp only [dynLinks] at h
      cases h
      exact ⟨monoTo_refl _, id⟩
  | cons d rest ih =>
      obtain ⟨k, e⟩ := d
      intro G G2 h
      simp only [dynLinks] at h
      by_cases ht : isTurnKey k
      · rw [if_pos ht] at h
        exact ih _ _ h
      · rw [if_neg ht] at h
        by_cases hk : GKey.st k ∈ keysOf G
        · rw [if_pos hk] at h
          cases e with
          | sentinel b =>
              simp only at h
              exact ih _ _ h
          | table es =>
              simp only at h
              obtain ⟨G1, h1, h2⟩ := bindE_ok.mp h
              obtain ⟨m1, i1⟩ := dynTable_mono _ _ _ _ h1
              obtain ⟨m2, i2⟩ := ih _ _ h2
              exact ⟨monoTo_trans m1 m2, fun hi => i2 (i1 hi)⟩
        · rw [if_neg hk] at h
          cases h

theorem rewardTreeLinks_mono :
    ∀ (ps : List SKey) (G : Graph) (name : String) (G2 : Graph),
      rewardTreeLinks G name ps = .ok G2 → MonoTo G G2 ∧ (LinkInv G → LinkInv G2) := by
  intro ps
  induction ps with
  | nil =>
      intro G name G2 h
      simp only [rewardTreeLinks] at h
      cases h
      exact ⟨monoTo_refl _, id⟩
  | cons p rest ih =>
      intro G name G2 h
      simp only [rewardTreeLinks] at h
      obtain ⟨G1, h1, h2⟩ := bindE_ok.mp h
      obtain ⟨m2, i2⟩ := ih _ _ _ h2
      exact ⟨monoTo_trans (monoTo_of_link h1) m2, fun hi => i2 (linkInv_of_link h1 hi)⟩

theorem rewardLinks_mono :
    ∀ (ts : List STree) (G : Graph) (name : String) (G2 : Graph),
      rewardLinks G name ts = .ok G2 → MonoTo G G2 ∧ (LinkInv G → LinkInv G2) := by
  intro ts
  induction ts with
  | nil =>
      intro G name G2 h
      simp only [rewardLinks] at h
      cases h
      exact ⟨monoTo_refl _, id⟩
  | cons t rest ih =>
      intro G name G2 h
      simp only [rewardLinks] at h
      obtain ⟨G1, h1, h2⟩ := bindE_ok.mp h
      obtain ⟨m1, i1⟩ := rewardTreeLinks_mono _ _ _ _ h1
      obtain ⟨m2, i2⟩ := ih _ _ _ h2
      exact ⟨monoTo_trans m1 m2, fun hi => i2 (i1 hi)⟩

theorem legalTreeLinks_mono :
    ∀ (ps : List SKey) (G : Graph) (a : ActS) (G2 : Graph),
      legalTreeLinks G a ps = .ok G2 → MonoTo G G2 ∧ (LinkInv G → LinkInv G2) := by
  intro ps
  induction ps with
  | nil =>
      intro G a G2 h
      simp only [legalTreeLinks] at h
      cases h
      exact ⟨monoTo_refl _, id⟩
  | cons p rest ih =>
      intro G a G2 h
      simp only [legalTreeLinks] at h
      by_cases hma : GKey.act a ∈ keysOf G
      · rw [if_pos hma] at h
        obtain ⟨G1, h1, h2⟩ := bindE_ok.mp h
        obtain ⟨m2, i2⟩ := ih _ _ _ h2
        exact ⟨monoTo_trans (monoTo_of_link h1) m2, fun hi => i2 (linkInv_of_link h1 hi)⟩
      · rw [if_neg hma] at h
        cases h

theorem legalLinks_mono :
    ∀ (ls : List (ActS × STree)) (G : Graph) (G2 : Graph),
      legalLinks G ls = .ok G2 → MonoTo G G2 ∧ (LinkInv G → LinkInv G2) := by
  intro ls
  induction ls with
  | nil =>
      intro G G2 h
      simp only [legalLinks] at h
      cases h
      exact ⟨monoTo_refl _, id⟩
  | cons l rest ih =>
      obtain ⟨a, t⟩ := l
      intro G G2 h
      simp only [legalLinks] at h
      obtain ⟨G1, h1, h2⟩ := bindE_ok.mp h
      obtain ⟨m1, i1⟩ := legalTreeLinks_mono _ _ _ _ h1
      obtain ⟨m2, i2⟩ := ih _ _ h2
      exact ⟨monoTo_trans m1 m2, fun hi => i2 (i1 hi)⟩

theorem agentLinks_mono :
    ∀ (ags : List (String × AgentD)) (G : Graph) (G2 : Graph),
      agentLinks G ags = .ok G2 → MonoTo G G2 ∧ (LinkInv G → LinkInv G2) := by
  intro ags
  induction ags with
  | nil =>
      intro G G2 h
      simp only [agentLinks] at h
      cases h
      exact ⟨monoTo_refl _, id⟩
  | cons p rest ih =>
      obtain ⟨name, ag⟩ := p
      intro G G2 h
      simp only [agentLinks] at h
      cases hR : ag.reward with
      | none =>
          rw [hR] at h
          dsimp only at h
          obtain ⟨G1, h1, h2⟩ := bindE_ok.mp h
          cases h1
          obtain ⟨Gm, hm1, hm2⟩ := bindE_ok.mp h2
          obtain ⟨ml, il⟩ := legalLinks_mono _ _ _ hm1
          obtain ⟨mr, ir⟩ := ih _ _ hm2
          exact ⟨monoTo_trans ml mr, fun hi => ir (il hi)⟩
      | some ts =>
          rw [hR] at h
          dsimp only at h
          obtain ⟨G1, h1, h2⟩ := bindE_ok.mp h
          obtain ⟨Gm, hm1, hm2⟩ := bindE_ok.mp h2
          obtain ⟨mw, iw⟩ := rewardLinks_mono _ _ _ _ h1
          obtain ⟨ml, il⟩ := legalLinks_mono _ _ _ hm1
          obtain ⟨mr, ir⟩ := ih _ _ hm2
          exact ⟨monoTo_trans mw (monoTo_trans ml mr),
            fun hi => ir (il (iw hi))⟩

theorem linkInv_nodesOf (w : World) : LinkInv (nodesOf w) := by
  constructor
  · intro k hk c hc
    rcases exists_gget_of_mem hk with ⟨n, hn⟩
    have h2 := (emptyNodes_nodesOf w k n hn).2
    unfold childrenOf at hc
    rw [hn] at hc
    dsimp only at hc
    rw [h2] at hc
    cases hc
  · intro c hc p hp
    rcases exists_gget_of_mem hc with ⟨n, hn⟩
    have h1 := (emptyNodes_nodesOf w c n hn).1
    unfold parentsOf at hp
    rw [hn] at hp
    dsimp only at hp
    rw [h1] at hp
    cases hp

theorem computeGraph_mono {w : World} {G : Graph} (h : computeGraph w = .ok G) :
    MonoTo (nodesOf w) G ∧ LinkInv G := by
  unfold computeGraph at h
  obtain ⟨G1, h1, h2⟩ := bindE_ok.mp h
  obtain ⟨m1, i1⟩ := dynLinks_mono _ _ _ h1
  obtain ⟨m2, i2⟩ := agentLinks_mono _ _ _ h2
  exact ⟨monoTo_trans m1 m2, i2 (i1 (linkInv_nodesOf w))⟩

theorem computeGraph_wf {w : World} {G : Graph} (h : computeGraph w = .ok G) : GWF G := by
  obtain ⟨hm, hi⟩ := computeGraph_mono h
  refine ⟨?_, hi.1, hi.2⟩
  rw [hm.1]
  exact nodup_nodesOf w

theorem procChild_eq (G : Graph) (L : Nat) (key : GKey) (s : LState) (lay : List GKey)
    (c : GKey) :
    procChild G L key (s, lay) c =
      if c ∈ lay then ({ s with anc := ancUpd s key c }, lay)
      else if eligible G s L c then
        ({ level := fun x => if x = c then some (L + 1) else s.level x,
           anc := ancUpd s key c }, lay ++ [c])
      else ({ s with anc := ancUpd s key c }, lay) := rfl

theorem procChild_mid
    {G : Graph} {rank : GKey → Nat} {L : Nat} {s0 : LState} {layers : List (List GKey)}
    (inv : Inv G L layers s0)
    (hPC : DualPC G)
    (hR : ∀ k, k ∈ keysOf G → ∀ p, p ∈ parentsOf G k → rank p < rank k)
    {key : GKey} (hkey : key ∈ keysOf G) (hkeyL : s0.level key = some L)
    {s : LState} {lay : List GKey} (mid : Mid G rank L s0 s lay)
    {c : GKey} (hc : c ∈ childrenOf G key) :
    Mid G rank L s0 (procChild G L key (s, lay) c).1 (procChild G L key (s, lay) c).2 ∧
      s0.anc key ⊆ (procChild G L key (s, lay) c).1.anc c ∧
      lay ⊆ (procChild G L key (s, lay) c).2 ∧
      (∀ x, s.anc x ⊆ (procChild G L key (s, lay) c).1.anc x) ∧
      (∀ x j, s.level x = some j → (procChild G L key (s, lay) c).1.level x = some j) ∧
      ((∀ p, p ∈ parentsOf G c → ∃ jp, s0.level p = some jp ∧ jp ≤ L) →
        c ∈ (procChild G L key (s, lay) c).2) := by
  have hck : c ∈ keysOf G := (hPC key hkey c hc).1
  have hkc : key ∈ parentsOf G c := (hPC key hkey c hc).2
  have hcnone : s0.level c = none := by
    cases hval : s0.level c with
    | none => rfl
    | some j =>
        obtain ⟨jp, hjp, hlt⟩ := inv.strict c j hval key hkc
        rw [hkeyL] at hjp
        have hjpL : L = jp := Option.some.inj hjp
        have hle := inv.lvl_le c j hval
        omega
  have hanckey : s.anc key = s0.anc key := mid.anc_stable key L hkeyL
  have hrank_anc1 : AncRank rank { s with anc := ancUpd s key c } := by
    intro x a ha
    have ha2 : a ∈ (if x = c then unionL (s.anc c) (s.anc key) else s.anc x) := ha
    show rank a < rank x
    by_cases hx : x = c
    · rw [if_pos hx] at ha2
      subst hx
      rcases mem_unionL.mp ha2 with h1 | h2
      · exact mid.anc_rank x a h1
      · have h3 : rank a < rank key := mid.anc_rank key a h2
        have h4 : rank key < rank x := hR x hck key hkc
        omega
    · rw [if_neg hx] at ha2
      exact mid.anc_rank x a ha2
  have hanc_mono1 : ∀ x, s.anc x ⊆ ancUpd s key c x := by
    intro x y hy
    show y ∈ (if x = c then unionL (s.anc c) (s.anc key) else s.anc x)
    by_cases hx : x = c
    · rw [if_pos hx]
      subst hx
      exact subset_unionL_left _ _ hy
    · rw [if_neg hx]
      exact hy
  have hanc_prop1 : s0.anc key ⊆ ancUpd s key c c := by
    intro y hy
    show y ∈ (if c = c then unionL (s.anc c) (s.anc key) else s.anc c)
    rw [if_pos rfl]
    exact subset_unionL_right _ _ (hanckey ▸ hy)
  have hanc_mono0 : ∀ x, s0.anc x ⊆ ancUpd s key c x :=
    fun x => (mid.anc_mono x).trans (hanc_mono1 x)
  have hanc_stable1 : ∀ k j, s0.level k = some j → ancUpd s key c k = s0.anc k := by
    intro k j hk
    have hkne : k ≠ c := by
      intro hkeq
      subst hkeq
      rw [hcnone] at hk
      cases hk
    show (if k = c then unionL (s.anc c) (s.anc key) else s.anc k) = s0.anc k
    rw [if_neg hkne]
    exact mid.anc_stable k j hk
  rw [procChild_eq]
  by_cases hclay : c ∈ lay
  · rw [if_pos hclay]
    exact ⟨⟨mid.lvl_eq, mid.lay_nodup, mid.lay_new, hanc_mono0, hanc_stable1, hrank_anc1⟩,
      hanc_prop1, fun x hx => hx, hanc_mono1, fun x j hj => hj, fun _ => hclay⟩
  · rw [if_neg hclay]
    by_cases helig : eligible G s L c
    · rw [if_pos helig]
      have hpar_cond : ∀ p, p ∈ parentsOf G c →
          p ∉ lay ∧ ∃ jp, s0.level p = some jp ∧ jp ≤ L := by
        intro p hp
        have hall := List.all_eq_true.mp helig p hp
        cases hval : s.level p with
        | none => rw [hval] at hall; cases hall
        | some jp =>
            rw [hval] at hall
            have hle : jp ≤ L := by simpa using hall
            have hlvl := mid.lvl_eq p
            by_cases hpl : p ∈ lay
            · rw [if_pos hpl, hval] at hlvl
              have : L + 1 = jp := Option.some.inj hlvl.symm
              omega
            · rw [if_neg hpl, hval] at hlvl
              exact ⟨hpl, jp, hlvl.symm, hle⟩
      have hmemc : c ∈ lay ++ [c] := List.mem_append_right _ (List.mem_singleton.mpr rfl)
      refine ⟨⟨?_, ?_, ?_, hanc_mono0, hanc_stable1, hrank_anc1⟩,
        hanc_prop1, fun x hx => List.mem_append_left _ hx, hanc_mono1, ?_, fun _ => hmemc⟩
      · intro k
        show (if k = c then some (L + 1) else s.level k) = _
        by_cases hkc2 : k = c
        · rw [if_pos hkc2, if_pos (hkc2 ▸ hmemc)]
        · rw [if_neg hkc2, mid.lvl_eq k]
          have hmem_eq : (k ∈ lay ++ [c]) ↔ (k ∈ lay) := by
            rw [List.mem_append, List.mem_singleton]
            constructor
            · rintro (h | h)
              · exact h
              · exact absurd h hkc2
            · exact fun h => Or.inl h
          by_cases hkl : k ∈ lay
          · rw [if_pos hkl, if_pos (hmem_eq.mpr hkl)]
          · rw [if_neg hkl, if_neg (fun hx => hkl (hmem_eq.mp hx))]
      · rw [List.nodup_append]
        refine ⟨mid.lay_nodup, List.nodup_singleton c, ?_⟩
        intro x hx hx2
        rw [List.mem_singleton] at hx2
        subst hx2
        exact hclay hx
      · intro k hk
        rcases List.mem_append.mp hk with hk2 | hk2
        · exact mid.lay_new k hk2
        · rw [List.mem_singleton] at hk2
          subst hk2
          exact ⟨hck, hcnone, fun p hp => (hpar_cond p hp).2⟩
      · intro x j hj
        have hxne : x ≠ c := by
          intro hxe
          subst hxe
          have hx2 := mid.lvl_eq x
          rw [if_neg hclay, hcnone] at hx2
          rw [hx2] at hj
          cases hj
        show (if x = c then some (L + 1) else s.level x) = some j
        rw [if_neg hxne]
        exact hj
    · rw [if_neg helig]
      refine ⟨⟨mid.lvl_eq, mid.lay_nodup, mid.lay_new, hanc_mono0, hanc_stable1, hrank_anc1⟩,
        hanc_prop1, fun x hx => hx, hanc_mono1, fun x j hj => hj, fun hcond => ?_⟩
      exfalso
      refine absurd ?_ helig
      unfold eligible
      rw [List.all_eq_true]
      intro p hp
      obtain ⟨jp, hjp, hle⟩ := hcond p hp
      have hpnl : p ∉ lay := by
        intro hin
        have h2 := (mid.lay_new p hin).2.1
        rw [hjp] at h2
        cases h2
      have h3 := mid.lvl_eq p
      rw [if_neg hpnl, hjp] at h3
      rw [h3]
      simpa using hle

theorem foldChildren_mid
    {G : Graph} {rank : GKey → Nat} {L : Nat} {s0 : LState} {layers : List (List GKey)}
    (inv : Inv G L layers s0) (hPC : DualPC G)
    (hR : ∀ k, k ∈ keysOf G → ∀ p, p ∈ parentsOf G k → rank p < rank k)
    {key : GKey} (hkey : key ∈ keysOf G) (hkeyL : s0.level key = some L) :
    ∀ (cs : List GKey), (∀ c, c ∈ cs → c ∈ childrenOf G key) →
      ∀ (s : LState) (lay : List GKey), Mid G rank L s0 s lay →
      Mid G rank L s0 (cs.foldl (procChild G L key) (s, lay)).1
          (cs.foldl (procChild G L key) (s, lay)).2 ∧
        (∀ c, c ∈ cs → s0.anc key ⊆ (cs.foldl (procChild G L key) (s, lay)).1.anc c) ∧
        lay ⊆ (cs.foldl (procChild G L key) (s, lay)).2 ∧
        (∀ x, s.anc x ⊆ (cs.foldl (procChild G L key) (s, lay)).1.anc x) ∧
        (∀ x j, s.level x = some j →
          (cs.foldl (procChild G L key) (s, lay)).1.level x = some j) ∧
        (∀ c, c ∈ cs → (∀ p, p ∈ parentsOf G c → ∃ jp, s0.level p = some jp ∧ jp ≤ L) →
          c ∈ (cs.foldl (procChild G L key) (s, lay)).2) := by
  intro cs
  induction cs with
  | nil =>
      intro _ s lay mid
      refine ⟨mid, ?_, fun x hx => hx, fun x y hy => hy, fun x j hj => hj, ?_⟩
      · intro c hc; cases hc
      · intro c hc; cases hc
  | cons c cs ih =>
      intro hcs s lay mid
      have hc : c ∈ childrenOf G key := hcs c (List.mem_cons_self c cs)
      have step := procChild_mid inv hPC hR hkey hkeyL mid hc
      rcases hst : procChild G L key (s, lay) c with ⟨s1, lay1⟩
      rw [hst] at step
      obtain ⟨mid1, hprop1, hlay1, hancm1, hlvl1, hvisit1⟩ := step
      have hrest := ih (fun x hx => hcs x (List.mem_cons_of_mem c hx)) s1 lay1 mid1
      simp only [List.foldl_cons, hst]
      obtain ⟨midF, hpropF, hlayF, hancmF, hlvlF, hvisitF⟩ := hrest
      refine ⟨midF, ?_, fun x hx => hlayF (hlay1 hx), ?_, ?_, ?_⟩
      · intro c2 hc2
        rcases List.mem_cons.mp hc2 with rfl | hc3
        · exact fun y hy => hancmF c2 (hprop1 hy)
        · exact hpropF c2 hc3
      · exact fun x y hy => hancmF x (hancm1 x hy)
      · exact fun x j hj => hlvlF x j (hlvl1 x j hj)
      · intro c2 hc2 hcond
        rcases List.mem_cons.mp hc2 with rfl | hc3
        · exact hlayF (hvisit1 hcond)
        · exact hvisitF c2 hc3 hcond

theorem buildLayer_mid
    {G : Graph} {rank : GKey → Nat} {L : Nat} {s0 : LState} {layers : List (List GKey)}
    (inv : Inv G L layers s0) (hPC : DualPC G)
    (hR : ∀ k, k ∈ keysOf G → ∀ p, p ∈ parentsOf G k → rank p < rank k) :
    ∀ (ks : List GKey), (∀ k, k ∈ ks → k ∈ keysOf G ∧ s0.level k = some L) →
      ∀ (s : LState) (lay : List GKey), Mid G rank L s0 s lay →
      Mid G rank L s0
          (ks.foldl (fun st key => (childrenOf G key).foldl (procChild G L key) st) (s, lay)).1
          (ks.foldl (fun st key => (childrenOf G key).foldl (procChild G L key) st) (s, lay)).2 ∧
        (∀ key, key ∈ ks → ∀ c, c ∈ childrenOf G key → s0.anc key ⊆
          (ks.foldl (fun st key => (childrenOf G key).foldl (procChild G L key) st)
            (s, lay)).1.anc c) ∧
        lay ⊆ (ks.foldl (fun st key => (childrenOf G key).foldl (procChild G L key) st)
            (s, lay)).2 ∧
        (∀ x, s.anc x ⊆
          (ks.foldl (fun st key => (childrenOf G key).foldl (procChild G L key) st)
            (s, lay)).1.anc x) ∧
        (∀ x j, s.level x = some j →
          (ks.foldl (fun st key => (childrenOf G key).foldl (procChild G L key) st)
            (s, lay)).1.level x = some j) ∧
        (∀ key, key ∈ ks → ∀ c, c ∈ childrenOf G key →
          (∀ p, p ∈ parentsOf G c → ∃ jp, s0.level p = some jp ∧ jp ≤ L) →
          c ∈ (ks.foldl (fun st key => (childrenOf G key).foldl (procChild G L key) st)
            (s, lay)).2) := by
  intro ks
  induction ks with
  | nil =>
      intro _ s lay mid
      refine ⟨mid, ?_, fun x hx => hx, fun x y hy => hy, fun x j hj => hj, ?_⟩
      · intro k hk; cases hk
      · intro k hk; cases hk
  | cons key ks ih =>
      intro hks s lay mid
      obtain ⟨hkey, hkeyL⟩ := hks key (List.mem_cons_self key ks)
      have inner := foldChildren_mid inv hPC hR hkey hkeyL (childrenOf G key)
        (fun c hc => hc) s lay mid
      rcases hst : (childrenOf G key).foldl (procChild G L key) (s, lay) with ⟨s1, lay1⟩
      rw [hst] at inner
      obtain ⟨mid1, hprop1, hlay1, hancm1, hlvl1, hvisit1⟩ := inner
      have hrest := ih (fun x hx => hks x (List.mem_cons_of_mem key hx)) s1 lay1 mid1
      simp only [List.foldl_cons, hst]
      obtain ⟨midF, hpropF, hlayF, hancmF, hlvlF, hvisitF⟩ := hrest
      refine ⟨midF, ?_, fun x hx => hlayF (hlay1 hx), ?_, ?_, ?_⟩
      · intro key2 hk2 c hc2
        rcases List.mem_cons.mp hk2 with rfl | hk3
        · exact fun y hy => hancmF c (hprop1 c hc2 hy)
        · exact hpropF key2 hk3 c hc2
      · exact fun x y hy => hancmF x (hancm1 x hy)
      · exact fun x j hj => hlvlF x j (hlvl1 x j hj)
      · intro key2 hk2 c hc2 hcond
        rcases List.mem_cons.mp hk2 with rfl | hk3
        · exact hlayF (hvisit1 c hc2 hcond)
        · exact hvisitF key2 hk3 c hc2 hcond

theorem getD_append_lt : ∀ (l lz : List (List GKey)) (j : Nat), j < l.length →
    (l ++ lz).getD j [] = l.getD j []
  | [], _, j, h => absurd h (by simp)
  | x :: l, lz, 0, _ => rfl
  | x :: l, lz, j + 1, h => by
      simp only [List.cons_append, List.getD_cons_succ]
      exact getD_append_lt l lz j (by simpa using h)

theorem getD_append_len : ∀ (l : List (List GKey)) (x : List GKey),
    (l ++ [x]).getD l.length [] = x
  | [], x => rfl
  | y :: l, x => by
      simp only [List.cons_append, List.length_cons, List.getD_cons_succ]
      exact getD_append_len l x

theorem iter_inv
    {G : Graph} {rank : GKey → Nat} {L : Nat} {layers : List (List GKey)} {s0 : LState}
    (inv : Inv G L layers s0)
    (hPC : DualPC G) (hCP : DualCP G)
    (hR : ∀ k, k ∈ keysOf G → ∀ p, p ∈ parentsOf G k → rank p < rank k)
    (hAR : AncRank rank s0) :
    Inv G (L + 1) (layers ++ [(buildLayer G L s0 (layers.getD L [])).2])
        (buildLayer G L s0 (layers.getD L [])).1 ∧
      AncRank rank (buildLayer G L s0 (layers.getD L [])).1 ∧
      (∀ x j, s0.level x = some j →
        (buildLayer G L s0 (layers.getD L [])).1.level x = some j) := by
  have hLlt : L < layers.length := by rw [inv.len]; omega
  have hksL : ∀ k, k ∈ layers.getD L [] → k ∈ keysOf G ∧ s0.level k = some L := by
    intro k hk
    have := (inv.mem_iff L hLlt k).mp hk
    exact ⟨inv.lvl_keys k L this, this⟩
  have mid0 : Mid G rank L s0 s0 [] := by
    refine ⟨?_, List.nodup_nil, ?_, fun k x hx => hx, fun k j _ => rfl, hAR⟩
    · intro k
      rw [if_neg (List.not_mem_nil k)]
    · intro k hk; cases hk
  have main := buildLayer_mid inv hPC hR (layers.getD L []) hksL s0 [] mid0
  unfold buildLayer
  rcases hst : (layers.getD L []).foldl
      (fun st key => (childrenOf G key).foldl (procChild G L key) st) (s0, []) with ⟨s1, lay⟩
  rw [hst] at main
  obtain ⟨midF, hprop, hlayg, hancm, hlvlkeep, hvisit⟩ := main
  have hlay_lvl : ∀ k, k ∈ lay → s1.level k = some (L + 1) := by
    intro k hk
    rw [midF.lvl_eq k, if_pos hk]
  have hnot_lay : ∀ k, k ∉ lay → s1.level k = s0.level k := by
    intro k hk
    rw [midF.lvl_eq k, if_neg hk]
  have hlvl_par : ∀ p jp, s1.level p = some jp → jp ≤ L → p ∉ lay ∧ s0.level p = some jp := by
    intro p jp hp hle
    by_cases hpl : p ∈ lay
    · rw [hlay_lvl p hpl] at hp
      have : L + 1 = jp := Option.some.inj hp
      omega
    · rw [hnot_lay p hpl] at hp
      exact ⟨hpl, hp⟩
  refine ⟨⟨?_, ?_, ?_, ?_, ?_, ?_, ?_, ?_, ?_, ?_⟩, midF.anc_rank, hlvlkeep⟩
  · simp [inv.len]
  · intro l hl
    rcases List.mem_append.mp hl with h | h
    · exact inv.layNodup l h
    · rw [List.mem_singleton] at h
      subst h
      exact midF.lay_nodup
  · intro j hj k
    simp only [List.length_append, List.length_singleton, inv.len] at hj
    by_cases hjle : j < layers.length
    · rw [getD_append_lt layers _ j hjle]
      have hjL : j ≤ L := by rw [inv.len] at hjle; omega
      constructor
      · intro hk
        have h0 := (inv.mem_iff j hjle k).mp hk
        have hknl : k ∉ lay := by
          intro hin
          have := (midF.lay_new k hin).2.1
          rw [h0] at this; cases this
        rw [hnot_lay k hknl]
        exact h0
      · intro hk
        obtain ⟨hknl, h0⟩ := hlvl_par k j hk hjL
        exact (inv.mem_iff j hjle k).mpr h0
    · have hj2 : j = L + 1 := by rw [inv.len] at hjle; omega
      subst hj2
      have hgd : (layers ++ [lay]).getD (L + 1) [] = lay := by
        rw [← inv.len]
        exact getD_append_len layers lay
      rw [hgd]
      constructor
      · exact hlay_lvl k
      · intro hk
        by_cases hkl : k ∈ lay
        · exact hkl
        · rw [hnot_lay k hkl] at hk
          have := inv.lvl_le k (L + 1) hk
          omega
  · intro k j hk
    by_cases hkl : k ∈ lay
    · exact (midF.lay_new k hkl).1
    · rw [hnot_lay k hkl] at hk
      exact inv.lvl_keys k j hk
  · intro k j hk
    by_cases hkl : k ∈ lay
    · rw [hlay_lvl k hkl] at hk
      have : L + 1 = j := Option.some.inj hk
      omega
    · rw [hnot_lay k hkl] at hk
      have := inv.lvl_le k j hk
      omega
  · intro k j hk p hp
    by_cases hkl : k ∈ lay
    · rw [hlay_lvl k hkl] at hk
      have hj : L + 1 = j := Option.some.inj hk
      obtain ⟨jp, hjp, hjple⟩ := (midF.lay_new k hkl).2.2 p hp
      have hpnl : p ∉ lay := by
        intro hin
        have := (midF.lay_new p hin).2.1
        rw [hjp] at this; cases this
      refine ⟨jp, ?_, by omega⟩
      rw [hnot_lay p hpnl]
      exact hjp
    · rw [hnot_lay k hkl] at hk
      obtain ⟨jp, hjp, hlt⟩ := inv.strict k j hk p hp
      have hpnl : p ∉ lay := by
        intro hin
        have := (midF.lay_new p hin).2.1
        rw [hjp] at this; cases this
      refine ⟨jp, ?_, hlt⟩
      rw [hnot_lay p hpnl]
      exact hjp
  · intro k hkk
    constructor
    · intro hk
      obtain ⟨hknl, h0⟩ := hlvl_par k 0 hk (by omega)
      exact (inv.zero_iff k hkk).mp h0
    · intro hpar
      have h0 := (inv.zero_iff k hkk).mpr hpar
      exact hlvlkeep k 0 h0
  · intro k hkk hcond
    have hpar_all : ∀ p, p ∈ parentsOf G k → ∃ jp, s0.level p = some jp ∧ jp ≤ L := by
      intro p hp
      obtain ⟨jp, hjp, hlt⟩ := hcond p hp
      have hle : jp ≤ L := by omega
      obtain ⟨_, h0⟩ := hlvl_par p jp hjp hle
      exact ⟨jp, h0, hle⟩
    by_cases hall : ∀ p, p ∈ parentsOf G k → ∃ jp, s0.level p = some jp ∧ jp < L
    · have := inv.complete k hkk hall
      cases h0 : s0.level k with
      | none => rw [h0] at this; cases this
      | some j =>
          rw [hlvlkeep k j h0]
          rfl
    · push_neg at hall
      obtain ⟨p0, hp0, hp0bad⟩ := hall
      obtain ⟨jp0, hjp0, hjp0le⟩ := hpar_all p0 hp0
      have hjp0L : jp0 = L := by
        have := hp0bad jp0 hjp0
        omega
      subst hjp0L
      have hp0ks : p0 ∈ layers.getD jp0 [] := (inv.mem_iff jp0 hLlt p0).mpr hjp0
      obtain ⟨hp0k, hkc⟩ := hCP k hkk p0 hp0
      have := hvisit p0 hp0ks k hkc hpar_all
      rw [hlay_lvl k this]
      rfl
  · intro k
    exact (inv.anc_par k).trans (hancm k)
  · intro c hck p hp jp hjp hlt
    have hle : jp ≤ L := by omega
    obtain ⟨hpnl, h0⟩ := hlvl_par p jp hjp hle
    have hanc_p : s1.anc p = s0.anc p := midF.anc_stable p jp h0
    by_cases hjpL : jp < L
    · have hacc := inv.anc_acc c hck p hp jp h0 hjpL
      rw [hanc_p]
      exact hacc.trans (hancm c)
    · have hjpe : jp = L := by omega
      subst hjpe
      have hpks : p ∈ layers.getD jp [] := (inv.mem_iff jp hLlt p).mpr h0
      obtain ⟨hpk, hcc⟩ := hCP c hck p hp
      rw [hanc_p]
      exact hprop p hpks c hcc

theorem rinv_step
    {G : Graph} {rb : GKey → Nat} {L : Nat} {layers : List (List GKey)} {s0 : LState}
    (inv : Inv G L layers s0) (hCP : DualCP G)
    (hmono : ∀ k, k ∈ keysOf G → ∀ p, p ∈ parentsOf G k → rb p < rb k)
    (hrb : RInv G rb L s0)
    {s1 : LState} (hlvlkeep : ∀ x j, s0.level x = some j → s1.level x = some j) :
    RInv G rb (L + 1) s1 := by
  intro k hk hlt
  by_cases hcase : rb k < L
  · obtain ⟨j, hj, hjle⟩ := hrb k hk hcase
    exact ⟨j, hlvlkeep k j hj, hjle⟩
  · have hrbk : rb k = L := by omega
    have hpar : ∀ p, p ∈ parentsOf G k → ∃ jp, s0.level p = some jp ∧ jp < L := by
      intro p hp
      have hpk : p ∈ keysOf G := (hCP k hk p hp).1
      have hplt : rb p < L := by
        have := hmono k hk p hp
        omega
      obtain ⟨jp, hjp, hjple⟩ := hrb p hpk hplt
      exact ⟨jp, hjp, by omega⟩
    have hsome := inv.complete k hk hpar
    cases h0 : s0.level k with
    | none => rw [h0] at hsome; cases hsome
    | some j =>
        have hle := inv.lvl_le k j h0
        exact ⟨j, hlvlkeep k j h0, by omega⟩

theorem linLoop_inv {G : Graph} {rb : GKey → Nat}
    (hPC : DualPC G) (hCP : DualCP G)
    (hmono : ∀ k, k ∈ keysOf G → ∀ p, p ∈ parentsOf G k → rb p < rb k) :
    ∀ (fuel L : Nat) (layers : List (List GKey)) (s : LState),
      Inv G L layers s → AncRank rb s → RInv G rb L s →
      ∃ L2, Inv G L2 (linLoop G fuel L layers s).1 (linLoop G fuel L layers s).2 ∧
        AncRank rb (linLoop G fuel L layers s).2 ∧
        RInv G rb L2 (linLoop G fuel L layers s).2 ∧
        (L2 = L + fuel ∨ ¬ sumLens (linLoop G fuel L layers s).1 < G.length) := by
  intro fuel
  induction fuel with
  | zero =>
      intro L layers s inv hAR hrb
      exact ⟨L, inv, hAR, hrb, Or.inl rfl⟩
  | succ fuel ih =>
      intro L layers s inv hAR hrb
      show ∃ L2, Inv G L2 (linLoop G (fuel + 1) L layers s).1 _ ∧ _
      rw [linLoop]
      by_cases hguard : sumLens layers < G.length
      · rw [if_pos hguard]
        obtain ⟨inv2, hAR2, hkeep⟩ := iter_inv inv hPC hCP hmono hAR
        have hrb2 := rinv_step inv hCP hmono hrb hkeep
        obtain ⟨L2, i2, a2, r2, d2⟩ := ih (L + 1) _ _ inv2 hAR2 hrb2
        refine ⟨L2, i2, a2, r2, ?_⟩
        rcases d2 with h | h
        · exact Or.inl (by omega)
        · exact Or.inr h
      · rw [if_neg hguard]
        exact ⟨L, inv, hAR, hrb, Or.inr hguard⟩

theorem parentsOf_of_not_mem {G : Graph} {k : GKey} (h : k ∉ keysOf G) :
    parentsOf G k = [] := by
  unfold parentsOf
  rw [gget_eq_none_iff.mpr h]

theorem mem_layerFinset : ∀ (ls : List (List GKey)) (k : GKey),
    k ∈ layerFinset ls ↔ ∃ j, j < ls.length ∧ k ∈ ls.getD j [] := by
  intro ls
  induction ls with
  | nil =>
      intro k
      constructor
      · intro h; cases h
      · rintro ⟨j, hj, _⟩
        simp at hj
  | cons l ls ih =>
      intro k
      unfold layerFinset
      rw [Finset.mem_union, List.mem_toFinset, ih]
      constructor
      · rintro (h | ⟨j, hj, hk⟩)
        · exact ⟨0, by simp, h⟩
        · exact ⟨j + 1, by simpa using hj, by simpa [List.getD_cons_succ] using hk⟩
      · rintro ⟨j, hj, hk⟩
        cases j with
        | zero => exact Or.inl hk
        | succ j =>
            right
            exact ⟨j, by simpa using hj, by simpa [List.getD_cons_succ] using hk⟩

theorem sumLens_eq_card : ∀ (ls : List (List GKey)), (∀ l ∈ ls, l.Nodup) →
    List.Pairwise (fun l1 l2 => ∀ k, k ∈ l1 → k ∉ l2) ls →
    sumLens ls = (layerFinset ls).card := by
  intro ls
  induction ls with
  | nil => intro _ _; rfl
  | cons l ls ih =>
      intro hnd hpw
      obtain ⟨hhead, htail⟩ := List.pairwise_cons.mp hpw
      have hdisj : Disjoint l.toFinset (layerFinset ls) := by
        rw [Finset.disjoint_left]
        intro k hk hk2
        rw [List.mem_toFinset] at hk
        obtain ⟨j, hj, hkj⟩ := (mem_layerFinset ls k).mp hk2
        have hmem : ls.getD j [] ∈ ls := by
          rw [List.getD_eq_getElem _ _ hj]
          exact List.getElem_mem hj
        exact hhead (ls.getD j []) hmem k hk hkj
      show l.length + sumLens ls = _
      unfold layerFinset
      rw [Finset.card_union_of_disjoint hdisj,
        List.toFinset_card_of_nodup (hnd l (List.mem_cons_self l ls)),
        ih (fun x hx => hnd x (List.mem_cons_of_mem l hx)) htail]

theorem inv_pairwise {G : Graph} {L : Nat} {layers : List (List GKey)} {s : LState}
    (inv : Inv G L layers s) :
    List.Pairwise (fun l1 l2 => ∀ k, k ∈ l1 → k ∉ l2) layers := by
  rw [List.pairwise_iff_getElem]
  intro i j hi hj hij
  intro k hk1 hk2
  have h1 := (inv.mem_iff i hi k).mp (by rw [List.getD_eq_getElem _ _ hi]; exact hk1)
  have h2 := (inv.mem_iff j hj k).mp (by rw [List.getD_eq_getElem _ _ hj]; exact hk2)
  rw [h1] at h2
  have : i = j := Option.some.inj h2
  omega

theorem inv_layerFinset_sub {G : Graph} {L : Nat} {layers : List (List GKey)} {s : LState}
    (inv : Inv G L layers s) : layerFinset layers ⊆ (keysOf G).toFinset := by
  intro k hk
  obtain ⟨j, hj, hkj⟩ := (mem_layerFinset layers k).mp hk
  have := (inv.mem_iff j hj k).mp hkj
  rw [List.mem_toFinset]
  exact inv.lvl_keys k j this

theorem inv_placed_mem {G : Graph} {L : Nat} {layers : List (List GKey)} {s : LState}
    (inv : Inv G L layers s) {k : GKey} {j : Nat} (h : s.level k = some j) :
    k ∈ layerFinset layers := by
  have hle := inv.lvl_le k j h
  have hj : j < layers.length := by rw [inv.len]; omega
  exact (mem_layerFinset layers k).mpr ⟨j, hj, (inv.mem_iff j hj k).mpr h⟩

/-- Summary facts of computeLineage on a well-formed acyclic graph: every node
is placed, levels strictly grow from parent to child, level 0 is exactly the
parentless set, the layers exactly account for all nodes (the loop guard is
false, so the Python loop exits), ancestor sets contain the parents, are
accumulated across edges, and never contain the node itself. -/
theorem computeLineage_main {G : Graph} (wf : GWF G) (hacy : Acyclic G) :
    (∀ k, k ∈ keysOf G → ∃ j, (computeLineage G).level k = some j) ∧
    (∀ k j, (computeLineage G).level k = some j → k ∈ keysOf G) ∧
    (∀ k j, (computeLineage G).level k = some j → ∀ p, p ∈ parentsOf G k →
      ∃ jp, (computeLineage G).level p = some jp ∧ jp < j) ∧
    (∀ k, k ∈ keysOf G → ((computeLineage G).level k = some 0 ↔ parentsOf G k = [])) ∧
    sumLens (computeLineage G).layers = G.length ∧
    (∀ c, parentsOf G c ⊆ (computeLineage G).anc c) ∧
    (∀ c, c ∈ keysOf G → ∀ p, p ∈ parentsOf G c →
      (computeLineage G).anc p ⊆ (computeLineage G).anc c) ∧
    (∀ c, c ∉ (computeLineage G).anc c) := by
  classical
  obtain ⟨rank, hrank⟩ := hacy
  have hkeylen : (keysOf G).length = G.length := List.length_map G Prod.fst
  set rb : GKey → Nat :=
    fun k => ((keysOf G).toFinset.filter (fun m => rank m < rank k)).card with hrbdef
  have hmono : ∀ k, k ∈ keysOf G → ∀ p, p ∈ parentsOf G k → rb p < rb k := by
    intro k hk p hp
    have hpk : p ∈ keysOf G := (wf.dualCP k hk p hp).1
    apply Finset.card_lt_card
    rw [Finset.ssubset_iff_of_subset]
    · refine ⟨p, ?_, ?_⟩
      · rw [Finset.mem_filter, List.mem_toFinset]
        exact ⟨hpk, hrank k hk p hp⟩
      · rw [Finset.mem_filter]
        rintro ⟨_, hlt⟩
        omega
    · intro x hx
      rw [Finset.mem_filter] at hx ⊢
      refine ⟨hx.1, ?_⟩
      have := hrank k hk p hp
      omega
  have hbound : ∀ k, k ∈ keysOf G → rb k < G.length := by
    intro k hk
    have hsub : (keysOf G).toFinset.filter (fun m => rank m < rank k) ⊂ (keysOf G).toFinset := by
      rw [Finset.ssubset_iff_of_subset (Finset.filter_subset _ _)]
      refine ⟨k, List.mem_toFinset.mpr hk, ?_⟩
      rw [Finset.mem_filter]
      rintro ⟨_, hlt⟩
      omega
    calc rb k < (keysOf G).toFinset.card := Finset.card_lt_card hsub
      _ ≤ (keysOf G).length := List.toFinset_card_le _
      _ = G.length := hkeylen
  set roots : List GKey := (keysOf G).filter (fun k => (parentsOf G k).isEmpty) with hrootsdef
  set s0 : LState :=
    { level := fun k => if k ∈ roots then some 0 else none
      anc := fun k => parentsOf G k } with hs0def
  have hroots_mem : ∀ k, k ∈ roots ↔ k ∈ keysOf G ∧ parentsOf G k = [] := by
    intro k
    rw [hrootsdef, List.mem_filter]
    constructor
    · rintro ⟨h1, h2⟩
      exact ⟨h1, List.isEmpty_iff.mp (by simpa using h2)⟩
    · rintro ⟨h1, h2⟩
      exact ⟨h1, by simp [h2]⟩
  have hlvl0 : ∀ k j, s0.level k = some j → k ∈ roots ∧ j = 0 := by
    intro k j h
    rw [hs0def] at h
    simp only at h
    by_cases hk : k ∈ roots
    · rw [if_pos hk] at h
      exact ⟨hk, (Option.some.inj h).symm⟩
    · rw [if_neg hk] at h
      cases h
  have hlvlroot : ∀ k, k ∈ roots → s0.level k = some 0 := by
    intro k hk
    show (if k ∈ roots then some 0 else none) = some 0
    rw [if_pos hk]
  have inv0 : Inv G 0 [roots] s0 := by
    refine ⟨rfl, ?_, ?_, ?_, ?_, ?_, ?_, ?_, ?_, ?_⟩
    · intro l hl
      rw [List.mem_singleton] at hl
      subst hl
      exact wf.nodup.filter _
    · intro j hj k
      have hj0 : j = 0 := by simpa using hj
      subst hj0
      show k ∈ roots ↔ s0.level k = some 0
      exact ⟨hlvlroot k, fun hk => (hlvl0 k 0 hk).1⟩
    · intro k j h
      exact ((hroots_mem k).mp (hlvl0 k j h).1).1
    · intro k j h
      have := (hlvl0 k j h).2
      omega
    · intro k j h p hp
      have hpar := ((hroots_mem k).mp (hlvl0 k j h).1).2
      rw [hpar] at hp
      cases hp
    · intro k hk
      constructor
      · intro h
        exact ((hroots_mem k).mp (hlvl0 k 0 h).1).2
      · intro hpar
        exact hlvlroot k ((hroots_mem k).mpr ⟨hk, hpar⟩)
    · intro k hk hcond
      cases hpar : parentsOf G k with
      | nil =>
          rw [hlvlroot k ((hroots_mem k).mpr ⟨hk, hpar⟩)]
          rfl
      | cons p ps =>
          obtain ⟨jp, _, hlt⟩ := hcond p (by rw [hpar]; exact List.mem_cons_self p ps)
          omega
    · intro k
      exact fun x hx => hx
    · intro c _ p _ jp _ hlt
      omega
  have hAR0 : AncRank rb s0 := by
    intro k a ha
    by_cases hk : k ∈ keysOf G
    · exact hmono k hk a ha
    · have : s0.anc k = [] := by
        show parentsOf G k = []
        exact parentsOf_of_not_mem hk
      rw [this] at ha
      cases ha
  have hrb0 : RInv G rb 0 s0 := by
    intro k _ h
    omega
  have main := linLoop_inv wf.dualPC wf.dualCP hmono G.length 0 [roots] s0 inv0 hAR0 hrb0
  set r := linLoop G G.length 0 [roots] s0 with hrdef
  obtain ⟨L2, inv2, hAR2, hrb2, hdis⟩ := main
  have hout_lvl : (computeLineage G).level = r.2.level := rfl
  have hout_anc : (computeLineage G).anc = r.2.anc := rfl
  have hout_lay : (computeLineage G).layers = r.1 := rfl
  have hplaced : ∀ k, k ∈ keysOf G → ∃ j, r.2.level k = some j := by
    rcases hdis with hL2 | hsum
    · intro k hk
      obtain ⟨j, hj, _⟩ := hrb2 k hk (by rw [hL2]; simpa using hbound k hk)
      exact ⟨j, hj⟩
    · intro k hk
      have hsubset := inv_layerFinset_sub inv2
      have hcardsum := sumLens_eq_card r.1 inv2.layNodup (inv_pairwise inv2)
      have hge : (keysOf G).toFinset.card ≤ (layerFinset r.1).card := by
        rw [← hcardsum]
        calc (keysOf G).toFinset.card ≤ (keysOf G).length := List.toFinset_card_le _
          _ = G.length := hkeylen
          _ ≤ sumLens r.1 := by omega
      have heq := Finset.eq_of_subset_of_card_le hsubset hge
      have : k ∈ layerFinset r.1 := by
        rw [heq, List.mem_toFinset]
        exact hk
      obtain ⟨j, hj, hkj⟩ := (mem_layerFinset r.1 k).mp this
      exact ⟨j, (inv2.mem_iff j hj k).mp hkj⟩
  have hfeq : layerFinset r.1 = (keysOf G).toFinset := by
    refine Finset.Subset.antisymm (inv_layerFinset_sub inv2) ?_
    intro k hk
    rw [List.mem_toFinset] at hk
    obtain ⟨j, hj⟩ := hplaced k hk
    exact inv_placed_mem inv2 hj
  have hsum : sumLens r.1 = G.length := by
    rw [sumLens_eq_card r.1 inv2.layNodup (inv_pairwise inv2), hfeq,
      List.toFinset_card_of_nodup wf.nodup, hkeylen]
  rw [hout_lvl, hout_anc, hout_lay]
  refine ⟨hplaced, inv2.lvl_keys, ?_, inv2.zero_iff, hsum, inv2.anc_par, ?_, ?_⟩
  · intro k j h p hp
    exact inv2.strict k j h p hp
  · intro c hc p hp
    obtain ⟨jc, hjc⟩ := hplaced c hc
    obtain ⟨jp, hjp, hlt⟩ := inv2.strict c jc hjc p hp
    have hjcle := inv2.lvl_le c jc hjc
    exact inv2.anc_acc c hc p hp jp hjp (by omega)
  · intro c hcmem
    exact lt_irrefl (rb c) (hAR2 c c hcmem)

/- ------------------------------------------------------------------ -/
/- Decomposition of the dynamics phase.                               -/
/- ------------------------------------------------------------------ -/

theorem bindE_assoc {α β γ : Type} (x : Except String α) (f : α → Except String β)
    (g : β → Except String γ) : (x >>= f) >>= g = x >>= fun a => f a >>= g := by
  cases x <;> rfl

theorem bindE_congr {α β : Type} {x : Except String α} {f g : α → Except String β}
    (h : ∀ a, f a = g a) : x >>= f = x >>= g := by
  cases x with
  | ok a => exact h a
  | error e => rfl

theorem dynLinks_cons_skip (G : Graph) (k : SKey) (e : DynEntry) (d : List (SKey × DynEntry))
    (ht : isTurnKey k = true) : dynLinks G ((k, e) :: d) = dynLinks G d := by
  show (if isTurnKey k then dynLinks G d else _) = dynLinks G d
  rw [if_pos ht]

theorem dynLinks_cons_sentinel (G : Graph) (k : SKey) (b : Bool) (d : List (SKey × DynEntry))
    (ht : isTurnKey k = false) (hm : GKey.st k ∈ keysOf G) :
    dynLinks G ((k, .sentinel b) :: d) = dynLinks G d := by
  show (if isTurnKey k then _ else if GKey.st k ∈ keysOf G then _ else _) = dynLinks G d
  rw [ht, if_neg (by simp), if_pos hm]

theorem dynLinks_append : ∀ (d1 d2 : List (SKey × DynEntry)) (G : Graph),
    dynLinks G (d1 ++ d2) = dynLinks G d1 >>= fun G1 => dynLinks G1 d2 := by
  intro d1
  induction d1 with
  | nil =>
      intro d2 G
      rfl
  | cons d d1 ih =>
      obtain ⟨k, e⟩ := d
      intro d2 G
      show (if isTurnKey k then dynLinks G (d1 ++ d2) else _) =
        (if isTurnKey k then dynLinks G d1 else _) >>= _
      by_cases ht : isTurnKey k
      · rw [if_pos ht, if_pos ht, ih]
      · rw [if_neg ht, if_neg ht]
        by_cases hm : GKey.st k ∈ keysOf G
        · rw [if_pos hm, if_pos hm]
          cases e with
          | sentinel b =>
              exact ih d2 G
          | table es =>
              show (dynTable G k es >>= fun G1 => dynLinks G1 (d1 ++ d2)) =
                (dynTable G k es >>= fun G1 => dynLinks G1 d1) >>= _
              rw [bindE_assoc]
              exact bindE_congr (fun G1 => ih d2 G1)
        · rw [if_neg hm, if_neg hm]
          rfl

theorem nodesOf_dynamics_irrel (w : World) (d : List (SKey × DynEntry)) :
    nodesOf { w with dynamics := d } = nodesOf w := rfl

/-- Claim C10 core: a turn-keyed dynamics entry anywhere in the table is a
no-op for graph construction, whatever its entry and whether or not the key
has a node. -/
theorem computeGraph_turn_skip (w : World) (d1 d2 : List (SKey × DynEntry)) (k : SKey)
    (e : DynEntry) (ht : isTurnKey k = true) :
    computeGraph { w with dynamics := d1 ++ (k, e) :: d2 } =
      computeGraph { w with dynamics := d1 ++ d2 } := by
  have h1 : computeGraph { w with dynamics := d1 ++ (k, e) :: d2 } =
      dynLinks (nodesOf w) (d1 ++ (k, e) :: d2) >>= fun G1 => agentLinks G1 w.agents := rfl
  have h2 : computeGraph { w with dynamics := d1 ++ d2 } =
      dynLinks (nodesOf w) (d1 ++ d2) >>= fun G1 => agentLinks G1 w.agents := rfl
  rw [h1, h2, dynLinks_append, dynLinks_append, bindE_assoc, bindE_assoc]
  refine bindE_congr ?_
  intro G1
  rw [dynLinks_cons_skip G1 k e d2 ht]

/-- Claim C5 core, sentinel part: a dynamics entry that is a boolean sentinel
contributes nothing to the graph, provided its key has a node (the key assert
precedes the sentinel test). -/
theorem computeGraph_sentinel_skip (w : World) (d1 d2 : List (SKey × DynEntry)) (k : SKey)
    (b : Bool) (ht : isTurnKey k = false) (hm : GKey.st k ∈ keysOf (nodesOf w)) :
    computeGraph { w with dynamics := d1 ++ (k, .sentinel b) :: d2 } =
      computeGraph { w with dynamics := d1 ++ d2 } := by
  have h1 : computeGraph { w with dynamics := d1 ++ (k, .sentinel b) :: d2 } =
      dynLinks (nodesOf w) (d1 ++ (k, .sentinel b) :: d2) >>= fun G1 => agentLinks G1 w.agents :=
    rfl
  have h2 : computeGraph { w with dynamics := d1 ++ d2 } =
      dynLinks (nodesOf w) (d1 ++ d2) >>= fun G1 => agentLinks G1 w.agents := rfl
  rw [h1, h2, dynLinks_append, dynLinks_append, bindE_assoc, bindE_assoc]
  cases hx : dynLinks (nodesOf w) d1 with
  | error e => rfl
  | ok G1 =>
      have hkeys : keysOf G1 = keysOf (nodesOf w) := (dynLinks_mono d1 _ _ hx).1.1
      show (dynLinks G1 ((k, .sentinel b) :: d2) >>= fun G2 => agentLinks G2 w.agents) =
        (dynLinks G1 d2 >>= fun G2 => agentLinks G2 w.agents)
      rw [dynLinks_cons_sentinel G1 k b d2 ht (by rw [hkeys]; exact hm)]

theorem link_parents_mem {G G2 : Graph} {c p : GKey} (h : link G c p = .ok G2) :
    p ∈ parentsOf G2 c := by
  obtain ⟨hc, hp, rfl⟩ := link_ok_iff.mp h
  rw [parentsOf_linkG_self G c p hc]
  exact mem_addOnce_self p _

theorem treeLinks_parents_mem :
    ∀ (ps : List SKey) (G : Graph) (c : GKey) (G2 : Graph),
      treeLinks G c ps = .ok G2 → ∀ p, p ∈ ps → GKey.st p ∈ parentsOf G2 c := by
  intro ps
  induction ps with
  | nil =>
      intro G c G2 _ p hp
      cases hp
  | cons q ps ih =>
      intro G c G2 h p hp
      simp only [treeLinks] at h
      obtain ⟨G1, h1, h2⟩ := bindE_ok.mp h
      rcases List.mem_cons.mp hp with rfl | hp2
      · exact ((treeLinks_mono ps G1 c G2 h2).1.2 c).1 (link_parents_mem h1)
      · exact ih G1 c G2 h2 p hp2

theorem dynTable_parents_mem :
    ∀ (es : List (Option ActS × STree)) (G : Graph) (k : SKey) (G2 : Graph),
      dynTable G k es = .ok G2 → ∀ ao t, (ao, t) ∈ es →
      (∀ a, ao = some a → GKey.act a ∈ parentsOf G2 (.st (makeFuture k))) ∧
      (∀ p, p ∈ t.stateKeys → GKey.st p ∈ parentsOf G2 (.st (makeFuture k))) := by
  intro es
  induction es with
  | nil =>
      intro G k G2 _ ao t hmem
      cases hmem
  | cons e es ih =>
      obtain ⟨ao0, t0⟩ := e
      intro G k G2 h ao t hmem
      simp only [dynTable] at h
      rcases List.mem_cons.mp hmem with heq | hmem2
      · have hao : ao0 = ao ∧ t0 = t := by
          constructor
          · exact congrArg Prod.fst heq.symm
          · exact congrArg Prod.snd heq.symm
        obtain ⟨rfl, rfl⟩ := hao
        cases ao0 with
        | none =>
            dsimp only at h
            obtain ⟨G1, h1, h2⟩ := bindE_ok.mp h
            cases h1
            obtain ⟨Gm, hm1, hm2⟩ := bindE_ok.mp h2
            constructor
            · intro a ha
              cases ha
            · intro p hp
              exact ((dynTable_mono es Gm k G2 hm2).1.2 _).1
                (treeLinks_parents_mem _ _ _ _ hm1 p hp)
        | some a0 =>
            dsimp only at h
            by_cases hma : GKey.act a0 ∈ keysOf G
            · rw [if_pos hma] at h
              obtain ⟨G1, h1, h2⟩ := bindE_ok.mp h
              obtain ⟨Gm, hm1, hm2⟩ := bindE_ok.mp h2
              constructor
              · intro a ha
                have ha0 : a0 = a := Option.some.inj ha
                subst ha0
                refine ((dynTable_mono es Gm k G2 hm2).1.2 _).1 ?_
                exact ((treeLinks_mono _ _ _ _ hm1).1.2 _).1 (link_parents_mem h1)
              · intro p hp
                exact ((dynTable_mono es Gm k G2 hm2).1.2 _).1
                  (treeLinks_parents_mem _ _ _ _ hm1 p hp)
            · rw [if_neg hma] at h
              simp only [Bind.bind, Except.bind] at h
              cases h
      · cases ao0 with
        | none =>
            dsimp only at h
            obtain ⟨G1, h1, h2⟩ := bindE_ok.mp h
            cases h1
            obtain ⟨Gm, hm1, hm2⟩ := bindE_ok.mp h2
            exact ih Gm k G2 hm2 ao t hmem2
        | some a0 =>
            dsimp only at h
            by_cases hma : GKey.act a0 ∈ keysOf G
            · rw [if_pos hma] at h
              obtain ⟨G1, h1, h2⟩ := bindE_ok.mp h
              obtain ⟨Gm, hm1, hm2⟩ := bindE_ok.mp h2
              exact ih Gm k G2 hm2 ao t hmem2
            · rw [if_neg hma] at h
              simp only [Bind.bind, Except.bind] at h
              cases h

theorem dynLinks_parents_mem :
    ∀ (d : List (SKey × DynEntry)) (G : Graph) (G2 : Graph),
      dynLinks G d = .ok G2 → ∀ k T, (k, DynEntry.table T) ∈ d → isTurnKey k = false →
      ∀ ao t, (ao, t) ∈ T →
      (∀ a, ao = some a → GKey.act a ∈ parentsOf G2 (.st (makeFuture k))) ∧
      (∀ p, p ∈ t.stateKeys → GKey.st p ∈ parentsOf G2 (.st (makeFuture k))) := by
  intro d
  induction d with
  | nil =>
      intro G G2 _ k T hmem
      cases hmem
  | cons d0 d ih =>
      obtain ⟨k0, e0⟩ := d0
      intro G G2 h k T hmem htk ao t hmemT
      simp only [dynLinks] at h
      rcases List.mem_cons.mp hmem with heq | hmem2
      · have hk0 : k0 = k := (congrArg Prod.fst heq).symm
        have he0 : e0 = DynEntry.table T := (congrArg Prod.snd heq).symm
        subst hk0
        subst he0
        rw [if_neg (by simp [htk])] at h
        by_cases hmk : GKey.st k0 ∈ keysOf G
        · rw [if_pos hmk] at h
          dsimp only at h
          obtain ⟨G1, h1, h2⟩ := bindE_ok.mp h
          have base := dynTable_parents_mem T G k0 G1 h1 ao t hmemT
          have mono := (dynLinks_mono d G1 G2 h2).1
          exact ⟨fun a ha => (mono.2 _).1 (base.1 a ha),
            fun p hp => (mono.2 _).1 (base.2 p hp)⟩
        · rw [if_neg hmk] at h
          cases h
      · by_cases ht0 : isTurnKey k0
        · rw [if_pos ht0] at h
          exact ih G G2 h k T hmem2 htk ao t hmemT
        · rw [if_neg ht0] at h
          by_cases hmk : GKey.st k0 ∈ keysOf G
          · rw [if_pos hmk] at h
            cases e0 with
            | sentinel b =>
                dsimp only at h
                exact ih G G2 h k T hmem2 htk ao t hmemT
            | table es =>
                dsimp only at h
                obtain ⟨G1, h1, h2⟩ := bindE_ok.mp h
                exact ih G1 G2 h2 k T hmem2 htk ao t hmemT
          · rw [if_neg hmk] at h
            cases h

/-- Claim C5 core, tree part: a tree-valued dynamics entry for a non-turn key
contributes an edge from each keying action and from every referenced state
key into the post node of the key. -/
theorem computeGraph_dyn_edges {w : World} {G : Graph} (h : computeGraph w = .ok G) :
    ∀ k T, (k, DynEntry.table T) ∈ w.dynamics → isTurnKey k = false →
    ∀ ao t, (ao, t) ∈ T →
    (∀ a, ao = some a → GKey.act a ∈ parentsOf G (.st (makeFuture k))) ∧
    (∀ p, p ∈ t.stateKeys → GKey.st p ∈ parentsOf G (.st (makeFuture k))) := by
  intro k T hmem htk ao t hmemT
  unfold computeGraph at h
  obtain ⟨G1, h1, h2⟩ := bindE_ok.mp h
  have base := dynLinks_parents_mem w.dynamics _ G1 h1 k T hmem htk ao t hmemT
  have mono := (agentLinks_mono w.agents G1 G h2).1
  exact ⟨fun a ha => (mono.2 _).1 (base.1 a ha),
    fun p hp => (mono.2 _).1 (base.2 p hp)⟩

/- ------------------------------------------------------------------ -/
/- Exact characterisation of computeGraph success.                    -/
/- ------------------------------------------------------------------ -/

/-- The conditions under which one dynamics entry passes graph construction:
turn keys are skipped outright; otherwise the key must have a node, and for a
tree table every non-sentinel action and every referenced key must have one. -/

theorem bindE_isOk {α β : Type} {x : Except String α} {f : α → Except String β} :
    (∃ b, x >>= f = Except.ok b) ↔ ∃ a, x = Except.ok a ∧ ∃ b, f a = Except.ok b := by
  cases x with
  | ok a =>
      show (∃ b, f a = _) ↔ _
      constructor
      · intro h
        exact ⟨a, rfl, h⟩
      · rintro ⟨a2, ha2, h⟩
        cases ha2
        exact h
  | error e =>
      constructor
      · rintro ⟨b, hb⟩
        cases hb
      · rintro ⟨a2, ha2, _⟩
        cases ha2

theorem stClosed_of_keysEq {G G2 : Graph} (h : keysOf G2 = keysOf G) (hc : StClosed G) :
    StClosed G2 := by
  intro sk hsk
  rw [h] at hsk ⊢
  exact hc sk hsk

theorem treeLinks_ok_iff :
    ∀ (ps : List SKey) (G : Graph) (c : GKey),
      (∃ G2, treeLinks G c ps = .ok G2) ↔
        ((ps ≠ [] → c ∈ keysOf G) ∧ ∀ p, p ∈ ps → GKey.st p ∈ keysOf G) := by
  intro ps
  induction ps with
  | nil =>
      intro G c
      constructor
      · intro _
        exact ⟨fun h => absurd rfl h, fun p hp => absurd hp (List.not_mem_nil p)⟩
      · intro _
        exact ⟨G, rfl⟩
  | cons q ps ih =>
      intro G c
      constructor
      · rintro ⟨G2, h⟩
        simp only [treeLinks] at h
        obtain ⟨G1, h1, h2⟩ := bindE_ok.mp h
        obtain ⟨hc, hq, rfl⟩ := link_ok_iff.mp h1
        have hkeys : keysOf (linkG G c (GKey.st q)) = keysOf G := keysOf_linkG G c _
        obtain ⟨_, hrest⟩ := (ih _ c).mp ⟨G2, h2⟩
        refine ⟨fun _ => hc, ?_⟩
        intro p hp
        rcases List.mem_cons.mp hp with rfl | hp2
        · exact hq
        · have := hrest p hp2
          rwa [hkeys] at this
      · rintro ⟨hne, hall⟩
        have hc : c ∈ keysOf G := hne (by simp)
        have hq : GKey.st q ∈ keysOf G := hall q (List.mem_cons_self q ps)
        have hlink : link G c (GKey.st q) = .ok (linkG G c (GKey.st q)) :=
          link_ok_iff.mpr ⟨hc, hq, rfl⟩
        have hkeys : keysOf (linkG G c (GKey.st q)) = keysOf G := keysOf_linkG G c _
        obtain ⟨G2, h2⟩ := (ih (linkG G c (GKey.st q)) c).mpr
          ⟨fun _ => by rw [hkeys]; exact hc,
           fun p hp => by rw [hkeys]; exact hall p (List.mem_cons_of_mem q hp)⟩
        refine ⟨G2, ?_⟩
        simp only [treeLinks]
        rw [bindE_ok]
        exact ⟨_, hlink, h2⟩

theorem dynTable_ok_iff :
    ∀ (es : List (Option ActS × STree)) (G : Graph) (k : SKey),
      GKey.st (makeFuture k) ∈ keysOf G →
      ((∃ G2, dynTable G k es = .ok G2) ↔
        ∀ ao t, (ao, t) ∈ es → (∀ a, ao = some a → GKey.act a ∈ keysOf G) ∧
          ∀ p, p ∈ t.stateKeys → GKey.st p ∈ keysOf G) := by
  intro es
  induction es with
  | nil =>
      intro G k _
      constructor
      · intro _ ao t hmem
        cases hmem
      · intro _
        exact ⟨G, rfl⟩
  | cons e es ih =>
      obtain ⟨ao0, t0⟩ := e
      intro G k hfut
      cases ao0 with
      | none =>
          constructor
          · rintro ⟨G2, h⟩
            simp only [dynTable] at h
            obtain ⟨G1, h1, h2⟩ := bindE_ok.mp h
            cases h1
            obtain ⟨Gm, hm1, hm2⟩ := bindE_ok.mp h2
            have hkeys : keysOf Gm = keysOf G := (treeLinks_mono _ _ _ _ hm1).1.1
            have htree := (treeLinks_ok_iff t0.stateKeys G (.st (makeFuture k))).mp ⟨Gm, hm1⟩
            intro ao t hmem
            rcases List.mem_cons.mp hmem with heq | hmem2
            · have h1eq : ao = none := congrArg Prod.fst heq
              have h2eq : t = t0 := congrArg Prod.snd heq
              subst h1eq
              subst h2eq
              exact ⟨fun a ha => absurd ha (by simp), htree.2⟩
            · have := (ih Gm k (by rw [hkeys]; exact hfut)).mp ⟨G2, hm2⟩ ao t hmem2
              rw [hkeys] at this
              exact this
          · intro hall
            have htree : ∃ Gm, treeLinks G (.st (makeFuture k)) t0.stateKeys = .ok Gm := by
              rw [treeLinks_ok_iff]
              exact ⟨fun _ => hfut,
                (hall none t0 (List.mem_cons_self _ _)).2⟩
            obtain ⟨Gm, hm1⟩ := htree
            have hkeys : keysOf Gm = keysOf G := (treeLinks_mono _ _ _ _ hm1).1.1
            obtain ⟨G2, h2⟩ := (ih Gm k (by rw [hkeys]; exact hfut)).mpr
              (by
                intro ao t hmem
                rw [hkeys]
                exact hall ao t (List.mem_cons_of_mem _ hmem))
            refine ⟨G2, ?_⟩
            simp only [dynTable]
            rw [bindE_ok]
            refine ⟨G, rfl, ?_⟩
            rw [bindE_ok]
            exact ⟨Gm, hm1, h2⟩
      | some a0 =>
          by_cases hma : GKey.act a0 ∈ keysOf G
          · constructor
            · rintro ⟨G2, h⟩
              simp only [dynTable] at h
              rw [if_pos hma] at h
              obtain ⟨G1, h1, h2⟩ := bindE_ok.mp h
              obtain ⟨hcfut, _, rfl⟩ := link_ok_iff.mp h1
              have hk1 : keysOf (linkG G (.st (makeFuture k)) (.act a0)) = keysOf G :=
                keysOf_linkG G _ _
              obtain ⟨Gm, hm1, hm2⟩ := bindE_ok.mp h2
              have hk2 : keysOf Gm = keysOf (linkG G (.st (makeFuture k)) (.act a0)) :=
                (treeLinks_mono _ _ _ _ hm1).1.1
              have htree := (treeLinks_ok_iff t0.stateKeys _ (.st (makeFuture k))).mp ⟨Gm, hm1⟩
              intro ao t hmem
              rcases List.mem_cons.mp hmem with heq | hmem2
              · have h1eq : ao = some a0 := congrArg Prod.fst heq
                have h2eq : t = t0 := congrArg Prod.snd heq
                subst h1eq
                subst h2eq
                refine ⟨fun a ha => by rw [← Option.some.inj ha]; exact hma, ?_⟩
                intro p hp
                have := htree.2 p hp
                rwa [hk1] at this
              · have := (ih Gm k (by rw [hk2, hk1]; exact hfut)).mp ⟨G2, hm2⟩ ao t hmem2
                rw [hk2, hk1] at this
                exact this
            · intro hall
              have hlink : link G (.st (makeFuture k)) (.act a0) =
                  .ok (linkG G (.st (makeFuture k)) (.act a0)) :=
                link_ok_iff.mpr ⟨hfut, hma, rfl⟩
              have hk1 : keysOf (linkG G (.st (makeFuture k)) (.act a0)) = keysOf G :=
                keysOf_linkG G _ _
              have htree : ∃ Gm, treeLinks (linkG G (.st (makeFuture k)) (.act a0))
                  (.st (makeFuture k)) t0.stateKeys = .ok Gm := by
                rw [treeLinks_ok_iff]
                refine ⟨fun _ => by rw [hk1]; exact hfut, ?_⟩
                intro p hp
                rw [hk1]
                exact (hall (some a0) t0 (List.mem_cons_self _ _)).2 p hp
              obtain ⟨Gm, hm1⟩ := htree
              have hk2 : keysOf Gm = keysOf (linkG G (.st (makeFuture k)) (.act a0)) :=
                (treeLinks_mono _ _ _ _ hm1).1.1
              obtain ⟨G2, h2⟩ := (ih Gm k (by rw [hk2, hk1]; exact hfut)).mpr
                (by
                  intro ao t hmem
                  rw [hk2, hk1]
                  exact hall ao t (List.mem_cons_of_mem _ hmem))
              refine ⟨G2, ?_⟩
              simp only [dynTable]
              rw [if_pos hma, bindE_ok]
              refine ⟨_, hlink, ?_⟩
              rw [bindE_ok]
              exact ⟨Gm, hm1, h2⟩
          · constructor
            · rintro ⟨G2, h⟩
              simp only [dynTable] at h
              rw [if_neg hma] at h
              simp only [Bind.bind, Except.bind] at h
              cases h
            · intro hall
              exact absurd ((hall (some a0) t0 (List.mem_cons_self _ _)).1 a0 rfl) hma

theorem dynLinks_ok_iff :
    ∀ (d : List (SKey × DynEntry)) (G : Graph), StClosed G →
      ((∃ G2, dynLinks G d = .ok G2) ↔ ∀ e, e ∈ d → GoodDynEntry (keysOf G) e) := by
  intro d
  induction d with
  | nil =>
      intro G _
      constructor
      · intro _ e hmem
        cases hmem
      · intro _
        exact ⟨G, rfl⟩
  | cons d0 d ih =>
      obtain ⟨k, e0⟩ := d0
      intro G hcl
      by_cases ht : isTurnKey k
      · rw [show dynLinks G ((k, e0) :: d) = dynLinks G d from dynLinks_cons_skip G k e0 d ht,
          ih G hcl]
        constructor
        · intro hall e hmem
          rcases List.mem_cons.mp hmem with rfl | hmem2
          · exact Or.inl ht
          · exact hall e hmem2
        · intro hall e hmem
          exact hall e (List.mem_cons_of_mem _ hmem)
      · by_cases hmk : GKey.st k ∈ keysOf G
        · cases e0 with
          | sentinel b =>
              rw [show dynLinks G ((k, .sentinel b) :: d) = dynLinks G d from
                dynLinks_cons_sentinel G k b d (Bool.not_eq_true _ |>.mp ht) hmk, ih G hcl]
              constructor
              · intro hall e hmem
                rcases List.mem_cons.mp hmem with rfl | hmem2
                · exact Or.inr ⟨hmk, trivial⟩
                · exact hall e hmem2
              · intro hall e hmem
                exact hall e (List.mem_cons_of_mem _ hmem)
          | table es =>
              have hshow : dynLinks G ((k, .table es) :: d) =
                  dynTable G k es >>= fun G1 => dynLinks G1 d := by
                show (if isTurnKey k then _ else _) = _
                rw [if_neg ht, if_pos hmk]
              rw [hshow]
              have hfut : GKey.st (makeFuture k) ∈ keysOf G := hcl k hmk
              constructor
              · rintro ⟨G2, h⟩
                obtain ⟨G1, h1, h2⟩ := bindE_ok.mp h
                have hkeys : keysOf G1 = keysOf G := (dynTable_mono es G k G1 h1).1.1
                have hhead := (dynTable_ok_iff es G k hfut).mp ⟨G1, h1⟩
                have hrest := (ih G1 (stClosed_of_keysEq hkeys hcl)).mp ⟨G2, h2⟩
                intro e hmem
                rcases List.mem_cons.mp hmem with rfl | hmem2
                · exact Or.inr ⟨hmk, hhead⟩
                · have := hrest e hmem2
                  rwa [hkeys] at this
              · intro hall
                have hhead : ∀ ao t, (ao, t) ∈ es →
                    (∀ a, ao = some a → GKey.act a ∈ keysOf G) ∧
                    ∀ p, p ∈ t.stateKeys → GKey.st p ∈ keysOf G := by
                  have := hall (k, .table es) (List.mem_cons_self _ _)
                  rcases this with hturn | ⟨_, hconds⟩
                  · exact absurd hturn ht
                  · exact hconds
                obtain ⟨G1, h1⟩ := (dynTable_ok_iff es G k hfut).mpr hhead
                have hkeys : keysOf G1 = keysOf G := (dynTable_mono es G k G1 h1).1.1
                obtain ⟨G2, h2⟩ := (ih G1 (stClosed_of_keysEq hkeys hcl)).mpr
                  (by
                    intro e hmem
                    rw [hkeys]
                    exact hall e (List.mem_cons_of_mem _ hmem))
                refine ⟨G2, ?_⟩
                rw [bindE_ok]
                exact ⟨G1, h1, h2⟩
        · have hshow : dynLinks G ((k, e0) :: d) = .error "Graph has not accounted for key" := by
            show (if isTurnKey k then _ else _) = _
            rw [if_neg ht, if_neg hmk]
          rw [hshow]
          constructor
          · rintro ⟨G2, h⟩
            cases h
          · intro hall
            have := hall (k, e0) (List.mem_cons_self _ _)
            rcases this with hturn | ⟨hm2, _⟩
            · exact absurd hturn ht
            · exact absurd hm2 hmk

theorem rewardTreeLinks_ok_iff :
    ∀ (ps : List SKey) (G : Graph) (name : String),
      (ps ≠ [] → GKey.util name ∈ keysOf G) →
      ((∃ G2, rewardTreeLinks G name ps = .ok G2) ↔
        ∀ p, p ∈ ps → GKey.st (makeFuture p) ∈ keysOf G) := by
  intro ps
  induction ps with
  | nil =>
      intro G name _
      constructor
      · intro _ p hp
        cases hp
      · intro _
        exact ⟨G, rfl⟩
  | cons q ps ih =>
      intro G name hutil
      have hu : GKey.util name ∈ keysOf G := hutil (by simp)
      constructor
      · rintro ⟨G2, h⟩
        simp only [rewardTreeLinks] at h
        obtain ⟨G1, h1, h2⟩ := bindE_ok.mp h
        obtain ⟨_, hq, rfl⟩ := link_ok_iff.mp h1
        have hkeys : keysOf (linkG G (.util name) (.st (makeFuture q))) = keysOf G :=
          keysOf_linkG G _ _
        have hrest := (ih _ name (fun _ => by rw [hkeys]; exact hu)).mp ⟨G2, h2⟩
        intro p hp
        rcases List.mem_cons.mp hp with rfl | hp2
        · exact hq
        · have := hrest p hp2
          rwa [hkeys] at this
      · intro hall
        have hq : GKey.st (makeFuture q) ∈ keysOf G := hall q (List.mem_cons_self q ps)
        have hlink : link G (.util name) (.st (makeFuture q)) =
            .ok (linkG G (.util name) (.st (makeFuture q))) :=
          link_ok_iff.mpr ⟨hu, hq, rfl⟩
        have hkeys : keysOf (linkG G (.util name) (.st (makeFuture q))) = keysOf G :=
          keysOf_linkG G _ _
        obtain ⟨G2, h2⟩ := (ih _ name (fun _ => by rw [hkeys]; exact hu)).mpr
          (fun p hp => by rw [hkeys]; exact hall p (List.mem_cons_of_mem q hp))
        refine ⟨G2, ?_⟩
        simp only [rewardTreeLinks]
        rw [bindE_ok]
        exact ⟨_, hlink, h2⟩

theorem rewardLinks_ok_iff :
    ∀ (ts : List STree) (G : Graph) (name : String),
      (∀ t, t ∈ ts → t.stateKeys ≠ [] → GKey.util name ∈ keysOf G) →
      ((∃ G2, rewardLinks G name ts = .ok G2) ↔
        ∀ t, t ∈ ts → ∀ p, p ∈ t.stateKeys → GKey.st (makeFuture p) ∈ keysOf G) := by
  intro ts
  induction ts with
  | nil =>
      intro G name _
      constructor
      · intro _ t ht
        cases ht
      · intro _
        exact ⟨G, rfl⟩
  | cons t0 ts ih =>
      intro G name hutil
      constructor
      · rintro ⟨G2, h⟩
        simp only [rewardLinks] at h
        obtain ⟨G1, h1, h2⟩ := bindE_ok.mp h
        have hkeys : keysOf G1 = keysOf G := (rewardTreeLinks_mono _ _ _ _ h1).1.1
        have hhead := (rewardTreeLinks_ok_iff t0.stateKeys G name
            (hutil t0 (List.mem_cons_self _ _))).mp ⟨G1, h1⟩
        have hrest := (ih G1 name (by
            intro t ht hne
            rw [hkeys]
            exact hutil t (List.mem_cons_of_mem _ ht) hne)).mp ⟨G2, h2⟩
        intro t ht
        rcases List.mem_cons.mp ht with rfl | ht2
        · exact hhead
        · intro p hp
          have := hrest t ht2 p hp
          rwa [hkeys] at this
      · intro hall
        obtain ⟨G1, h1⟩ := (rewardTreeLinks_ok_iff t0.stateKeys G name
            (hutil t0 (List.mem_cons_self _ _))).mpr (hall t0 (List.mem_cons_self _ _))
        have hkeys : keysOf G1 = keysOf G := (rewardTreeLinks_mono _ _ _ _ h1).1.1
        obtain ⟨G2, h2⟩ := (ih G1 name (by
            intro t ht hne
            rw [hkeys]
            exact hutil t (List.mem_cons_of_mem _ ht) hne)).mpr
          (by
            intro t ht p hp
            rw [hkeys]
            exact hall t (List.mem_cons_of_mem _ ht) p hp)
        refine ⟨G2, ?_⟩
        simp only [rewardLinks]
        rw [bindE_ok]
        exact ⟨G1, h1, h2⟩

theorem legalTreeLinks_ok_iff :
    ∀ (ps : List SKey) (G : Graph) (a : ActS),
      (∃ G2, legalTreeLinks G a ps = .ok G2) ↔
        ((ps ≠ [] → GKey.act a ∈ keysOf G) ∧ ∀ p, p ∈ ps → GKey.st p ∈ keysOf G) := by
  intro ps
  induction ps with
  | nil =>
      intro G a
      constructor
      · intro _
        exact ⟨fun h => absurd rfl h, fun p hp => absurd hp (List.not_mem_nil p)⟩
      · intro _
        exact ⟨G, rfl⟩
  | cons q ps ih =>
      intro G a
      by_cases hma : GKey.act a ∈ keysOf G
      · constructor
        · rintro ⟨G2, h⟩
          simp only [legalTreeLinks] at h
          rw [if_pos hma] at h
          obtain ⟨G1, h1, h2⟩ := bindE_ok.mp h
          obtain ⟨_, hq, rfl⟩ := link_ok_iff.mp h1
          have hkeys : keysOf (linkG G (.act a) (.st q)) = keysOf G := keysOf_linkG G _ _
          have hrest := (ih _ a).mp ⟨G2, h2⟩
          refine ⟨fun _ => hma, ?_⟩
          intro p hp
          rcases List.mem_cons.mp hp with rfl | hp2
          · exact hq
          · have := hrest.2 p hp2
            rwa [hkeys] at this
        · rintro ⟨_, hall⟩
          have hq : GKey.st q ∈ keysOf G := hall q (List.mem_cons_self q ps)
          have hlink : link G (.act a) (.st q) = .ok (linkG G (.act a) (.st q)) :=
            link_ok_iff.mpr ⟨hma, hq, rfl⟩
          have hkeys : keysOf (linkG G (.act a) (.st q)) = keysOf G := keysOf_linkG G _ _
          obtain ⟨G2, h2⟩ := (ih _ a).mpr
            ⟨fun _ => by rw [hkeys]; exact hma,
             fun p hp => by rw [hkeys]; exact hall p (List.mem_cons_of_mem q hp)⟩
          refine ⟨G2, ?_⟩
          simp only [legalTreeLinks]
          rw [if_pos hma, bindE_ok]
          exact ⟨_, hlink, h2⟩
      · constructor
        · rintro ⟨G2, h⟩
          simp only [legalTreeLinks] at h
          rw [if_neg hma] at h
          cases h
        · rintro ⟨hne, _⟩
          exact absurd (hne (by simp)) hma

theorem legalLinks_ok_iff :
    ∀ (ls : List (ActS × STree)) (G : Graph),
      (∃ G2, legalLinks G ls = .ok G2) ↔
        ∀ aS t, (aS, t) ∈ ls →
          (t.stateKeys ≠ [] → GKey.act (reduceAS aS) ∈ keysOf G) ∧
          ∀ p, p ∈ t.stateKeys → GKey.st p ∈ keysOf G := by
  intro ls
  induction ls with
  | nil =>
      intro G
      constructor
      · intro _ aS t hmem
        cases hmem
      · intro _
        exact ⟨G, rfl⟩
  | cons l0 ls ih =>
      obtain ⟨a0, t0⟩ := l0
      intro G
      constructor
      · rintro ⟨G2, h⟩
        simp only [legalLinks] at h
        obtain ⟨G1, h1, h2⟩ := bindE_ok.mp h
        have hkeys : keysOf G1 = keysOf G := (legalTreeLinks_mono _ _ _ _ h1).1.1
        have hhead := (legalTreeLinks_ok_iff t0.stateKeys G (reduceAS a0)).mp ⟨G1, h1⟩
        have hrest := (ih G1).mp ⟨G2, h2⟩
        intro aS t hmem
        rcases List.mem_cons.mp hmem with heq | hmem2
        · have e1 : aS = a0 := congrArg Prod.fst heq
          have e2 : t = t0 := congrArg Prod.snd heq
          subst e1
          subst e2
          exact hhead
        · have := hrest aS t hmem2
          rwa [hkeys] at this
      · intro hall
        obtain ⟨G1, h1⟩ := (legalTreeLinks_ok_iff t0.stateKeys G (reduceAS a0)).mpr
          (hall a0 t0 (List.mem_cons_self _ _))
        have hkeys : keysOf G1 = keysOf G := (legalTreeLinks_mono _ _ _ _ h1).1.1
        obtain ⟨G2, h2⟩ := (ih G1).mpr
          (by
            intro aS t hmem
            rw [hkeys]
            exact hall aS t (List.mem_cons_of_mem _ hmem))
        refine ⟨G2, ?_⟩
        simp only [legalLinks]
        rw [bindE_ok]
        exact ⟨G1, h1, h2⟩

theorem agentLinks_ok_iff :
    ∀ (ags : List (String × AgentD)) (G : Graph),
      (∀ na, na ∈ ags → rewardTruthy na.2 = true → GKey.util na.1 ∈ keysOf G) →
      ((∃ G2, agentLinks G ags = .ok G2) ↔ ∀ na, na ∈ ags → GoodAgent (keysOf G) na) := by
  intro ags
  induction ags with
  | nil =>
      intro G _
      constructor
      · intro _ na hmem
        cases hmem
      · intro _
        exact ⟨G, rfl⟩
  | cons na0 ags ih =>
      obtain ⟨name, ag⟩ := na0
      intro G hutil
      have hutil_head : ∀ ts, ag.reward = some ts → ∀ t, t ∈ ts → t.stateKeys ≠ [] →
          GKey.util name ∈ keysOf G := by
        intro ts hts t ht _
        refine hutil (name, ag) (List.mem_cons_self _ _) ?_
        show rewardTruthy ag = true
        unfold rewardTruthy
        rw [hts]
        have : ts ≠ [] := by
          intro hnil
          rw [hnil] at ht
          cases ht
        simpa using this
      cases hR : ag.reward with
      | none =>
          have hshow : agentLinks G ((name, ag) :: ags) =
              legalLinks G ag.legal >>= fun G2 => agentLinks G2 ags := by
            simp only [agentLinks]
            rw [hR]
            rfl
          rw [hshow]
          constructor
          · rintro ⟨G2, h⟩
            obtain ⟨G1, h1, h2⟩ := bindE_ok.mp h
            have hkeys : keysOf G1 = keysOf G := (legalLinks_mono _ _ _ h1).1.1
            have hleg := (legalLinks_ok_iff ag.legal G).mp ⟨G1, h1⟩
            have hrest := (ih G1 (by
                intro na hmem htr
                rw [hkeys]
                exact hutil na (List.mem_cons_of_mem _ hmem) htr)).mp ⟨G2, h2⟩
            intro na hmem
            rcases List.mem_cons.mp hmem with rfl | hmem2
            · refine ⟨?_, hleg⟩
              intro ts hts
              rw [hR] at hts
              cases hts
            · have := hrest na hmem2
              rw [hkeys] at this
              exact this
          · intro hall
            obtain ⟨G1, h1⟩ := (legalLinks_ok_iff ag.legal G).mpr
              ((hall (name, ag) (List.mem_cons_self _ _)).2)
            have hkeys : keysOf G1 = keysOf G := (legalLinks_mono _ _ _ h1).1.1
            obtain ⟨G2, h2⟩ := (ih G1 (by
                intro na hmem htr
                rw [hkeys]
                exact hutil na (List.mem_cons_of_mem _ hmem) htr)).mpr
              (by
                intro na hmem
                rw [hkeys]
                exact hall na (List.mem_cons_of_mem _ hmem))
            refine ⟨G2, ?_⟩
            rw [bindE_ok]
            exact ⟨G1, h1, h2⟩
      | some ts =>
          have hshow : agentLinks G ((name, ag) :: ags) =
              rewardLinks G name ts >>= fun G1 =>
                legalLinks G1 ag.legal >>= fun G2 => agentLinks G2 ags := by
            simp only [agentLinks]
            rw [hR]
          rw [hshow]
          constructor
          · rintro ⟨G2, h⟩
            obtain ⟨G1, h1, h2⟩ := bindE_ok.mp h
            have hkeys1 : keysOf G1 = keysOf G := (rewardLinks_mono _ _ _ _ h1).1.1
            obtain ⟨Gm, hm1, hm2⟩ := bindE_ok.mp h2
            have hkeys2 : keysOf Gm = keysOf G1 := (legalLinks_mono _ _ _ hm1).1.1
            have hrew := (rewardLinks_ok_iff ts G name (hutil_head ts hR)).mp ⟨G1, h1⟩
            have hleg := (legalLinks_ok_iff ag.legal G1).mp ⟨Gm, hm1⟩
            have hrest := (ih Gm (by
                intro na hmem htr
                rw [hkeys2, hkeys1]
                exact hutil na (List.mem_cons_of_mem _ hmem) htr)).mp ⟨G2, hm2⟩
            intro na hmem
            rcases List.mem_cons.mp hmem with rfl | hmem2
            · constructor
              · intro ts2 hts2
                rw [hR] at hts2
                have : ts = ts2 := Option.some.inj hts2
                subst this
                exact hrew
              · intro aS t hmem2
                have := hleg aS t hmem2
                rwa [hkeys1] at this
            · have := hrest na hmem2
              rw [hkeys2, hkeys1] at this
              exact this
          · intro hall
            have hGA := hall (name, ag) (List.mem_cons_self _ _)
            obtain ⟨G1, h1⟩ := (rewardLinks_ok_iff ts G name (hutil_head ts hR)).mpr
              (hGA.1 ts hR)
            have hkeys1 : keysOf G1 = keysOf G := (rewardLinks_mono _ _ _ _ h1).1.1
            obtain ⟨Gm, hm1⟩ := (legalLinks_ok_iff ag.legal G1).mpr
              (by
                intro aS t hmem
                rw [hkeys1]
                exact hGA.2 aS t hmem)
            have hkeys2 : keysOf Gm = keysOf G1 := (legalLinks_mono _ _ _ hm1).1.1
            obtain ⟨G2, h2⟩ := (ih Gm (by
                intro na hmem htr
                rw [hkeys2, hkeys1]
                exact hutil na (List.mem_cons_of_mem _ hmem) htr)).mpr
              (by
                intro na hmem
                rw [hkeys2, hkeys1]
                exact hall na (List.mem_cons_of_mem _ hmem))
            refine ⟨G2, ?_⟩
            rw [bindE_ok]
            refine ⟨G1, h1, ?_⟩
            rw [bindE_ok]
            exact ⟨Gm, hm1, h2⟩

theorem mem_agentNodes_util :
    ∀ (ags : List (String × AgentD)) (G : Graph) (name : String) (ag : AgentD),
      (name, ag) ∈ ags → rewardTruthy ag = true →
      GKey.util name ∈ keysOf (agentNodes G ags) := by
  intro ags
  induction ags with
  | nil =>
      intro G name ag hmem
      cases hmem
  | cons na0 ags ih =>
      obtain ⟨name0, ag0⟩ := na0
      intro G name ag hmem htr
      rcases List.mem_cons.mp hmem with heq | hmem2
      · have e1 : name0 = name := (congrArg Prod.fst heq).symm
        have e2 : ag0 = ag := (congrArg Prod.snd heq).symm
        subst e1
        subst e2
        refine sub_agentNodes ags _ (sub_addActionNodes name0 ag0.actions _ ?_)
        rw [if_pos htr]
        exact mem_keysOf_dinsert.mpr (Or.inl rfl)
      · exact ih _ name ag hmem2 htr

/-- Claim C4 core: computeGraph succeeds exactly on Good worlds. -/
theorem computeGraph_ok_iff (w : World) :
    (∃ G, computeGraph w = .ok G) ↔ Good w := by
  have hsplit : (∃ G, computeGraph w = .ok G) ↔
      ∃ G1, dynLinks (nodesOf w) w.dynamics = .ok G1 ∧
        ∃ G, agentLinks G1 w.agents = .ok G := by
    unfold computeGraph
    exact bindE_isOk
  rw [hsplit]
  constructor
  · rintro ⟨G1, h1, hG⟩
    have hkeys : keysOf G1 = keysOf (nodesOf w) := (dynLinks_mono _ _ _ h1).1.1
    have hd := (dynLinks_ok_iff w.dynamics (nodesOf w) (stClosed_nodesOf w)).mp ⟨G1, h1⟩
    have ha := (agentLinks_ok_iff w.agents G1 (by
        intro na hmem htr
        rw [hkeys]
        exact mem_agentNodes_util w.agents _ na.1 na.2 (by
          rcases na with ⟨n, a⟩
          exact hmem) htr)).mp hG
    refine ⟨hd, ?_⟩
    intro na hmem
    have := ha na hmem
    rwa [hkeys] at this
  · rintro ⟨hd, ha⟩
    obtain ⟨G1, h1⟩ := (dynLinks_ok_iff w.dynamics (nodesOf w) (stClosed_nodesOf w)).mpr hd
    have hkeys : keysOf G1 = keysOf (nodesOf w) := (dynLinks_mono _ _ _ h1).1.1
    obtain ⟨G2, h2⟩ := (agentLinks_ok_iff w.agents G1 (by
        intro na hmem htr
        rw [hkeys]
        exact mem_agentNodes_util w.agents _ na.1 na.2 (by
          rcases na with ⟨n, a⟩
          exact hmem) htr)).mpr
      (by
        intro na hmem
        rw [hkeys]
        exact ha na hmem)
    exact ⟨G1, h1, G2, h2⟩

/- ------------------------------------------------------------------ -/
/- The evaluation order export.                                       -/
/- ------------------------------------------------------------------ -/

theorem mem_addOnceS {x y : SKey} {l : List SKey} :
    y ∈ addOnceS x l ↔ y = x ∨ y ∈ l := by
  unfold addOnceS
  by_cases h : x ∈ l
  · rw [if_pos h]
    constructor
    · exact fun hy => Or.inr hy
    · rintro (rfl | hy)
      · exact h
      · exact hy
  · rw [if_neg h]
    simp [or_comm]

theorem getD_padTo (ev : List (List SKey)) (n i : Nat) :
    (padTo ev n).getD i [] = ev.getD i [] := by
  unfold padTo
  by_cases h : i < ev.length
  · exact List.getD_append _ _ _ _ h
  · rw [List.getD_append_right _ _ _ _ (Nat.not_lt.mp h),
      List.getD_eq_default _ _ (Nat.not_lt.mp h)]
    by_cases h2 : i - ev.length < n - ev.length
    · rw [List.getD_eq_getElem _ _ (by simpa using h2)]
      exact List.getElem_replicate _ _
    · exact List.getD_eq_default _ _ (by simpa using Nat.not_lt.mp h2)

theorem length_padTo (ev : List (List SKey)) (n : Nat) :
    (padTo ev n).length = ev.length + (n - ev.length) := by
  unfold padTo
  rw [List.length_append, List.length_replicate]

theorem getD_set_self (l : List (List SKey)) (x : List SKey) (i : Nat) (h : i < l.length) :
    (l.set i x).getD i [] = x := by
  rw [List.getD_eq_getElem _ _ (by simpa using h)]
  simp [List.getElem_set]

theorem getD_set_other (l : List (List SKey)) (x : List SKey) (i j : Nat) (h : j ≠ i) :
    (l.set i x).getD j [] = l.getD j [] := by
  by_cases hj : j < l.length
  · rw [List.getD_eq_getElem _ _ (by simpa using hj), List.getD_eq_getElem _ _ hj]
    rw [List.getElem_set]
    rw [if_neg (fun hc : i = j => h hc.symm)]
  · rw [List.getD_eq_default _ _ (by simpa using Nat.not_lt.mp hj),
      List.getD_eq_default _ _ (Nat.not_lt.mp hj)]

theorem evalStep_mem {lin : LinOut} {ev ev2 : List (List SKey)} {k : SKey}
    (h : evalStep lin ev k = .ok ev2) :
    ∃ L, lin.level (.st k) = some L ∧
      ∀ (sk : SKey) (i : Nat),
        (sk ∈ ev2.getD i [] ↔ sk ∈ ev.getD i [] ∨ (sk = makePresent k ∧ i = L)) := by
  unfold evalStep at h
  cases hl : lin.level (.st k) with
  | none =>
      rw [hl] at h
      cases h
  | some L =>
      rw [hl] at h
      have hev2 : ev2 =
          (padTo ev (L + 1)).set L (addOnceS (makePresent k) ((padTo ev (L + 1)).getD L [])) :=
        (Except.ok.inj h).symm
      have hlen : L < (padTo ev (L + 1)).length := by
        rw [length_padTo]
        omega
      refine ⟨L, rfl, ?_⟩
      intro sk i
      rw [hev2]
      by_cases hi : i = L
      · subst hi
        rw [getD_set_self _ _ _ hlen, mem_addOnceS, getD_padTo]
        constructor
        · rintro (h1 | h1)
          · exact Or.inr ⟨h1, rfl⟩
          · exact Or.inl h1
        · rintro (h1 | ⟨h1, _⟩)
          · exact Or.inr h1
          · exact Or.inl h1
      · rw [getD_set_other _ _ _ _ hi, getD_padTo]
        constructor
        · exact fun h1 => Or.inl h1
        · rintro (h1 | ⟨_, h1⟩)
          · exact h1
          · exact absurd h1 hi

theorem evalFeatures_mem :
    ∀ (fs : List String) (lin : LinOut) (agent : String) (ev ev2 : List (List SKey)),
      evalFeatures lin agent ev fs = .ok ev2 →
      (∀ f, f ∈ fs → ∃ L, lin.level (.st (stateKey agent f true)) = some L) ∧
      ∀ (sk : SKey) (i : Nat),
        (sk ∈ ev2.getD i [] ↔ sk ∈ ev.getD i [] ∨
          ∃ f, f ∈ fs ∧ sk = stateKey agent f false ∧
            lin.level (.st (stateKey agent f true)) = some i) := by
  intro fs
  induction fs with
  | nil =>
      intro lin agent ev ev2 h
      simp only [evalFeatures] at h
      cases h
      refine ⟨fun f hf => absurd hf (List.not_mem_nil f), ?_⟩
      intro sk i
      constructor
      · exact fun h1 => Or.inl h1
      · rintro (h1 | ⟨f, hf, _⟩)
        · exact h1
        · exact absurd hf (List.not_mem_nil f)
  | cons f0 fs ih =>
      intro lin agent ev ev2 h
      simp only [evalFeatures] at h
      obtain ⟨ev1, h1, h2⟩ := bindE_ok.mp h
      obtain ⟨L0, hL0, hstep⟩ := evalStep_mem h1
      obtain ⟨hlvls, hmem⟩ := ih lin agent ev1 ev2 h2
      constructor
      · intro f hf
        rcases List.mem_cons.mp hf with rfl | hf2
        · exact ⟨L0, hL0⟩
        · exact hlvls f hf2
      · intro sk i
        rw [hmem sk i, hstep sk i]
        constructor
        · rintro ((h1 | ⟨h1, h2a⟩) | ⟨f, hf, he, hl⟩)
          · exact Or.inl h1
          · subst h2a
            exact Or.inr ⟨f0, List.mem_cons_self f0 fs, h1, hL0⟩
          · exact Or.inr ⟨f, List.mem_cons_of_mem f0 hf, he, hl⟩
        · rintro (h1 | ⟨f, hf, he, hl⟩)
          · exact Or.inl (Or.inl h1)
          · rcases List.mem_cons.mp hf with rfl | hf2
            · rw [hL0] at hl
              exact Or.inl (Or.inr ⟨he, (Option.some.inj hl).symm⟩)
            · exact Or.inr ⟨f, hf2, he, hl⟩

theorem evalLocals_mem :
    ∀ (ls : List (String × List String)) (lin : LinOut) (ev ev2 : List (List SKey)),
      evalLocals lin ev ls = .ok ev2 →
      (∀ a fs, (a, fs) ∈ ls → ∀ f, f ∈ fs →
        ∃ L, lin.level (.st (stateKey a f true)) = some L) ∧
      ∀ (sk : SKey) (i : Nat),
        (sk ∈ ev2.getD i [] ↔ sk ∈ ev.getD i [] ∨
          ∃ a fs f, (a, fs) ∈ ls ∧ f ∈ fs ∧ sk = stateKey a f false ∧
            lin.level (.st (stateKey a f true)) = some i) := by
  intro ls
  induction ls with
  | nil =>
      intro lin ev ev2 h
      simp only [evalLocals] at h
      cases h
      refine ⟨fun a fs hmem => absurd hmem (List.not_mem_nil _), ?_⟩
      intro sk i
      constructor
      · exact fun h1 => Or.inl h1
      · rintro (h1 | ⟨a, fs, f, hmem, _⟩)
        · exact h1
        · exact absurd hmem (List.not_mem_nil _)
  | cons l0 ls ih =>
      obtain ⟨a0, fs0⟩ := l0
      intro lin ev ev2 h
      simp only [evalLocals] at h
      obtain ⟨ev1, h1, h2⟩ := bindE_ok.mp h
      obtain ⟨hlvl1, hmem1⟩ := evalFeatures_mem fs0 lin a0 ev ev1 h1
      obtain ⟨hlvls, hmem⟩ := ih lin ev1 ev2 h2
      constructor
      · intro a fs hmem2 f hf
        rcases List.mem_cons.mp hmem2 with heq | hm2
        · have e1 : a = a0 := congrArg Prod.fst heq
          have e2 : fs = fs0 := congrArg Prod.snd heq
          subst e1
          subst e2
          exact hlvl1 f hf
        · exact hlvls a fs hm2 f hf
      · intro sk i
        rw [hmem sk i, hmem1 sk i]
        constructor
        · rintro ((h1 | ⟨f, hf, he, hl⟩) | ⟨a, fs, f, hm3, hf, he, hl⟩)
          · exact Or.inl h1
          · exact Or.inr ⟨a0, fs0, f, List.mem_cons_self _ _, hf, he, hl⟩
          · exact Or.inr ⟨a, fs, f, List.mem_cons_of_mem _ hm3, hf, he, hl⟩
        · rintro (h1 | ⟨a, fs, f, hm3, hf, he, hl⟩)
          · exact Or.inl (Or.inl h1)
          · rcases List.mem_cons.mp hm3 with heq | hm4
            · have e1 : a = a0 := congrArg Prod.fst heq
              have e2 : fs = fs0 := congrArg Prod.snd heq
              subst e1
              subst e2
              exact Or.inl (Or.inr ⟨f, hf, he, hl⟩)
            · exact Or.inr ⟨a, fs, f, hm4, hf, he, hl⟩

/-- Claim C6 core: a successful computeEvaluation puts the present form of
each declared feature exactly in the bucket of its post node's level. -/
theorem computeEvaluation_bucket {w : World} {lin : LinOut} {ev : List (List SKey)}
    (h : computeEvaluation w lin = .ok ev) {a : String} {fs : List String} {f : String}
    (hmem : (a, fs) ∈ w.locals) (hf : f ∈ fs) :
    ∃ L, lin.level (.st (stateKey a f true)) = some L ∧
      ∀ i, (stateKey a f false ∈ ev.getD i [] ↔ i = L) := by
  obtain ⟨hlvls, hm⟩ := evalLocals_mem w.locals lin [] ev h
  obtain ⟨L, hL⟩ := hlvls a fs hmem f hf
  refine ⟨L, hL, ?_⟩
  intro i
  rw [hm (stateKey a f false) i]
  constructor
  · rintro (h1 | ⟨a2, fs2, f2, hm2, hf2, he2, hl2⟩)
    · rw [List.getD_eq_default] at h1
      · cases h1
      · simp
    · have ea : a2 = a := congrArg SKey.entity he2.symm
      have ef : f2 = f := congrArg SKey.feature he2.symm
      subst ea
      subst ef
      rw [hL] at hl2
      exact (Option.some.inj hl2).symm
  · intro hi
    subst hi
    exact Or.inr ⟨a, fs, f, hmem, hf, rfl, hL⟩

/- ------------------------------------------------------------------ -/
/- The lazy accessors.                                                -/
/- ------------------------------------------------------------------ -/

theorem ensureGraph_fresh (w : World) : ensureGraph (freshDG w) = computeGraph w := rfl

theorem dgItems_fresh {w : World} {G : Graph} (h : computeGraph w = .ok G) :
    dgItems (freshDG w) = .ok (G, ⟨w, G, none, none⟩) := by
  unfold dgItems
  rw [ensureGraph_fresh, h]
  rfl

theorem dgKeys_fresh {w : World} {G : Graph} (h : computeGraph w = .ok G) :
    dgKeys (freshDG w) = .ok (keysOf G, ⟨w, G, none, none⟩) := by
  unfold dgKeys
  rw [ensureGraph_fresh, h]
  rfl

theorem dgValues_fresh {w : World} {G : Graph} (h : computeGraph w = .ok G) :
    dgValues (freshDG w) = .ok (G.map Prod.snd, ⟨w, G, none, none⟩) := by
  unfold dgValues
  rw [ensureGraph_fresh, h]
  rfl

theorem dgGetItem_fresh {w : World} {G : Graph} (h : computeGraph w = .ok G)
    {k : GKey} {n : GNode} (hk : gget G k = some n) :
    dgGetItem (freshDG w) k = .ok (n, ⟨w, G, none, none⟩) := by
  unfold dgGetItem
  rw [ensureGraph_fresh, h]
  show (match gget G k with | some n => _ | none => _) = _
  rw [hk]
  rfl

theorem dgGetLayers_fresh {w : World} {G : Graph} (h : computeGraph w = .ok G) :
    dgGetLayers (freshDG w) =
      .ok ((computeLineage G).layers, ⟨w, G, some (computeLineage G), none⟩) := by
  unfold dgGetLayers
  show (do
    let G2 ← ensureGraph (freshDG w)
    let lin := computeLineage G2
    Except.ok (lin.layers, { freshDG w with dict := G2, linC := some lin })) = _
  rw [ensureGraph_fresh, h]
  rfl

theorem dgGetRoot_fresh {w : World} {G : Graph} (h : computeGraph w = .ok G) :
    dgGetRoot (freshDG w) =
      .ok ((computeLineage G).root, ⟨w, G, some (computeLineage G), none⟩) := by
  unfold dgGetRoot
  show (do
    let G2 ← ensureGraph (freshDG w)
    let lin := computeLineage G2
    Except.ok (lin.root, { freshDG w with dict := G2, linC := some lin })) = _
  rw [ensureGraph_fresh, h]
  rfl

theorem dgGetEvaluation_fresh {w : World} {G : Graph} (h : computeGraph w = .ok G)
    {ev : List (List SKey)} (hev : computeEvaluation w (computeLineage G) = .ok ev) :
    dgGetEvaluation (freshDG w) =
      .ok (ev, ⟨w, G, some (computeLineage G), some ev⟩) := by
  unfold dgGetEvaluation
  show (do
    let G2 ← ensureGraph (freshDG w)
    let lin := computeLineage G2
    let ev2 ← computeEvaluation w lin
    Except.ok (ev2, { freshDG w with dict := G2, linC := some lin, evalC := some ev2 })) = _
  rw [ensureGraph_fresh, h]
  show (do
    let ev2 ← computeEvaluation w (computeLineage G)
    Except.ok (ev2, _)) = _
  rw [hev]
  rfl

theorem dgIter_fresh (w : World) : dgIter (freshDG w) = [] := rfl

/- ------------------------------------------------------------------ -/
/- Action reduction and deduplication.                                -/
/- ------------------------------------------------------------------ -/

theorem addActionNodes_skip (G : Graph) (name : String) (a : ActS) (rest : List ActS)
    (h : GKey.act (reduceAS a) ∈ keysOf G) :
    addActionNodes G name (a :: rest) = addActionNodes G name rest := by
  rw [addActionNodes_cons, if_pos h]

theorem mem_addAtomL {x y : Atom} {l : List Atom} :
    y ∈ addAtomL x l ↔ y = x ∨ y ∈ l := by
  unfold addAtomL
  by_cases h : x ∈ l
  · rw [if_pos h]
    constructor
    · exact fun hy => Or.inr hy
    · rintro (rfl | hy)
      · exact h
      · exact hy
  · rw [if_neg h]
    simp [or_comm]

theorem groupsGet_addTarget (groups : List (String × List Atom)) (o : String) (a : Atom)
    (o2 : String) :
    groupsGet (addTarget groups o a) o2 =
      if o2 = o then addAtomL a (groupsGet groups o) else groupsGet groups o2 := by
  induction groups with
  | nil =>
      show (if o = o2 then [a] else []) = _
      by_cases h : o2 = o
      · rw [if_pos h.symm, if_pos h]
        subst h
        rfl
      · rw [if_neg (fun hc : o = o2 => h hc.symm), if_neg h]
        rfl
  | cons g0 rest ih =>
      obtain ⟨o0, l0⟩ := g0
      show groupsGet (if o0 = o then (o0, addAtomL a l0) :: rest else (o0, l0) :: addTarget rest o a) o2 = _
      by_cases h0 : o0 = o
      · rw [if_pos h0]
        subst h0
        show (if o0 = o2 then addAtomL a l0 else groupsGet rest o2) = _
        by_cases h2 : o0 = o2
        · rw [if_pos h2, if_pos h2.symm]
          subst h2
          show addAtomL a l0 = addAtomL a (if o0 = o0 then l0 else _)
          rw [if_pos rfl]
        · rw [if_neg h2, if_neg (fun hc : o2 = o0 => h2 hc.symm)]
          show groupsGet rest o2 = groupsGet ((o0, l0) :: rest) o2
          show groupsGet rest o2 = if o0 = o2 then l0 else groupsGet rest o2
          rw [if_neg h2]
      · rw [if_neg h0]
        show (if o0 = o2 then l0 else groupsGet (addTarget rest o a) o2) = _
        by_cases h2 : o0 = o2
        · rw [if_pos h2]
          have hne : ¬ o2 = o := by
            intro hc
            exact h0 (h2.trans hc)
          rw [if_neg hne]
          show l0 = groupsGet ((o0, l0) :: rest) o2
          show l0 = if o0 = o2 then l0 else groupsGet rest o2
          rw [if_pos h2]
        · rw [if_neg h2, ih]
          by_cases h3 : o2 = o
          · rw [if_pos h3, if_pos h3]
            have : groupsGet ((o0, l0) :: rest) o = groupsGet rest o := by
              show (if o0 = o then l0 else groupsGet rest o) = _
              rw [if_neg h0]
            rw [this]
          · rw [if_neg h3, if_neg h3]
            show groupsGet rest o2 = if o0 = o2 then l0 else groupsGet rest o2
            rw [if_neg h2]

theorem groupsGet_ne_nil :
    ∀ (groups : List (String × List Atom)) (o : String), groupsGet groups o ≠ [] →
      ∃ l, (o, l) ∈ groups ∧ groupsGet groups o = l := by
  intro groups
  induction groups with
  | nil =>
      intro o h
      exact absurd rfl h
  | cons g0 rest ih =>
      obtain ⟨o0, l0⟩ := g0
      intro o h
      by_cases h0 : o0 = o
      · subst h0
        refine ⟨l0, List.mem_cons_self _ _, ?_⟩
        show (if o0 = o0 then l0 else _) = l0
        rw [if_pos rfl]
      · have h2 : groupsGet ((o0, l0) :: rest) o = groupsGet rest o := by
          show (if o0 = o then l0 else _) = _
          rw [if_neg h0]
        rw [h2] at h ⊢
        obtain ⟨l, hl, he⟩ := ih o h
        exact ⟨l, List.mem_cons_of_mem _ hl, he⟩

theorem mem_addTarget_fst :
    ∀ (rest : List (String × List Atom)) (o o0 : String) (a : Atom),
      o0 ∈ (addTarget rest o a).map Prod.fst →
      o0 ∈ rest.map Prod.fst ∨ o0 = o := by
  intro rest
  induction rest with
  | nil =>
      intro o o0 a h
      simp only [addTarget, List.map_cons, List.map_nil, List.mem_singleton] at h
      exact Or.inr h
  | cons g0 rest ih =>
      obtain ⟨o1, l1⟩ := g0
      intro o o0 a h
      by_cases h1 : o1 = o
      · rw [show addTarget ((o1, l1) :: rest) o a = (o1, addAtomL a l1) :: rest from by
          show (if o1 = o then _ else _) = _
          rw [if_pos h1]] at h
        simp only [List.map_cons, List.mem_cons] at h ⊢
        rcases h with h | h
        · exact Or.inl (Or.inl h)
        · exact Or.inl (Or.inr h)
      · rw [show addTarget ((o1, l1) :: rest) o a = (o1, l1) :: addTarget rest o a from by
          show (if o1 = o then _ else _) = _
          rw [if_neg h1]] at h
        simp only [List.map_cons, List.mem_cons] at h ⊢
        rcases h with h | h
        · exact Or.inl (Or.inl h)
        · rcases ih o o0 a h with h2 | h2
          · exact Or.inl (Or.inr h2)
          · exact Or.inr h2

theorem groupsWF_addTarget :
    ∀ (groups : List (String × List Atom)), GroupsWF groups → ∀ (o : String) (a : Atom),
      GroupsWF (addTarget groups o a) := by
  intro groups
  induction groups with
  | nil =>
      intro _ o a
      refine ⟨by simp [addTarget], ?_⟩
      intro o2 l hmem
      rcases List.mem_singleton.mp hmem with heq
      have hl : l = [a] := congrArg Prod.snd heq
      rw [hl]
      intro hc
      cases hc
  | cons g0 rest ih =>
      obtain ⟨o0, l0⟩ := g0
      intro h o a
      obtain ⟨hnd, hnn⟩ := h
      rw [List.map_cons, List.nodup_cons] at hnd
      show GroupsWF (if o0 = o then (o0, addAtomL a l0) :: rest else (o0, l0) :: addTarget rest o a)
      by_cases h0 : o0 = o
      · rw [if_pos h0]
        refine ⟨by
          rw [List.map_cons, List.nodup_cons]
          exact hnd, ?_⟩
        intro o2 l hmem
        rcases List.mem_cons.mp hmem with heq | hm2
        · have hl : l = addAtomL a l0 := congrArg Prod.snd heq
          rw [hl]
          unfold addAtomL
          by_cases hm : a ∈ l0
          · rw [if_pos hm]
            exact hnn o0 l0 (List.mem_cons_self _ _)
          · rw [if_neg hm]
            intro hc
            obtain ⟨_, h2⟩ := List.append_eq_nil.mp hc
            cases h2
        · exact hnn o2 l (List.mem_cons_of_mem _ hm2)
      · rw [if_neg h0]
        have ihr := ih ⟨hnd.2, fun o2 l hm => hnn o2 l (List.mem_cons_of_mem _ hm)⟩ o a
        refine ⟨?_, ?_⟩
        · rw [List.map_cons, List.nodup_cons]
          refine ⟨?_, ihr.1⟩
          intro hc
          rcases mem_addTarget_fst rest o o0 a hc with hin | heq
          · exact hnd.1 hin
          · exact h0 heq
        · intro o2 l hmem
          rcases List.mem_cons.mp hmem with heq | hm2
          · have hl : l = l0 := congrArg Prod.snd heq
            rw [hl]
            exact hnn o0 l0 (List.mem_cons_self _ _)
          · exact ihr.2 o2 l hm2

theorem collectAtoms_spec :
    ∀ (atoms : List Atom) (groups g2 : List (String × List Atom)),
      collectAtoms groups atoms = .ok g2 → GroupsWF groups →
      GroupsWF g2 ∧
      ∀ (o : String) (b : Atom),
        (b ∈ groupsGet g2 o ↔ b ∈ groupsGet groups o ∨ (b ∈ atoms ∧ b.obj = some o)) := by
  intro atoms
  induction atoms with
  | nil =>
      intro groups g2 h hwf
      simp only [collectAtoms] at h
      cases h
      refine ⟨hwf, ?_⟩
      intro o b
      constructor
      · exact fun h1 => Or.inl h1
      · rintro (h1 | ⟨h1, _⟩)
        · exact h1
        · exact absurd h1 (List.not_mem_nil b)
  | cons a0 atoms ih =>
      intro groups g2 h hwf
      simp only [collectAtoms] at h
      cases hobj : a0.obj with
      | none =>
          rw [hobj] at h
          cases h
      | some o0 =>
          rw [hobj] at h
          have := ih (addTarget groups o0 a0) g2 h (groupsWF_addTarget groups hwf o0 a0)
          obtain ⟨hwf2, hmem⟩ := this
          refine ⟨hwf2, ?_⟩
          intro o b
          rw [hmem o b, groupsGet_addTarget]
          by_cases ho : o = o0
          · subst ho
            rw [if_pos rfl, mem_addAtomL]
            constructor
            · rintro ((rfl | h1) | ⟨h1, h2⟩)
              · exact Or.inr ⟨List.mem_cons_self _ _, hobj⟩
              · exact Or.inl h1
              · exact Or.inr ⟨List.mem_cons_of_mem _ h1, h2⟩
            · rintro (h1 | ⟨h1, h2⟩)
              · exact Or.inl (Or.inr h1)
              · rcases List.mem_cons.mp h1 with rfl | h3
                · exact Or.inl (Or.inl rfl)
                · exact Or.inr ⟨h3, h2⟩
          · rw [if_neg ho]
            constructor
            · rintro (h1 | ⟨h1, h2⟩)
              · exact Or.inl h1
              · exact Or.inr ⟨List.mem_cons_of_mem _ h1, h2⟩
            · rintro (h1 | ⟨h1, h2⟩)
              · exact Or.inl h1
              · rcases List.mem_cons.mp h1 with rfl | h3
                · rw [hobj] at h2
                  exact absurd (Option.some.inj h2).symm ho
                · exact Or.inr ⟨h3, h2⟩

theorem collectTargets_spec :
    ∀ (acts : List (String × List Atom)) (groups g2 : List (String × List Atom)),
      collectTargets groups acts = .ok g2 → GroupsWF groups →
      GroupsWF g2 ∧
      ∀ (o : String) (b : Atom),
        (b ∈ groupsGet g2 o ↔ b ∈ groupsGet groups o ∨
          ∃ na, na ∈ acts ∧ b ∈ na.2 ∧ b.obj = some o) := by
  intro acts
  induction acts with
  | nil =>
      intro groups g2 h hwf
      simp only [collectTargets] at h
      cases h
      refine ⟨hwf, ?_⟩
      intro o b
      constructor
      · exact fun h1 => Or.inl h1
      · rintro (h1 | ⟨na, hna, _⟩)
        · exact h1
        · exact absurd hna (List.not_mem_nil na)
  | cons na0 acts ih =>
      obtain ⟨name0, atoms0⟩ := na0
      intro groups g2 h hwf
      simp only [collectTargets] at h
      obtain ⟨g1, h1, h2⟩ := bindE_ok.mp h
      obtain ⟨hwf1, hmem1⟩ := collectAtoms_spec atoms0 groups g1 h1 hwf
      obtain ⟨hwf2, hmem2⟩ := ih g1 g2 h2 hwf1
      refine ⟨hwf2, ?_⟩
      intro o b
      rw [hmem2 o b, hmem1 o b]
      constructor
      · rintro ((h1 | ⟨h1, h2a⟩) | ⟨na, hna, hb, ho⟩)
        · exact Or.inl h1
        · exact Or.inr ⟨(name0, atoms0), List.mem_cons_self _ _, h1, h2a⟩
        · exact Or.inr ⟨na, List.mem_cons_of_mem _ hna, hb, ho⟩
      · rintro (h1 | ⟨na, hna, hb, ho⟩)
        · exact Or.inl (Or.inl h1)
        · rcases List.mem_cons.mp hna with rfl | h3
          · exact Or.inl (Or.inr ⟨hb, ho⟩)
          · exact Or.inr ⟨na, h3, hb, ho⟩

theorem predictObjs_spec :
    ∀ (groups : List (String × List Atom)) (w : RWorld) (res : List (String × PredRec)),
      predictObjs w groups = .ok res →
      (∀ o pr, (o, pr) ∈ res → ∃ l, (o, l) ∈ groups ∧ pr.acts = l.toFinset ∧
        ∃ out, w.step l.toFinset false
            {stateKey o "invader" false, stateKey o "owner" false} = [out] ∧
          pr.leader = out.newState (stateKey o w.winnerState false) ∧
          pr.winner = out.newState (stateKey o "owner" false)) ∧
      (∀ o l, (o, l) ∈ groups → ∃ pr, (o, pr) ∈ res) := by
  intro groups
  induction groups with
  | nil =>
      intro w res h
      simp only [predictObjs] at h
      cases h
      refine ⟨?_, ?_⟩
      · intro o pr hmem
        cases hmem
      · intro o l hmem
        cases hmem
  | cons g0 groups ih =>
      obtain ⟨o0, l0⟩ := g0
      intro w res h
      simp only [predictObjs] at h
      cases hstep : w.step l0.toFinset false
          {stateKey o0 "invader" false, stateKey o0 "owner" false} with
      | nil =>
          rw [hstep] at h
          cases h
      | cons out rest =>
          cases rest with
          | nil =>
              rw [hstep] at h
              obtain ⟨others, ho1, ho2⟩ := bindE_ok.mp h
              have hres : res = (o0, ⟨l0.toFinset,
                  getStateM out.newState o0 w.winnerState,
                  getStateM out.newState o0 "owner"⟩) :: others :=
                (Except.ok.inj ho2).symm
              obtain ⟨hfwd, hbwd⟩ := ih w others ho1
              subst hres
              constructor
              · intro o pr hmem
                rcases List.mem_cons.mp hmem with heq | hm2
                · have e1 : o = o0 := congrArg Prod.fst heq
                  have e2 : pr = ⟨l0.toFinset, getStateM out.newState o0 w.winnerState,
                      getStateM out.newState o0 "owner"⟩ := congrArg Prod.snd heq
                  subst e1
                  subst e2
                  exact ⟨l0, List.mem_cons_self _ _, rfl, out, hstep, rfl, rfl⟩
                · obtain ⟨l, hl, hacts, hout⟩ := hfwd o pr hm2
                  exact ⟨l, List.mem_cons_of_mem _ hl, hacts, hout⟩
              · intro o l hmem
                rcases List.mem_cons.mp hmem with heq | hm2
                · have e1 : o = o0 := congrArg Prod.fst heq
                  subst e1
                  exact ⟨_, List.mem_cons_self _ _⟩
                · obtain ⟨pr, hpr⟩ := hbwd o l hm2
                  exact ⟨pr, List.mem_cons_of_mem _ hpr⟩
          | cons out2 rest2 =>
              rw [hstep] at h
              cases h

theorem groupsGet_of_mem :
    ∀ (groups : List (String × List Atom)), (groups.map Prod.fst).Nodup →
      ∀ o l, (o, l) ∈ groups → groupsGet groups o = l := by
  intro groups
  induction groups with
  | nil =>
      intro _ o l hmem
      cases hmem
  | cons g0 rest ih =>
      obtain ⟨o0, l0⟩ := g0
      intro hnd o l hmem
      rw [List.map_cons, List.nodup_cons] at hnd
      rcases List.mem_cons.mp hmem with heq | hm2
      · have e1 : o = o0 := congrArg Prod.fst heq
        have e2 : l = l0 := congrArg Prod.snd heq
        subst e1
        subst e2
        show (if o = o then l else _) = l
        rw [if_pos rfl]
      · have ho : o ∈ rest.map Prod.fst := by
          rw [List.mem_map]
          exact ⟨(o, l), hm2, rfl⟩
        have hne : ¬ o0 = o := by
          intro hc
          rw [hc] at hnd
          exact hnd.1 ho
        show (if o0 = o then l0 else groupsGet rest o) = l
        rw [if_neg hne]
        exact ih hnd.2 o l hm2

/-- Claim C8 core: a successful predictResult groups the atoms by object,
invokes step per object with real set to False on exactly the invader and
owner keys of that object, and reads the leader and winner distributions off
the predicted state. -/
theorem predictResult_spec {w : RWorld} {actions : List (String × List Atom)}
    {res : List (String × PredRec)} (h : predictResult w actions = .ok res) :
    (∀ o, (∃ pr, (o, pr) ∈ res) ↔ ∃ na, na ∈ actions ∧ ∃ b, b ∈ na.2 ∧ b.obj = some o) ∧
    ∀ o pr, (o, pr) ∈ res →
      (∀ b, b ∈ pr.acts ↔ ∃ na, na ∈ actions ∧ b ∈ na.2 ∧ b.obj = some o) ∧
      ∃ out, w.step pr.acts false
          {stateKey o "invader" false, stateKey o "owner" false} = [out] ∧
        pr.leader = out.newState (stateKey o w.winnerState false) ∧
        pr.winner = out.newState (stateKey o "owner" false) := by
  unfold predictResult at h
  obtain ⟨groups, h1, h2⟩ := bindE_ok.mp h
  obtain ⟨hwf, hmem⟩ := collectTargets_spec actions [] groups h1
    ⟨List.nodup_nil, fun o l hm => absurd hm (List.not_mem_nil _)⟩
  obtain ⟨hfwd, hbwd⟩ := predictObjs_spec groups w res h2
  have hmem2 : ∀ o b, b ∈ groupsGet groups o ↔
      ∃ na, na ∈ actions ∧ b ∈ na.2 ∧ b.obj = some o := by
    intro o b
    rw [hmem o b]
    constructor
    · rintro (h3 | h3)
      · cases h3
      · exact h3
    · exact fun h3 => Or.inr h3
  constructor
  · intro o
    constructor
    · rintro ⟨pr, hpr⟩
      obtain ⟨l, hl, hacts, _⟩ := hfwd o pr hpr
      have hne : l ≠ [] := hwf.2 o l hl
      obtain ⟨b, hb⟩ := List.exists_mem_of_ne_nil l hne
      have hbg : b ∈ groupsGet groups o := by
        rw [groupsGet_of_mem groups hwf.1 o l hl]
        exact hb
      obtain ⟨na, hna, hb2, ho⟩ := (hmem2 o b).mp hbg
      exact ⟨na, hna, b, hb2, ho⟩
    · rintro ⟨na, hna, b, hb, ho⟩
      have hbg : b ∈ groupsGet groups o := (hmem2 o b).mpr ⟨na, hna, hb, ho⟩
      have hne : groupsGet groups o ≠ [] := by
        intro hc
        rw [hc] at hbg
        cases hbg
      obtain ⟨l, hl, _⟩ := groupsGet_ne_nil groups o hne
      exact hbwd o l hl
  · intro o pr hpr
    obtain ⟨l, hl, hacts, out, hstep, hld, hwn⟩ := hfwd o pr hpr
    refine ⟨?_, out, by rw [hacts]; exact hstep, hld, hwn⟩
    intro b
    rw [hacts, List.mem_toFinset, ← groupsGet_of_mem groups hwf.1 o l hl]
    exact hmem2 o b
theorem claimC1 {w : World} {G : Graph} (h : computeGraph w = Except.ok G)
    (ha : Acyclic G) :
    sumLens (computeLineage G).layers = G.length ∧
    (∀ k, k ∈ keysOf G → ∃ j, (computeLineage G).level k = some j) ∧
    (∀ k, k ∈ keysOf G → ∀ p, p ∈ parentsOf G k →
      ∃ jk jp, (computeLineage G).level k = some jk ∧
        (computeLineage G).level p = some jp ∧ jp < jk) ∧
    (∀ k, k ∈ keysOf G → ((computeLineage G).level k = some 0 ↔ parentsOf G k = [])) := by
  obtain ⟨hpl, hlk, hstrict, hzero, hsum, _, _, _⟩ :=
    computeLineage_main (computeGraph_wf h) ha
  refine ⟨hsum, hpl, ?_, hzero⟩
  intro k hk p hp
  obtain ⟨jk, hjk⟩ := hpl k hk
  obtain ⟨jp, hjp, hlt⟩ := hstrict k jk hjk p hp
  exact ⟨jk, jp, hjk, hjp, hlt⟩

/-- Witness for C1 at the example world. -/
theorem claimC1_witness :
    computeGraph exW = Except.ok exG ∧
    (sumLens (computeLineage exG).layers = exG.length ∧
     (∀ k, k ∈ keysOf exG → ∃ j, (computeLineage exG).level k = some j) ∧
     (∀ k, k ∈ keysOf exG → ∀ p, p ∈ parentsOf exG k →
       ∃ jk jp, (computeLineage exG).level k = some jk ∧
         (computeLineage exG).level p = some jp ∧ jp < jk) ∧
     (∀ k, k ∈ keysOf exG →
       ((computeLineage exG).level k = some 0 ↔ parentsOf exG k = []))) :=
  ⟨rfl, @claimC1 exW exG rfl ⟨exRank, by decide⟩⟩

/-- C2: after computeLineage on a built acyclic graph, ancestor sets are
transitively closed: for every node and each of its parents, the parent is an
ancestor of the node and the parent's ancestors are among the node's, and no
node is its own ancestor. -/
theorem claimC2 {w : World} {G : Graph} (h : computeGraph w = Except.ok G)
    (ha : Acyclic G) :
    (∀ n, n ∈ keysOf G → ∀ p, p ∈ parentsOf G n →
      p ∈ (computeLineage G).anc n ∧
      (computeLineage G).anc p ⊆ (computeLineage G).anc n) ∧
    ∀ n, n ∉ (computeLineage G).anc n := by
  obtain ⟨_, _, _, _, _, hpar, hacc, hself⟩ :=
    computeLineage_main (computeGraph_wf h) ha
  exact ⟨fun n hn p hp => ⟨hpar n hp, hacc n hn p hp⟩, hself⟩

/-- Witness for C2 at the example world. -/
theorem claimC2_witness :
    computeGraph exW = Except.ok exG ∧
    ((∀ n, n ∈ keysOf exG → ∀ p, p ∈ parentsOf exG n →
       p ∈ (computeLineage exG).anc n ∧
       (computeLineage exG).anc p ⊆ (computeLineage exG).anc n) ∧
     ∀ n, n ∉ (computeLineage exG).anc n) :=
  ⟨rfl, @claimC2 exW exG rfl ⟨exRank, by decide⟩⟩

/-- C3 (amended): on a fresh DependencyGraph every overridden read accessor —
items, keys, values, indexing, getLayers, getRoot, getEvaluation — triggers
construction and answers from the built graph; iteration, however, is not
overridden, reads the raw dictionary, and observes the empty unbuilt graph. -/
theorem claimC3 {w : World} {G : Graph} (h : computeGraph w = Except.ok G) :
    dgItems (freshDG w) = Except.ok (G, ⟨w, G, none, none⟩) ∧
    dgKeys (freshDG w) = Except.ok (keysOf G, ⟨w, G, none, none⟩) ∧
    dgValues (freshDG w) = Except.ok (G.map Prod.snd, ⟨w, G, none, none⟩) ∧
    (∀ k n, gget G k = some n →
      dgGetItem (freshDG w) k = Except.ok (n, ⟨w, G, none, none⟩)) ∧
    dgGetLayers (freshDG w) =
      Except.ok ((computeLineage G).layers, ⟨w, G, some (computeLineage G), none⟩) ∧
    dgGetRoot (freshDG w) =
      Except.ok ((computeLineage G).root, ⟨w, G, some (computeLineage G), none⟩) ∧
    (∀ ev, computeEvaluation w (computeLineage G) = Except.ok ev →
      dgGetEvaluation (freshDG w) =
        Except.ok (ev, ⟨w, G, some (computeLineage G), some ev⟩)) ∧
    dgIter (freshDG w) = [] :=
  ⟨dgItems_fresh h, dgKeys_fresh h, dgValues_fresh h,
   fun _ _ hk => dgGetItem_fresh h hk, dgGetLayers_fresh h, dgGetRoot_fresh h,
   fun _ hev => dgGetEvaluation_fresh h hev, dgIter_fresh w⟩

/-- Witness for C3 at the example world. -/
theorem claimC3_witness :
    computeGraph exW = Except.ok exG ∧
    (dgItems (freshDG exW) = Except.ok (exG, ⟨exW, exG, none, none⟩) ∧
     dgKeys (freshDG exW) = Except.ok (keysOf exG, ⟨exW, exG, none, none⟩) ∧
     dgValues (freshDG exW) = Except.ok (exG.map Prod.snd, ⟨exW, exG, none, none⟩) ∧
     (∀ k n, gget exG k = some n →
       dgGetItem (freshDG exW) k = Except.ok (n, ⟨exW, exG, none, none⟩)) ∧
     dgGetLayers (freshDG exW) =
       Except.ok ((computeLineage exG).layers,
         ⟨exW, exG, some (computeLineage exG), none⟩) ∧
     dgGetRoot (freshDG exW) =
       Except.ok ((computeLineage exG).root,
         ⟨exW, exG, some (computeLineage exG), none⟩) ∧
     (∀ ev, computeEvaluation exW (computeLineage exG) = Except.ok ev →
       dgGetEvaluation (freshDG exW) =
         Except.ok (ev, ⟨exW, exG, some (computeLineage exG), some ev⟩)) ∧
     dgIter (freshDG exW) = []) :=
  ⟨rfl, @claimC3 exW exG rfl⟩

/-- C3 counterexample: on the fresh example world iteration yields no keys at
all, although construction succeeds and the built graph has keys — so not
every read accessor triggers construction. -/
theorem claimC3_cex :
    dgIter (freshDG exW) = [] ∧
    computeGraph exW = Except.ok exG ∧
    keysOf exG ≠ [] :=
  ⟨rfl, rfl, by decide⟩

/-- C4 (amended): computeGraph succeeds exactly on the worlds every one of
whose dynamics, reward and legality references resolves per Good — which
asserts legality actions only when the legality tree reads at least one state
key, so a legality entry naming an absent action passes when its tree reads
none. -/
theorem claimC4 (w : World) : (∃ G, computeGraph w = Except.ok G) ↔ Good w :=
  computeGraph_ok_iff w

/-- Witness for C4: the example world satisfies the success condition. -/
theorem claimC4_witness : Good exW := (claimC4 exW).mp ⟨exG, rfl⟩

/-- C4 counterexample: wBad's only legality entry names an action with no
graph node, yet computeGraph succeeds, because the existence assert sits
inside the loop over the tree's state keys and the tree reads none. -/
theorem claimC4_cex :
    ("ag", agBad) ∈ wBad.agents ∧
    ({atomA}, (⟨[PKey.const]⟩ : STree)) ∈ agBad.legal ∧
    GKey.act (reduceAS {atomA}) ∉ keysOf (nodesOf wBad) ∧
    (computeGraph wBad).isOk = true :=
  ⟨List.mem_singleton.mpr rfl, List.mem_singleton.mpr rfl, by decide, by decide⟩

/-- C5: a dynamics entry that is a boolean sentinel contributes no edges
(given its key has a node, as the key assert precedes the sentinel test),
while a tree-valued entry gives the key's post node a parent edge from each
keying action and from every state key its tree reads, the constant
pseudo-key excluded by stateKeys. -/
theorem claimC5 :
    (∀ (w : World) (d1 d2 : List (SKey × DynEntry)) (k : SKey) (b : Bool),
      isTurnKey k = false → GKey.st k ∈ keysOf (nodesOf w) →
      computeGraph { w with dynamics := d1 ++ (k, .sentinel b) :: d2 } =
        computeGraph { w with dynamics := d1 ++ d2 }) ∧
    (∀ (w : World) (G : Graph), computeGraph w = Except.ok G →
      ∀ k T, (k, DynEntry.table T) ∈ w.dynamics → isTurnKey k = false →
      ∀ ao t, (ao, t) ∈ T →
      (∀ a, ao = some a → GKey.act a ∈ parentsOf G (.st (makeFuture k))) ∧
      (∀ p, p ∈ t.stateKeys → GKey.st p ∈ parentsOf G (.st (makeFuture k)))) :=
  ⟨fun w d1 d2 k b ht hm => computeGraph_sentinel_skip w d1 d2 k b ht hm,
   fun _ _ h => computeGraph_dyn_edges h⟩

/-- Witness for C5 at the example world: inserting a sentinel entry for
feature b changes nothing, and the tree-valued entry for b gives b's post
node the action parent and the a-pre parent. -/
theorem claimC5_witness :
    (isTurnKey (stateKey "ag" "b" false) = false ∧
     GKey.st (stateKey "ag" "b" false) ∈ keysOf (nodesOf exW) ∧
     computeGraph
         { exW with dynamics :=
             [] ++ (stateKey "ag" "b" false, DynEntry.sentinel true) :: exW.dynamics } =
       computeGraph { exW with dynamics := [] ++ exW.dynamics }) ∧
    (computeGraph exW = Except.ok exG ∧
     (stateKey "ag" "b" false, DynEntry.table [(some actR, treeA)]) ∈ exW.dynamics ∧
     GKey.act actR ∈ parentsOf exG (.st (makeFuture (stateKey "ag" "b" false))) ∧
     GKey.st (stateKey "ag" "a" false) ∈
       parentsOf exG (.st (makeFuture (stateKey "ag" "b" false)))) := by
  constructor
  · exact ⟨rfl, by decide,
      claimC5.1 exW [] exW.dynamics (stateKey "ag" "b" false) true rfl (by decide)⟩
  · refine ⟨rfl, List.mem_singleton.mpr rfl, ?_, ?_⟩
    · exact (claimC5.2 exW exG (rfl : computeGraph exW = Except.ok exG) (stateKey "ag" "b" false) [(some actR, treeA)]
        (List.mem_singleton.mpr rfl) rfl (some actR) treeA
        (List.mem_singleton.mpr rfl)).1 actR rfl
    · exact (claimC5.2 exW exG (rfl : computeGraph exW = Except.ok exG) (stateKey "ag" "b" false) [(some actR, treeA)]
        (List.mem_singleton.mpr rfl) rfl (some actR) treeA
        (List.mem_singleton.mpr rfl)).2 (stateKey "ag" "a" false) (by decide)

/-- C6: in the evaluation computed for a built graph, the present-tagged key
of each declared per-entity state variable sits in exactly the bucket indexed
by the level of the variable's post node. -/
theorem claimC6 {w : World} {G : Graph} (h : computeGraph w = Except.ok G)
    {ev : List (List SKey)} (hev : computeEvaluation w (computeLineage G) = Except.ok ev)
    {a : String} {fs : List String} {f : String}
    (hmem : (a, fs) ∈ w.locals) (hf : f ∈ fs) :
    ∃ L, (computeLineage G).level (.st (stateKey a f true)) = some L ∧
      ∀ i, (stateKey a f false ∈ ev.getD i [] ↔ i = L) :=
  computeEvaluation_bucket hev hmem hf

/-- Witness for C6 at the example world's feature b. -/
theorem claimC6_witness :
    computeGraph exW = Except.ok exG ∧
    computeEvaluation exW (computeLineage exG) =
      Except.ok [[stateKey "ag" "a" false], [], [stateKey "ag" "b" false]] ∧
    ("ag", ["a", "b"]) ∈ exW.locals ∧ "b" ∈ (["a", "b"] : List String) ∧
    (∃ L, (computeLineage exG).level (.st (stateKey "ag" "b" true)) = some L ∧
      ∀ i, (stateKey "ag" "b" false ∈
        ([[stateKey "ag" "a" false], [], [stateKey "ag" "b" false]] : List (List SKey)).getD i []
        ↔ i = L)) :=
  ⟨rfl, rfl, List.mem_singleton.mpr rfl, by decide,
   @claimC6 exW exG rfl [[stateKey "ag" "a" false], [], [stateKey "ag" "b" false]] rfl "ag" ["a", "b"] "b" (List.mem_singleton.mpr rfl) (by decide)⟩

/-- C7: every declared action set contributes its root-reduced form as a node
of the built graph, the built graph's keys have no duplicates, and adding an
action set whose root-reduced node already exists leaves the graph unchanged —
the dedup step neither creates a second node nor overwrites the first. -/
theorem claimC7 {w : World} {G : Graph} (h : computeGraph w = Except.ok G) :
    (∀ name ag a, (name, ag) ∈ w.agents → a ∈ ag.actions →
      GKey.act (reduceAS a) ∈ keysOf G) ∧
    (keysOf G).Nodup ∧
    (∀ (G0 : Graph) (name : String) (a : ActS) (rest : List ActS),
      GKey.act (reduceAS a) ∈ keysOf G0 →
      addActionNodes G0 name (a :: rest) = addActionNodes G0 name rest) := by
  refine ⟨?_, (computeGraph_wf h).nodup,
    fun G0 name a rest hm => addActionNodes_skip G0 name a rest hm⟩
  intro name ag a hmem ha
  have hb := mem_nodesOf_action w name ag a hmem ha
  rw [(computeGraph_mono h).1.1]
  exact hb

/-- Witness for C7 at the example world, whose two joint actions share one
canonical root. -/
theorem claimC7_witness :
    computeGraph exW = Except.ok exG ∧
    reduceAS {atomA} = reduceAS {atomA2} ∧
    ((∀ name ag a, (name, ag) ∈ exW.agents → a ∈ ag.actions →
       GKey.act (reduceAS a) ∈ keysOf exG) ∧
     (keysOf exG).Nodup ∧
     (∀ (G0 : Graph) (name : String) (a : ActS) (rest : List ActS),
       GKey.act (reduceAS a) ∈ keysOf G0 →
       addActionNodes G0 name (a :: rest) = addActionNodes G0 name rest)) :=
  ⟨rfl, by decide, @claimC7 exW exG rfl⟩

/-- C8: predictResult groups the action atoms by object, and for each
targeted object calls step with real := false and the key set holding only
that object's invader and owner keys, returning a record whose leader is the
winner-state feature and whose winner is the owner feature of the predicted
state; the world value is left untouched (step and getState are modelled from
the spec, their module being absent from the sources). -/
theorem claimC8 {w : RWorld} {actions : List (String × List Atom)}
    {res : List (String × PredRec)} (h : predictResult w actions = Except.ok res) :
    (∀ o, (∃ pr, (o, pr) ∈ res) ↔ ∃ na, na ∈ actions ∧ ∃ b, b ∈ na.2 ∧ b.obj = some o) ∧
    ∀ o pr, (o, pr) ∈ res →
      (∀ b, b ∈ pr.acts ↔ ∃ na, na ∈ actions ∧ b ∈ na.2 ∧ b.obj = some o) ∧
      ∃ out, w.step pr.acts false
          {stateKey o "invader" false, stateKey o "owner" false} = [out] ∧
        pr.leader = out.newState (stateKey o w.winnerState false) ∧
        pr.winner = out.newState (stateKey o "owner" false) :=
  predictResult_spec h

/-- Witness for C8 at the example ResourceWorld. -/
theorem claimC8_witness :
    predictResult exRW exActs = Except.ok exRes ∧
    ((∀ o, (∃ pr, (o, pr) ∈ exRes) ↔
       ∃ na, na ∈ exActs ∧ ∃ b, b ∈ na.2 ∧ b.obj = some o) ∧
     ∀ o pr, (o, pr) ∈ exRes →
       (∀ b, b ∈ pr.acts ↔ ∃ na, na ∈ exActs ∧ b ∈ na.2 ∧ b.obj = some o) ∧
       ∃ out, exRW.step pr.acts false
           {stateKey o "invader" false, stateKey o "owner" false} = [out] ∧
         pr.leader = out.newState (stateKey o exRW.winnerState false) ∧
         pr.winner = out.newState (stateKey o "owner" false)) :=
  ⟨rfl, @claimC8 exRW exActs exRes rfl⟩

/-- C9: in a built graph the parent and child sets are mutually consistent —
for any two nodes m and n, n is a parent of m exactly when m is a child of
n. -/
theorem claimC9 {w : World} {G : Graph} (h : computeGraph w = Except.ok G) :
    ∀ m, m ∈ keysOf G → ∀ n, n ∈ keysOf G →
      (n ∈ parentsOf G m ↔ m ∈ childrenOf G n) := by
  have wf := computeGraph_wf h
  intro m hm n hn
  constructor
  · intro hp
    exact (wf.dualCP m hm n hp).2
  · intro hc
    exact (wf.dualPC n hn m hc).2

/-- Witness for C9 at the example world. -/
theorem claimC9_witness :
    computeGraph exW = Except.ok exG ∧
    ∀ m, m ∈ keysOf exG → ∀ n, n ∈ keysOf exG →
      (n ∈ parentsOf exG m ↔ m ∈ childrenOf exG n) :=
  ⟨rfl, @claimC9 exW exG rfl⟩

/-- C10: a dynamics entry keyed by a turn key is skipped before the node
existence assert, so removing it from the table leaves computeGraph's result
unchanged — even when the key has no node and the entry is tree-valued, no
error is raised and no edge is added. -/
theorem claimC10 (w : World) (d1 d2 : List (SKey × DynEntry)) (k : SKey) (e : DynEntry)
    (ht : isTurnKey k = true) :
    computeGraph { w with dynamics := d1 ++ (k, e) :: d2 } =
      computeGraph { w with dynamics := d1 ++ d2 } :=
  computeGraph_turn_skip w d1 d2 k e ht

/-- Witness for C10: a turn-keyed tree-valued entry over a node-less key
changes nothing at the example world. -/
theorem claimC10_witness :
    isTurnKey (stateKey "ag" turnFeature false) = true ∧
    computeGraph
        { exW with dynamics :=
            [] ++ (stateKey "ag" turnFeature false,
              DynEntry.table [(some actR, treeA)]) :: exW.dynamics } =
      computeGraph { exW with dynamics := [] ++ exW.dynamics } :=
  ⟨rfl, claimC10 exW [] exW.dynamics (stateKey "ag" turnFeature false)
    (DynEntry.table [(some actR, treeA)]) rfl⟩

end Psy
